import Mathlib

/-!
# Parallel risk-computation engine: embedding and verified properties

Shallow embedding of `lib/aggregator.cc`, `lib/greeks.cc`, `lib/monte_carlo.cc` and
`lib/system.cc`.

Conventions of the embedding.

* `double` values are elements of an arbitrary linear ordered field `α` (exact
  arithmetic); every theorem holds for `ℚ` and for `ℝ`.  Where a claim fails through the
  rounding or the range of binary64, the failure is shown on `ℚ` with `round_binary64`
  applied to the result of each operation, or with a `<cmath>` function that underflows.
* In `aggregator.cc` and `monte_carlo.cc`, where the code guards its divisors, a quotient
  exists only for a non-zero divisor: `checked_div` returns `none` when the divisor is
  zero, and so does a look-up outside the bounds of a vector.  A run that returns `some r`
  has therefore performed no division by zero and no out-of-range read.
* In `greeks.cc` the divisions are not guarded and a `double` division does not trap:
  `ieee_div` is the field quotient for a non-zero divisor and an open value, the field
  `div_zero` of `Libm`, for a zero divisor.  The pricing functions are therefore total.
* `std::unordered_map<std::string, NetExposure>` is an association list; `operator[]` is
  `map_update`, which value-initialises a missing entry.  The order of the list is the
  iteration order of the container.
* The threads of a fan-out write to disjoint slots and are joined before the merge, so
  the workers are run one after the other, in the order of their thread ids.
* `<cmath>` and `<random>` are not part of the repository: the functions used from them
  are the fields of `Libm` and `Rng`.
-/

set_option linter.unusedSectionVars false

namespace trading

/-! ## Arithmetic helpers -/

/-- Quotient `x / y` of two doubles, defined only when the divisor is not zero. -/
def checked_div {α : Type} [LinearOrderedField α] (x y : α) : Option α :=
  if y = 0 then none else some (x / y)

/-- Functions and constants taken from `<cmath>`, and the value of a division by zero. -/
structure Libm (α : Type) where
  /-- Complementary error function `std::erfc`. -/
  erfc : α → α
  /-- Exponential `std::exp`. -/
  exp : α → α
  /-- Natural logarithm `std::log`. -/
  log : α → α
  /-- Square root `std::sqrt`. -/
  sqrt : α → α
  /-- Constant `M_SQRT1_2`. -/
  M_SQRT1_2 : α
  /-- Constant `M_PI`. -/
  M_PI : α
  /-- The double `x / 0.0`: an IEEE 754 division does not trap, a zero divisor gives an
  infinity or a NaN. The value is left open; no property of it is assumed. -/
  div_zero : α → α

/-- Quotient `x / y` of two doubles where the code does not guard the divisor: the field
quotient when `y` is not zero, the open value `m.div_zero x` otherwise. -/
def ieee_div {α : Type} [LinearOrderedField α] (m : Libm α) (x y : α) : α :=
  if y = 0 then m.div_zero x else x / y

/-- The integer nearest to `q`, the even one of the two when `q` lies half-way. -/
def round_half_even (q : ℚ) : Int :=
  if q - ⌊q⌋ < 1 / 2 then ⌊q⌋
  else if 1 / 2 < q - ⌊q⌋ then ⌊q⌋ + 1
  else if ⌊q⌋ % 2 = 0 then ⌊q⌋ else ⌊q⌋ + 1

/-- Exponent of the binade of a binary64 magnitude `a`: `floor(log2 a)`, and `-1022` in
the subnormal range. -/
def binary64_exponent (a : ℚ) : Int := max (Int.log 2 a) (-1022)

/-- Rounding of the exact result of an arithmetic operation to binary64 (IEEE 754, round to
nearest, ties to even): the nearest multiple of `2 ^ (e - 52)`, `e` the exponent of the
binade. Magnitudes of `2 ^ 1024` or more, which binary64 turns into an infinity, are
outside the model. -/
def round_binary64 (x : ℚ) : ℚ :=
  let ulp : ℚ := 2 ^ (binary64_exponent |x| - 52)
  round_half_even (x / ulp) * ulp

/-- Generator pair `std::mt19937 rng(seed)` / `std::normal_distribution<double>`:
`seed` builds the state, `normal` is one call `normal(rng)`. -/
structure Rng (α : Type) where
  /-- State of the engine together with the state of the distribution object. -/
  State : Type
  /-- Constructor `std::mt19937 rng(seed)`. -/
  seed : Nat → State
  /-- One draw `normal(rng)`: the variate and the next state. -/
  normal : State → α × State

/-- Sort `std::sort(first, last, comp)`: the result is ordered so that no later element
precedes an earlier one under `comp`. -/
def std_sort {β : Type} (comp : β → β → Prop) [DecidableRel comp] (l : List β) : List β :=
  l.insertionSort (fun a b => ¬ comp b a)

/-! ## Data model -/

/-- Instrument kind, `enum class PositionType`. -/
inductive PositionType where
  | STOCK
  | OPTION_CALL
  | OPTION_PUT
  deriving DecidableEq, Repr

/-- A trading position, `struct Position`. -/
structure Position (α : Type) where
  symbol : String
  quantity : α
  price : α
  volatility : α
  type : PositionType
  strike : α
  time_to_expiry : α
  risk_free_rate : α

/-- Per-symbol aggregate, `struct NetExposure`. -/
structure NetExposure (α : Type) where
  quantity : α
  notional : α
  avg_price : α
  position_count : Int
  deriving DecidableEq

/-- Result of an aggregation, `struct AggregationResult`. -/
structure AggregationResult (α : Type) where
  by_symbol : List (String × NetExposure α)
  total_long_exposure : α
  total_short_exposure : α
  net_exposure : α
  total_positions : Int
  deriving DecidableEq

/-- Sensitivities of one position, `struct Greeks`. -/
structure Greeks (α : Type) where
  price : α
  delta : α
  gamma : α
  vega : α
  theta : α
  deriving DecidableEq

/-- Summary of a P&L distribution, `struct VaRResult`. -/
structure VaRResult (α : Type) where
  var_95 : α
  var_99 : α
  expected_shortfall : α
  mean_pnl : α
  std_pnl : α
  deriving DecidableEq

/-! ## Association list standing for `std::unordered_map` -/

/-- Look-up `m.find(k)`. -/
def map_find {β : Type} : List (String × β) → String → Option β
  | [], _ => none
  | (k', v) :: rest, k => if k' = k then some v else map_find rest k

/-- Keys of the map. -/
def map_keys {β : Type} (m : List (String × β)) : List String :=
  m.map Prod.fst

/-- Statement `f(m[k])`: `operator[]` finds the entry of `k`, or inserts the
value-initialised entry `dflt`, and `f` updates it in place. -/
def map_update {β : Type} (dflt : β) : List (String × β) → String → (β → β) → List (String × β)
  | [], k, f => [(k, f dflt)]
  | (k', v) :: rest, k, f =>
    if k' = k then (k', f v) :: rest else (k', v) :: map_update dflt rest k f

/-- Statement `f(m[k])` where the update `f` may divide. -/
def map_updateM {β : Type} (dflt : β) :
    List (String × β) → String → (β → Option β) → Option (List (String × β))
  | [], k, f => (f dflt).map (fun v => [(k, v)])
  | (k', v) :: rest, k, f =>
    if k' = k then (f v).map (fun v' => (k', v') :: rest)
    else (map_updateM dflt rest k f).map (fun rest' => (k', v) :: rest')

/-! ## Work partitioning (`aggregator.cc` 50-54, `greeks.cc` 116-123, `monte_carlo.cc` 97-109) -/

/-- Chunk `(positions.size() + num_threads - 1) / num_threads`. -/
def chunk_size (n num_threads : Nat) : Nat :=
  (n + num_threads - 1) / num_threads

/-- Start `thread_id * chunk_size` of the range of worker `thread_id`. -/
def worker_start (n num_threads thread_id : Nat) : Nat :=
  thread_id * chunk_size n num_threads

/-- End `std::min(start + chunk_size, positions.size())` of the range of a worker. -/
def worker_end (n num_threads thread_id : Nat) : Nat :=
  min (worker_start n num_threads thread_id + chunk_size n num_threads) n

/-- Trial count `sims_per_thread + (t < remainder ? 1 : 0)` of worker `t`. -/
def sims_for_thread (num_simulations num_threads t : Nat) : Nat :=
  num_simulations / num_threads + (if t < num_simulations % num_threads then 1 else 0)

/-- Seed `seed + thread_id * 12345` of worker `thread_id`, in `unsigned int` arithmetic. -/
def thread_seed (seed thread_id : Nat) : Nat :=
  (seed + thread_id * 12345) % 2 ^ 32

section Kernels

variable {α : Type} [LinearOrderedField α]

/-! ## Aggregation (`aggregator.cc`) -/

/-- Value-initialised `NetExposure`. -/
def NetExposure.zero : NetExposure α := ⟨0, 0, 0, 0⟩

/-- Lines 24-26 (and 67-69): fold one position into the entry of its symbol. -/
def fold_position (pos : Position α) (exposure : NetExposure α) : NetExposure α :=
  { exposure with
    quantity := exposure.quantity + pos.quantity
    notional := exposure.notional + pos.quantity * pos.price
    position_count := exposure.position_count + 1 }

/-- Lines 28-30 (and 109-111): `if (exp.quantity != 0.0) exp.avg_price = exp.notional / exp.quantity`. -/
def set_avg_price (exposure : NetExposure α) : Option (NetExposure α) :=
  if exposure.quantity ≠ 0 then
    (checked_div exposure.notional exposure.quantity).map
      (fun avg => { exposure with avg_price := avg })
  else some exposure

/-- Lines 32-37 (and 71-76): classify the notional as long or short and add it to the net. -/
def add_exposure (result : AggregationResult α) (notional : α) : AggregationResult α :=
  let result :=
    if notional > 0 then
      { result with total_long_exposure := result.total_long_exposure + notional }
    else
      { result with total_short_exposure := result.total_short_exposure + |notional| }
  { result with net_exposure := result.net_exposure + notional }

/-- Freshly initialised result: empty map, zero totals (lines 14-18, 56-60, 89-93). -/
def AggregationResult.init (total_positions : Int) : AggregationResult α :=
  { by_symbol := [], total_long_exposure := 0, total_short_exposure := 0,
    net_exposure := 0, total_positions := total_positions }

/-- Body of the loop of `aggregate_positions_single` (lines 20-38). -/
def single_step (result : AggregationResult α) (pos : Position α) :
    Option (AggregationResult α) := do
  let notional := pos.quantity * pos.price
  let by_symbol ← map_updateM NetExposure.zero result.by_symbol pos.symbol
    (fun exposure => set_avg_price (fold_position pos exposure))
  pure (add_exposure { result with by_symbol := by_symbol } notional)

/-- Function `aggregate_positions_single`. -/
def aggregate_positions_single (positions : List (Position α)) :
    Option (AggregationResult α) :=
  positions.foldlM single_step (AggregationResult.init (positions.length : Int))

/-- Body of the loop of a worker of `aggregate_positions_multi` (lines 62-78). -/
def worker_step (loc : AggregationResult α) (pos : Position α) : AggregationResult α :=
  let notional := pos.quantity * pos.price
  let by_symbol := map_update NetExposure.zero loc.by_symbol pos.symbol (fold_position pos)
  let loc := add_exposure { loc with by_symbol := by_symbol } notional
  { loc with total_positions := loc.total_positions + 1 }

/-- Worker of `aggregate_positions_multi` (lines 52-79): the partial result of the
positions with index in `[start, end)`. -/
def aggregate_worker (positions : List (Position α)) (num_threads thread_id : Nat) :
    AggregationResult α :=
  let start := worker_start positions.length num_threads thread_id
  let end_ := worker_end positions.length num_threads thread_id
  ((positions.take end_).drop start).foldl worker_step (AggregationResult.init 0)

/-- Lines 97-100: add one entry of a partial result to the final entry of its symbol. -/
def merge_entry (m : List (String × NetExposure α)) (entry : String × NetExposure α) :
    List (String × NetExposure α) :=
  map_update NetExposure.zero m entry.1 (fun final_exp =>
    { final_exp with
      quantity := final_exp.quantity + entry.2.quantity
      notional := final_exp.notional + entry.2.notional
      position_count := final_exp.position_count + entry.2.position_count })

/-- Body of the merge loop of `aggregate_positions_multi` (lines 95-106). -/
def merge_partial_result (final_result part : AggregationResult α) : AggregationResult α :=
  { by_symbol := part.by_symbol.foldl merge_entry final_result.by_symbol
    total_long_exposure := final_result.total_long_exposure + part.total_long_exposure
    total_short_exposure := final_result.total_short_exposure + part.total_short_exposure
    net_exposure := final_result.net_exposure + part.net_exposure
    total_positions := final_result.total_positions + part.total_positions }

/-- Loop of lines 108-112 over the entries of the merged map. -/
def recompute_avg_prices :
    List (String × NetExposure α) → Option (List (String × NetExposure α))
  | [] => some []
  | (symbol, exp) :: rest => do
    let exp' ← set_avg_price exp
    let rest' ← recompute_avg_prices rest
    pure ((symbol, exp') :: rest')

/-- Function `aggregate_positions_multi`.  The chunk size is an integer quotient by
`num_threads`, so no result exists for `num_threads = 0`. -/
def aggregate_positions_multi (positions : List (Position α)) (num_threads : Nat) :
    Option (AggregationResult α) :=
  if num_threads = 0 then none
  else do
    let partial_results :=
      (List.range num_threads).map (aggregate_worker positions num_threads)
    let final_result := partial_results.foldl merge_partial_result (AggregationResult.init 0)
    let by_symbol ← recompute_avg_prices final_result.by_symbol
    pure { final_result with by_symbol := by_symbol }

/-- Comparator of `get_top_exposures`:
`std::abs(a.second.notional) > std::abs(b.second.notional)`. -/
def exposure_comp (a b : String × NetExposure α) : Prop :=
  |a.2.notional| > |b.2.notional|

instance exposure_comp_decidable : DecidableRel (@exposure_comp α _) :=
  fun a b => inferInstanceAs (Decidable (|a.2.notional| > |b.2.notional|))

/-- Function `get_top_exposures`. -/
def get_top_exposures (result : AggregationResult α) (top_n : Nat) :
    List (String × NetExposure α) :=
  let exposures := std_sort exposure_comp result.by_symbol
  if exposures.length > top_n then exposures.take top_n else exposures

/-! ## Greeks (`greeks.cc`) -/

/-- Value-initialised `Greeks`. -/
def Greeks.zero : Greeks α :=
  { price := 0, delta := 0, gamma := 0, vega := 0, theta := 0 }

/-- Function `normal_cdf`: `0.5 * std::erfc(-x * M_SQRT1_2)`. -/
def normal_cdf (m : Libm α) (x : α) : α :=
  1 / 2 * m.erfc (-x * m.M_SQRT1_2)

/-- Function `normal_pdf`: `std::exp(-0.5 * x * x) / std::sqrt(2.0 * M_PI)`. -/
def normal_pdf (m : Libm α) (x : α) : α :=
  ieee_div m (m.exp (-(1 / 2) * x * x)) (m.sqrt (2 * m.M_PI))

/-- Function `black_scholes_price`. The two divisions of lines 38-39 are not guarded. -/
def black_scholes_price (m : Libm α) (spot strike vol rate time : α) (is_call : Bool) : α :=
  if time ≤ 0 ∨ vol ≤ 0 then
    let intrinsic := if is_call then max (spot - strike) 0 else max (strike - spot) 0
    intrinsic
  else
    let d1 := ieee_div m (m.log (ieee_div m spot strike) + (rate + 1 / 2 * vol * vol) * time)
      (vol * m.sqrt time)
    let d2 := d1 - vol * m.sqrt time
    if is_call then
      spot * normal_cdf m d1 - strike * m.exp (-rate * time) * normal_cdf m d2
    else
      strike * m.exp (-rate * time) * normal_cdf m (-d2) - spot * normal_cdf m (-d1)

/-- Function `calculate_greeks`. The three divisions of lines 77-84 are not guarded. -/
def calculate_greeks (m : Libm α) (pos : Position α) (bump_size : α) : Greeks α :=
  if pos.type = PositionType.STOCK then
    { price := pos.price, delta := 1, gamma := 0, vega := 0, theta := 0 }
  else
    let is_call := decide (pos.type = PositionType.OPTION_CALL)
    let spot := pos.price
    let strike := pos.strike
    let vol := pos.volatility
    let rate := pos.risk_free_rate
    let time := pos.time_to_expiry
    let price := black_scholes_price m spot strike vol rate time is_call
    let spot_up := spot * (1 + bump_size)
    let spot_down := spot * (1 - bump_size)
    let price_up := black_scholes_price m spot_up strike vol rate time is_call
    let price_down := black_scholes_price m spot_down strike vol rate time is_call
    let delta := ieee_div m (price_up - price_down) (spot_up - spot_down)
    let gamma := ieee_div m (price_up - 2 * price + price_down)
      ((spot * bump_size) * (spot * bump_size))
    let vol_up := vol + bump_size
    let price_vol_up := black_scholes_price m spot strike vol_up rate time is_call
    let vega := ieee_div m (price_vol_up - price) bump_size
    let time_down := max (time - 1 / 365) (1 / 1000)
    let price_time_down := black_scholes_price m spot strike vol rate time_down is_call
    let theta := (price_time_down - price) * 365
    { price := price, delta := delta, gamma := gamma, vega := vega, theta := theta }

/-- Function `calculate_all_greeks_single`: one `push_back` per position. -/
def calculate_all_greeks_single (m : Libm α) (positions : List (Position α))
    (bump_size : α) : List (Greeks α) :=
  positions.foldl (fun results pos => results ++ [calculate_greeks m pos bump_size]) []

/-- Worker of `calculate_all_greeks_multi` (lines 109-113):
`results[i] = calculate_greeks(positions[i], bump_size)` for `i` in `[start, end)`. -/
def greeks_worker (m : Libm α) (positions : List (Position α)) (bump_size : α)
    (results : List (Greeks α)) (start end_ : Nat) : Option (List (Greeks α)) :=
  (List.range' start (end_ - start)).foldlM (fun results i => do
    let pos ← positions[i]?
    pure (results.set i (calculate_greeks m pos bump_size))) results

/-- Function `calculate_all_greeks_multi`: the result vector starts value-initialised and
a worker is spawned for every thread id whose range is not empty. -/
def calculate_all_greeks_multi (m : Libm α) (positions : List (Position α))
    (num_threads : Nat) (bump_size : α) : Option (List (Greeks α)) :=
  if num_threads = 0 then none
  else
    (List.range num_threads).foldlM (fun results t =>
      let start := worker_start positions.length num_threads t
      let end_ := worker_end positions.length num_threads t
      if start < end_ then greeks_worker m positions bump_size results start end_
      else pure results)
      (List.replicate positions.length Greeks.zero)

/-- Function `total_portfolio_delta`: the loop runs over the indices of `greeks` and
reads `positions[i]`. -/
def total_portfolio_delta (greeks : List (Greeks α)) (positions : List (Position α)) :
    Option α :=
  (List.range greeks.length).foldlM (fun total i => do
    let g ← greeks[i]?
    let pos ← positions[i]?
    pure (total + g.delta * pos.quantity)) 0

/-! ## Monte Carlo (`monte_carlo.cc`) -/

/-- One trial of `simulate_portfolio_pnl` (lines 25-35): one draw per position. -/
def simulate_trial (m : Libm α) (g : Rng α) (positions : List (Position α))
    (time_horizon : α) (rng : g.State) : α × g.State :=
  positions.foldl (fun (acc : α × g.State) pos =>
    let draw := g.normal acc.2
    let z := draw.1
    let drift := (pos.risk_free_rate - 1 / 2 * pos.volatility * pos.volatility) * time_horizon
    let diffusion := pos.volatility * m.sqrt time_horizon * z
    let price_change_factor := m.exp (drift + diffusion)
    let new_price := pos.price * price_change_factor
    let position_pnl := pos.quantity * (new_price - pos.price)
    (acc.1 + position_pnl, draw.2)) (0, rng)

/-- Loop over the trials of `simulate_portfolio_pnl` (lines 24-38), the generator state
passed from one trial to the next. -/
def simulate_loop (m : Libm α) (g : Rng α) (positions : List (Position α))
    (time_horizon : α) : Nat → g.State → List α
  | 0, _ => []
  | n + 1, rng =>
    let trial := simulate_trial m g positions time_horizon rng
    trial.1 :: simulate_loop m g positions time_horizon n trial.2

/-- Function `simulate_portfolio_pnl`. -/
def simulate_portfolio_pnl (m : Libm α) (g : Rng α) (positions : List (Position α))
    (num_simulations : Nat) (time_horizon : α) (seed : Nat) : List α :=
  simulate_loop m g positions time_horizon num_simulations (g.seed seed)

/-- Index `static_cast<size_t>(n * 0.05)`. -/
def idx_95 (n : Nat) : Nat := n * 5 / 100

/-- Index `static_cast<size_t>(n * 0.01)`. -/
def idx_99 (n : Nat) : Nat := n * 1 / 100

/-- Function `calculate_var`. -/
def calculate_var (m : Libm α) (pnl_values : List α) : Option (VaRResult α) :=
  if pnl_values.isEmpty then
    some { var_95 := 0, var_99 := 0, expected_shortfall := 0, mean_pnl := 0, std_pnl := 0 }
  else do
    let sorted_pnl := std_sort (fun a b => a < b) pnl_values
    let n := sorted_pnl.length
    let v95 ← sorted_pnl[idx_95 n]?
    let v99 ← sorted_pnl[idx_99 n]?
    let es_sum ← (List.range (idx_99 n + 1)).foldlM (fun es_sum i => do
      let v ← sorted_pnl[i]?
      pure (es_sum + v)) 0
    let expected_shortfall ← checked_div (-es_sum) ((idx_99 n + 1 : Nat) : α)
    let sum := pnl_values.foldl (fun acc x => acc + x) 0
    let mean_pnl ← checked_div sum (n : α)
    let sq_sum := pnl_values.foldl
      (fun sq_sum pnl => sq_sum + (pnl - mean_pnl) * (pnl - mean_pnl)) 0
    let variance ← checked_div sq_sum (n : α)
    pure { var_95 := -v95, var_99 := -v99, expected_shortfall := expected_shortfall,
           mean_pnl := mean_pnl, std_pnl := m.sqrt variance }

/-- Function `calculate_var` with the result of every `+`, `-`, `*` and `/` on doubles
rounded by `fl`; negation and the conversion of a `size_t` to `double` are exact for the
sizes of a vector. With `fl = id` this is `calculate_var`; with `fl = round_binary64` it is
the arithmetic of the compiled code (the variance loop is taken without fused
multiply-add; no statement depends on it). -/
def calculate_var_rounded (fl : α → α) (m : Libm α) (pnl_values : List α) :
    Option (VaRResult α) :=
  if pnl_values.isEmpty then
    some { var_95 := 0, var_99 := 0, expected_shortfall := 0, mean_pnl := 0, std_pnl := 0 }
  else do
    let sorted_pnl := std_sort (fun a b => a < b) pnl_values
    let n := sorted_pnl.length
    let v95 ← sorted_pnl[idx_95 n]?
    let v99 ← sorted_pnl[idx_99 n]?
    let es_sum ← (List.range (idx_99 n + 1)).foldlM (fun es_sum i => do
      let v ← sorted_pnl[i]?
      pure (fl (es_sum + v))) 0
    let expected_shortfall ← (checked_div (-es_sum) ((idx_99 n + 1 : Nat) : α)).map fl
    let sum := pnl_values.foldl (fun acc x => fl (acc + x)) 0
    let mean_pnl ← (checked_div sum (n : α)).map fl
    let sq_sum := pnl_values.foldl
      (fun sq_sum pnl => fl (sq_sum + fl (fl (pnl - mean_pnl) * fl (pnl - mean_pnl)))) 0
    let variance ← (checked_div sq_sum (n : α)).map fl
    pure { var_95 := -v95, var_99 := -v99, expected_shortfall := expected_shortfall,
           mean_pnl := mean_pnl, std_pnl := m.sqrt variance }

/-- Function `run_monte_carlo_single`. -/
def run_monte_carlo_single (m : Libm α) (g : Rng α) (positions : List (Position α))
    (num_simulations : Nat) (time_horizon : α) (seed : Nat) : Option (VaRResult α) :=
  calculate_var m (simulate_portfolio_pnl m g positions num_simulations time_horizon seed)

/-- The vector `thread_results` of `run_monte_carlo_multi` after the join
(lines 97-113): slot `t` holds the samples of worker `t`. -/
def monte_carlo_thread_results (m : Libm α) (g : Rng α) (positions : List (Position α))
    (num_simulations : Nat) (time_horizon : α) (num_threads : Nat) (seed : Nat) :
    List (List α) :=
  (List.range num_threads).map (fun t =>
    simulate_portfolio_pnl m g positions (sims_for_thread num_simulations num_threads t)
      time_horizon (thread_seed seed t))

/-- The vector `all_pnl` of `run_monte_carlo_multi` (lines 115-119): the slots of
`thread_results` appended in order. -/
def monte_carlo_all_pnl (m : Libm α) (g : Rng α) (positions : List (Position α))
    (num_simulations : Nat) (time_horizon : α) (num_threads : Nat) (seed : Nat) : List α :=
  (monte_carlo_thread_results m g positions num_simulations time_horizon num_threads
    seed).flatten

/-- Function `run_monte_carlo_multi`.  The trial counts are integer quotients by
`num_threads`, so no result exists for `num_threads = 0`. -/
def run_monte_carlo_multi (m : Libm α) (g : Rng α) (positions : List (Position α))
    (num_simulations : Nat) (time_horizon : α) (num_threads : Nat) (seed : Nat) :
    Option (VaRResult α) :=
  if num_threads = 0 then none
  else
    calculate_var m
      (monte_carlo_all_pnl m g positions num_simulations time_horizon num_threads seed)

/-! ## Reference quantities and total counterparts used in the statements and proofs -/

/-- Entry of symbol `s`, the value-initialised entry when `s` is not a key. -/
def map_entry (m : List (String × NetExposure α)) (s : String) : NetExposure α :=
  (map_find m s).getD NetExposure.zero

/-- The folded fields of an entry: quantity, notional and position count. -/
def NetExposure.core (e : NetExposure α) : α × α × Int :=
  (e.quantity, e.notional, e.position_count)

/-- Notional `quantity * price` of a position. -/
def Position.notional (p : Position α) : α :=
  p.quantity * p.price

/-- The positions of symbol `s`, in input order. -/
def sym_positions (positions : List (Position α)) (s : String) : List (Position α) :=
  positions.filter (fun p => p.symbol = s)

/-- Sum of the quantities of the positions of symbol `s`. -/
def sym_quantity (positions : List (Position α)) (s : String) : α :=
  ((sym_positions positions s).map (fun p => p.quantity)).sum

/-- Sum of the notionals of the positions of symbol `s`. -/
def sym_notional (positions : List (Position α)) (s : String) : α :=
  ((sym_positions positions s).map Position.notional).sum

/-- Number of positions of symbol `s`. -/
def sym_count (positions : List (Position α)) (s : String) : Int :=
  ((sym_positions positions s).length : Int)

/-- Sum of the notionals that are `> 0`. -/
def long_sum (positions : List (Position α)) : α :=
  ((positions.map Position.notional).filter (fun x => x > 0)).sum

/-- Sum of `|notional|` over the notionals that are `≤ 0`. -/
def short_sum (positions : List (Position α)) : α :=
  (((positions.map Position.notional).filter (fun x => x ≤ 0)).map (fun x => |x|)).sum

/-- Sum of all notionals. -/
def net_sum (positions : List (Position α)) : α :=
  (positions.map Position.notional).sum

/-- Guarded assignment of lines 28-30 with the quotient written as field division. -/
def avg_price_total (e : NetExposure α) : NetExposure α :=
  if e.quantity ≠ 0 then { e with avg_price := e.notional / e.quantity } else e

/-- Loop body of `aggregate_positions_single` with the quotient written as field division. -/
def single_step_total (result : AggregationResult α) (pos : Position α) :
    AggregationResult α :=
  add_exposure
    { result with
      by_symbol := map_update NetExposure.zero result.by_symbol pos.symbol
        (fun e => avg_price_total (fold_position pos e)) }
    (pos.quantity * pos.price)

/-- The slice of worker `t`: the positions with index in `[start, end)`. -/
def worker_slice (positions : List (Position α)) (num_threads t : Nat) : List (Position α) :=
  (positions.take (worker_end positions.length num_threads t)).drop
    (worker_start positions.length num_threads t)

/-- Common shape of the two loop bodies: `g` is applied to the folded entry and `inc` is
added to `total_positions`. -/
def gen_step (g : NetExposure α → NetExposure α) (inc : Int) (result : AggregationResult α)
    (pos : Position α) : AggregationResult α :=
  { add_exposure
      { result with
        by_symbol := map_update NetExposure.zero result.by_symbol pos.symbol
          (fun e => g (fold_position pos e)) }
      (pos.quantity * pos.price) with
    total_positions := result.total_positions + inc }

/-- Partial result of a worker that owns the slice `sl` (lines 56-78). -/
def worker_fold (sl : List (Position α)) : AggregationResult α :=
  sl.foldl worker_step (AggregationResult.init 0)

/-- Merge loop (lines 95-106) over the partial results of the slices `ls`. -/
def merge_slices (R : AggregationResult α) (ls : List (List (Position α))) :
    AggregationResult α :=
  (ls.map worker_fold).foldl merge_partial_result R

/-- Result of `aggregate_positions_multi` with the quotient written as field division. -/
def multi_total (positions : List (Position α)) (num_threads : Nat) : AggregationResult α :=
  let final_result := merge_slices (AggregationResult.init 0)
    ((List.range num_threads).map (worker_slice positions num_threads))
  { final_result with
    by_symbol := final_result.by_symbol.map (fun se => (se.1, avg_price_total se.2)) }

/-- Result of `aggregate_positions_single` with the quotient written as field division. -/
def single_total (positions : List (Position α)) : AggregationResult α :=
  positions.foldl single_step_total (AggregationResult.init (positions.length : Int))

/-- Every entry with a non-zero quantity carries the quotient of its own totals. -/
def avg_consistent (m : List (String × NetExposure α)) : Prop :=
  ∀ s e, map_find m s = some e → e.quantity ≠ 0 → e.avg_price = e.notional / e.quantity

/-- Result of `calculate_var` on a non-empty vector, with the look-ups and quotients
written as total operations. -/
def calculate_var_total (m : Libm α) (pnl_values : List α) : VaRResult α :=
  let sorted_pnl := std_sort (fun a b => a < b) pnl_values
  let n := sorted_pnl.length
  let mean_pnl := pnl_values.foldl (fun acc x => acc + x) 0 / (n : α)
  { var_95 := -(sorted_pnl.getD (idx_95 n) 0)
    var_99 := -(sorted_pnl.getD (idx_99 n) 0)
    expected_shortfall := -((sorted_pnl.take (idx_99 n + 1)).sum) / ((idx_99 n + 1 : Nat) : α)
    mean_pnl := mean_pnl
    std_pnl := m.sqrt (pnl_values.foldl
      (fun sq_sum pnl => sq_sum + (pnl - mean_pnl) * (pnl - mean_pnl)) 0 / (n : α)) }

/-- The sum of a vector accumulated from the left with every partial sum rounded by `fl`. -/
def rounded_sum (fl : α → α) (l : List α) : α :=
  l.foldl (fun acc v => fl (acc + v)) 0

/-- Apply `f` to every element in order; the result exists when every application does. -/
def map_option {β γ : Type} (f : β → Option γ) : List β → Option (List γ)
  | [] => some []
  | x :: xs => (f x).bind (fun y => (map_option f xs).map (fun ys => y :: ys))

/-- State of the generator after `i` draws from the state `s`. -/
def rng_state_after (g : Rng α) (s : g.State) : Nat → g.State
  | 0 => s
  | i + 1 => (g.normal (rng_state_after g s i)).2

/-- The stream of draws of the generator seeded with `seed`: `draw_stream g seed i` is
the value of the call number `i` (from 0) of `normal(rng)`. -/
def draw_stream (g : Rng α) (seed : Nat) (i : Nat) : α :=
  (g.normal (rng_state_after g (g.seed seed) i)).1

/-- P&L of one position under geometric Brownian motion with the draw `z`:
`quantity * price * (exp((r - vol^2 / 2) * h + vol * sqrt(h) * z) - 1)`. -/
def position_pnl_formula (m : Libm α) (time_horizon : α) (pos : Position α) (z : α) : α :=
  pos.quantity * pos.price *
    (m.exp ((pos.risk_free_rate - pos.volatility ^ 2 / 2) * time_horizon
      + pos.volatility * m.sqrt time_horizon * z) - 1)

/-- Portfolio P&L of trial `k`: position `j` uses the draw of index `k * |P| + j`. -/
def trial_pnl_formula (m : Libm α) (time_horizon : α) (positions : List (Position α))
    (z : Nat → α) (k : Nat) : α :=
  (List.zipWith (fun pos j => position_pnl_formula m time_horizon pos
      (z (k * positions.length + j))) positions (List.range positions.length)).sum

end Kernels

/-! ## Environment tuner (`system.cc`) -/

/-- Requested tuning options, `struct SystemConfig`. -/
structure SystemConfig where
  cpu_affinity : List Int
  numa_node : Int
  lock_memory : Bool
  realtime_priority : Bool
  isolate_cpus : Bool
  prefault_memory : Bool
  preallocate_mb : Nat
  deriving DecidableEq

/-- Success or failure of the platform calls behind the tuning functions:
`sched_setaffinity` / `thread_policy_set` for a non-empty CPU set, the body of
`bind_numa_node`, `mlockall`, and `sched_setscheduler` / the QoS call. -/
structure OsCalls where
  sched_setaffinity : List Int → Bool
  bind_numa_node : Int → Bool
  lock_memory : Bool
  set_realtime_priority : Int → Bool

/-- A call made by `apply_system_config`. -/
inductive SystemOp where
  | set_thread_affinity (cpus : List Int)
  | bind_numa_node (node : Int)
  | lock_memory
  | set_realtime_priority (priority : Int)
  | prefault_stack (size_kb : Nat)
  | prefault_heap (size_mb : Nat)
  deriving DecidableEq

/-- Function `set_thread_affinity(const std::vector<int>&)`: an empty set fails at once. -/
def set_thread_affinity (os : OsCalls) (cpus : List Int) : Bool :=
  if cpus.isEmpty then false else os.sched_setaffinity cpus

/-- A block `if (requested) { if (!call()) { warn; success = false; } }` of
`apply_system_config`: the state is the flag `success` and the calls made so far. -/
def attempt_call (requested ok : Bool) (op : SystemOp) (st : Bool × List SystemOp) :
    Bool × List SystemOp :=
  if requested then (if !ok then false else st.1, st.2 ++ [op]) else st

/-- A block `if (requested) { call(); }` of `apply_system_config` for a `void` call. -/
def perform_call (requested : Bool) (op : SystemOp) (st : Bool × List SystemOp) :
    Bool × List SystemOp :=
  if requested then (st.1, st.2 ++ [op]) else st

/-- Function `apply_system_config`: the returned flag and the calls made, in order.  The
warnings written to `std::cerr` are not part of the state. -/
def apply_system_config (os : OsCalls) (config : SystemConfig) : Bool × List SystemOp :=
  let st : Bool × List SystemOp := (true, [])
  let st := attempt_call (!config.cpu_affinity.isEmpty)
    (set_thread_affinity os config.cpu_affinity)
    (SystemOp.set_thread_affinity config.cpu_affinity) st
  let st := attempt_call (decide (config.numa_node ≥ 0)) (os.bind_numa_node config.numa_node)
    (SystemOp.bind_numa_node config.numa_node) st
  let st := attempt_call config.lock_memory os.lock_memory SystemOp.lock_memory st
  let st := attempt_call config.realtime_priority (os.set_realtime_priority 50)
    (SystemOp.set_realtime_priority 50) st
  let st := perform_call config.prefault_memory (SystemOp.prefault_stack 64) st
  let st := perform_call (decide (config.preallocate_mb > 0))
    (SystemOp.prefault_heap config.preallocate_mb) st
  st

/-- Predicate `isspace` of the C locale: space, `\t`, `\n`, `\v`, `\f`, `\r`. -/
def c_isspace (c : Char) : Bool :=
  c = ' ' || c = Char.ofNat 9 || c = Char.ofNat 10 || c = Char.ofNat 11 ||
    c = Char.ofNat 12 || c = Char.ofNat 13

/-- Largest value of `int`. -/
def INT_MAX : Int := 2147483647

/-- Smallest value of `int`. -/
def INT_MIN : Int := -2147483648

/-- Value of a decimal digit. -/
def digit_value (c : Char) : Nat :=
  c.toNat - 48

/-- Value of a run of decimal digits. -/
def digits_value (ds : List Char) : Nat :=
  ds.foldl (fun v c => 10 * v + digit_value c) 0

/-- Function `std::stoi(str)` in base 10: leading white space is skipped, an optional sign
and the longest run of digits are read and what follows is ignored; no result
(`std::invalid_argument`) when there is no digit, and none (`std::out_of_range`) when the
value does not fit `int`. -/
def stoi (str : List Char) : Option Int :=
  let s := str.dropWhile c_isspace
  let negative := decide (s.head? = some '-')
  let s := match s with
    | '-' :: r => r
    | '+' :: r => r
    | _ => s
  let digits := s.takeWhile Char.isDigit
  if digits.isEmpty then none
  else
    let value : Int := if negative then -(digits_value digits : Int) else digits_value digits
    if INT_MIN ≤ value ∧ value ≤ INT_MAX then some value else none

/-- Loop `while (std::getline(ss, token, ','))` of `parse_cpu_list`: characters are
appended to `token` up to the next `,`, which is consumed; at the end of the input the
last token is delivered unless no character was extracted for it. -/
def getline_tokens (token : List Char) : List Char → List (List Char)
  | [] => if token.isEmpty then [] else [token]
  | c :: rest =>
    if c = ',' then token :: getline_tokens [] rest
    else getline_tokens (token ++ [c]) rest

/-- Loop `for (int i = start; i <= end; ++i) cpus.push_back(i)`: the values pushed.  For
`end = INT_MAX` and `start ≤ end` the increment overflows and no result exists. -/
def int_range (start end_ : Int) : Option (List Int) :=
  if start ≤ end_ then
    if end_ = INT_MAX then none
    else some ((List.range (end_ - start + 1).toNat).map (fun (k : Nat) => start + (k : Int)))
  else some []

/-- Body of the loop of `parse_cpu_list` (lines 292-301): the values one token adds. -/
def parse_token (token : List Char) : Option (List Int) :=
  if '-' ∈ token then do
    let start ← stoi (token.takeWhile (fun c => c ≠ '-'))
    let end_ ← stoi ((token.dropWhile (fun c => c ≠ '-')).drop 1)
    int_range start end_
  else do
    let v ← stoi token
    pure [v]

/-- Statement `cpus.erase(std::unique(cpus.begin(), cpus.end()), cpus.end())`: one element
of every run of equal neighbours is kept. -/
def std_unique : List Int → List Int
  | [] => []
  | [a] => [a]
  | a :: b :: rest => if a = b then std_unique (b :: rest) else a :: std_unique (b :: rest)

/-- Function `parse_cpu_list`. -/
def parse_cpu_list (cpu_str : String) : Option (List Int) := do
  let cpus ← (getline_tokens [] cpu_str.data).foldlM (fun cpus token => do
    let values ← parse_token token
    pure (cpus ++ values)) []
  pure (std_unique (std_sort (fun a b : Int => a < b) cpus))

/-- A token of a CPU list: a number, or a range of two numbers. -/
inductive CpuToken where
  | single (digits : List Char)
  | range (start_digits end_digits : List Char)

/-- A non-empty run of decimal digits. -/
def is_number (ds : List Char) : Prop :=
  ds ≠ [] ∧ ∀ c ∈ ds, c.isDigit = true

/-- The characters of a token. -/
def CpuToken.text : CpuToken → List Char
  | CpuToken.single ds => ds
  | CpuToken.range a b => a ++ '-' :: b

/-- A well-formed token: a non-negative decimal integer or a range `start-end`. -/
def CpuToken.well_formed : CpuToken → Prop
  | CpuToken.single ds => is_number ds
  | CpuToken.range a b => is_number a ∧ is_number b

/-- The numbers of the token fit in `int`, and a non-empty range does not end at
`INT_MAX`. -/
def CpuToken.fits_int : CpuToken → Prop
  | CpuToken.single ds => (digits_value ds : Int) ≤ INT_MAX
  | CpuToken.range a b =>
    (digits_value a : Int) ≤ INT_MAX ∧ (digits_value b : Int) ≤ INT_MAX ∧
      (digits_value a ≤ digits_value b → (digits_value b : Int) < INT_MAX)

/-- The integer `x` is named by the token: it is the number, or lies in the range. -/
def CpuToken.covers (x : Int) : CpuToken → Prop
  | CpuToken.single ds => x = (digits_value ds : Int)
  | CpuToken.range a b => (digits_value a : Int) ≤ x ∧ x ≤ (digits_value b : Int)

/-- The texts of the tokens separated by commas. -/
def join_tokens : List (List Char) → List Char
  | [] => []
  | [t] => t
  | t :: u :: rest => t ++ ',' :: join_tokens (u :: rest)

/-- The CPU-list string made of the given tokens. -/
def cpu_list_string (tokens : List CpuToken) : String :=
  String.mk (join_tokens (tokens.map CpuToken.text))

/-! ## Exact real arithmetic (reference for `<cmath>`) -/

/-- The functions and constants of `<cmath>` read as the exact real ones: `erfc x` is
`2 / sqrt pi` times the integral of `exp (-t ^ 2)` over `t > x`, and `exp`, `log`, `sqrt`,
`M_SQRT1_2`, `M_PI` are the real exponential, logarithm, square root, `1 / sqrt 2` and
`pi`. Rounding, overflow and underflow of `double` are outside this reading. -/
def Libm.exact_real (m : Libm ℝ) : Prop :=
  (∀ x, m.erfc x = 2 / Real.sqrt Real.pi * ∫ t in Set.Ioi x, Real.exp (-t ^ 2)) ∧
  (∀ x, m.exp x = Real.exp x) ∧ (∀ x, m.log x = Real.log x) ∧
  (∀ x, m.sqrt x = Real.sqrt x) ∧ m.M_SQRT1_2 = 1 / Real.sqrt 2 ∧ m.M_PI = Real.pi

/-- What the counterexample to the bounds of the call price uses of a binary64 `<cmath>`:
`erfc` underflows to 0 for every argument from 28 on (the real `erfc 28` is below
`2 ^ (-1075)`, half the smallest positive double), `log 0.1 ≤ -2`, `0 < sqrt 0.01 ≤ 0.2`
and `M_SQRT1_2 ≥ 0.7`. -/
def Libm.erfc_underflows (m : Libm ℚ) : Prop :=
  (∀ x, 28 ≤ x → m.erfc x = 0) ∧ m.log (1 / 10) ≤ -2 ∧ 0 < m.sqrt (1 / 100) ∧
  m.sqrt (1 / 100) ≤ 1 / 5 ∧ 7 / 10 ≤ m.M_SQRT1_2

/-! ## Concrete inputs (the positions of `aggregator_test.cc`) -/

/-- An equity position as written in `aggregator_test.cc`: volatility 0.3, rate 0.05. -/
def stock_position (symbol : String) (quantity price : ℚ) : Position ℚ :=
  { symbol := symbol, quantity := quantity, price := price, volatility := 3 / 10,
    type := PositionType.STOCK, strike := 0, time_to_expiry := 0, risk_free_rate := 1 / 20 }

/-- The positions of `AggregatorTest.NetExposure`: 100 and -50 of one symbol at 150. -/
def offsetting_positions : List (Position ℚ) :=
  [stock_position "AAPL" 100 150, stock_position "AAPL" (-50) 150]

/-- Two positions of one symbol that cancel exactly: 100 and -100 at 150. -/
def flat_positions : List (Position ℚ) :=
  [stock_position "AAPL" 100 150, stock_position "AAPL" (-100) 150]

/-- Three symbols, five positions. -/
def mixed_positions : List (Position ℚ) :=
  [stock_position "AAPL" 100 150, stock_position "MSFT" (-20) 300,
   stock_position "AAPL" (-50) 150, stock_position "GOOG" 10 120,
   stock_position "MSFT" 20 310]


/-- An aggregation result with three symbols, one of them net short. -/
def three_symbol_result : AggregationResult ℚ :=
  { by_symbol := [("AAPL", ⟨50, 7500, 150, 2⟩), ("MSFT", ⟨-30, -9000, 300, 2⟩),
      ("GOOG", ⟨10, 1200, 120, 1⟩)],
    total_long_exposure := 8700, total_short_exposure := 9000, net_exposure := -300,
    total_positions := 5 }

/-- Rational stand-ins for the `<cmath>` functions, used to run the kernels on concrete
inputs; no general theorem depends on them. -/
def sample_libm : Libm ℚ :=
  { erfc := fun x => 1 - x, exp := fun x => 1 + x, log := fun x => x - 1,
    sqrt := fun x => x, M_SQRT1_2 := 7 / 10, M_PI := 22 / 7, div_zero := fun _ => 0 }

/-- A counter-based generator, used to run the simulation on concrete inputs. -/
def sample_rng : Rng ℚ :=
  { State := Nat, seed := fun s => s, normal := fun s => (((s % 5 : Nat) : ℚ) - 2, s + 1) }

/-- The samples of `MonteCarloTest.CalculateVaR`: the integers from -500 to 499. -/
def test_samples : List ℚ :=
  (List.range 1000).map (fun (i : Nat) => (i : ℚ) - 500)

/-- A book with an equity, a call and a put (the option of `GreeksTest.OptionGreeks`:
spot 150, strike 155, volatility 0.3, half a year, rate 0.05). -/
def option_positions : List (Position ℚ) :=
  [stock_position "AAPL" 100 150,
   { symbol := "AAPL", quantity := 10, price := 150, volatility := 3 / 10,
     type := PositionType.OPTION_CALL, strike := 155, time_to_expiry := 1 / 2,
     risk_free_rate := 1 / 20 },
   { symbol := "MSFT", quantity := -5, price := 300, volatility := 1 / 4,
     type := PositionType.OPTION_PUT, strike := 290, time_to_expiry := 1,
     risk_free_rate := 1 / 20 }]

/-- Two hundred samples equal to the binary64 value of `-0.7`. -/
def rounding_samples : List ℚ :=
  List.replicate 200 (-6305039478318694 / 9007199254740992)

/-- Twenty samples that are all gains: 1, 2, ..., 20. -/
def gain_samples : List ℚ :=
  (List.range 20).map (fun (i : Nat) => (i : ℚ) - (-1))

section MapLemmas

variable {β : Type}

theorem map_find_update (d : β) (m : List (String × β)) (k s : String) (f : β → β) :
    map_find (map_update d m k f) s =
      if k = s then some (f ((map_find m k).getD d)) else map_find m s := by
  induction m with
  | nil =>
    simp only [map_update, map_find, Option.getD_none]
  | cons hd tl ih =>
    obtain ⟨k', v⟩ := hd
    by_cases hk : k' = k
    · subst hk
      by_cases hs : k' = s
      · simp [map_update, map_find, hs]
      · simp [map_update, map_find, hs]
    · by_cases hs : k' = s
      · subst hs
        have hks : ¬ k = k' := fun h => hk h.symm
        simp [map_update, map_find, hk, hks]
      · simp only [map_update, map_find, hk, hs, if_false, ih]

theorem map_keys_update (d : β) (m : List (String × β)) (k : String) (f : β → β) :
    map_keys (map_update d m k f) =
      if k ∈ map_keys m then map_keys m else map_keys m ++ [k] := by
  induction m with
  | nil => simp [map_update, map_keys]
  | cons hd tl ih =>
    obtain ⟨k', v⟩ := hd
    by_cases hk : k' = k
    · subst hk
      simp [map_update, map_keys]
    · have hk2 : ¬ k = k' := fun h => hk h.symm
      simp only [map_keys] at ih
      simp only [map_update, hk, if_false, map_keys, List.map_cons, List.mem_cons, hk2,
        false_or, ih]
      split <;> simp

theorem mem_map_keys_update (d : β) (m : List (String × β)) (k s : String) (f : β → β) :
    s ∈ map_keys (map_update d m k f) ↔ s ∈ map_keys m ∨ s = k := by
  rw [map_keys_update]
  split
  · rename_i h
    constructor
    · exact Or.inl
    · rintro (h1 | h1)
      · exact h1
      · exact h1 ▸ h
  · simp

theorem nodup_map_keys_update (d : β) (m : List (String × β)) (k : String) (f : β → β)
    (h : (map_keys m).Nodup) : (map_keys (map_update d m k f)).Nodup := by
  rw [map_keys_update]
  split
  · exact h
  · rename_i hk
    rw [List.nodup_append]
    refine ⟨h, List.nodup_singleton k, ?_⟩
    intro a ha hb
    rw [List.mem_singleton] at hb
    exact hk (hb ▸ ha)

theorem map_find_eq_none_iff (m : List (String × β)) (s : String) :
    map_find m s = none ↔ s ∉ map_keys m := by
  induction m with
  | nil => simp [map_find, map_keys]
  | cons hd tl ih =>
    obtain ⟨k', v⟩ := hd
    by_cases hs : k' = s
    · simp [map_find, map_keys, hs]
    · have hs2 : ¬ s = k' := fun h => hs h.symm
      simp only [map_keys] at ih
      simp [map_find, map_keys, hs, hs2, ih]

theorem map_find_isSome_iff (m : List (String × β)) (s : String) :
    (∃ e, map_find m s = some e) ↔ s ∈ map_keys m := by
  rw [← not_iff_not, ← map_find_eq_none_iff]
  cases map_find m s <;> simp

theorem map_updateM_some (d : β) (m : List (String × β)) (k : String) (g : β → β) :
    map_updateM d m k (fun v => some (g v)) = some (map_update d m k g) := by
  induction m with
  | nil => simp [map_updateM, map_update]
  | cons hd tl ih =>
    obtain ⟨k', v⟩ := hd
    by_cases hk : k' = k
    · simp [map_updateM, map_update, hk]
    · simp [map_updateM, map_update, hk, ih]

theorem foldlM_some {σ τ : Type} (f : σ → τ → σ) (l : List τ) (init : σ) :
    l.foldlM (fun a b => some (f a b)) init = some (l.foldl f init) := by
  induction l generalizing init with
  | nil => rfl
  | cons hd tl ih => simp only [List.foldlM_cons, List.foldl_cons, Option.bind_eq_bind,
      Option.some_bind, ih]

end MapLemmas

/-! ## Aggregation: the loop bodies -/

section AggLemmas

variable {α : Type} [LinearOrderedField α]

theorem set_avg_price_eq (e : NetExposure α) :
    set_avg_price e = some (avg_price_total e) := by
  unfold set_avg_price avg_price_total checked_div
  by_cases h : e.quantity = 0
  · simp [h]
  · simp [h]

theorem single_step_eq (result : AggregationResult α) (pos : Position α) :
    single_step result pos = some (single_step_total result pos) := by
  unfold single_step single_step_total
  have h : (fun exposure => set_avg_price (fold_position pos exposure))
      = fun exposure => some (avg_price_total (fold_position pos exposure)) := by
    funext e
    exact set_avg_price_eq _
  rw [h, map_updateM_some]
  rfl

theorem aggregate_positions_single_eq (positions : List (Position α)) :
    aggregate_positions_single positions = some (single_total positions) := by
  unfold aggregate_positions_single single_total
  have h : (single_step : AggregationResult α → Position α → Option (AggregationResult α))
      = fun a b => some (single_step_total a b) := by
    funext a b
    exact single_step_eq a b
  rw [h, foldlM_some]

theorem recompute_avg_prices_eq (m : List (String × NetExposure α)) :
    recompute_avg_prices m = some (m.map (fun se => (se.1, avg_price_total se.2))) := by
  induction m with
  | nil => rfl
  | cons hd tl ih =>
    obtain ⟨k, e⟩ := hd
    simp [recompute_avg_prices, set_avg_price_eq, ih]

theorem single_step_total_eq_gen :
    (single_step_total : AggregationResult α → Position α → AggregationResult α)
      = gen_step avg_price_total 0 := by
  funext r p
  unfold single_step_total gen_step add_exposure
  by_cases h : p.quantity * p.price > 0
  · simp [h]
  · simp [h]

theorem worker_step_eq_gen :
    (worker_step : AggregationResult α → Position α → AggregationResult α)
      = gen_step id 1 := by
  funext r p
  unfold worker_step gen_step add_exposure
  by_cases h : p.quantity * p.price > 0
  · simp [h]
  · simp [h]

theorem core_avg_price_total (e : NetExposure α) :
    (avg_price_total e).core = e.core := by
  unfold avg_price_total NetExposure.core
  split <;> rfl

theorem core_zero : (NetExposure.zero : NetExposure α).core = 0 := rfl

theorem map_entry_update (m : List (String × NetExposure α)) (k s : String)
    (f : NetExposure α → NetExposure α) :
    map_entry (map_update NetExposure.zero m k f) s =
      if k = s then f (map_entry m k) else map_entry m s := by
  unfold map_entry
  rw [map_find_update]
  split <;> rfl

theorem map_find_eq_some_entry (m : List (String × NetExposure α)) (s : String)
    (e : NetExposure α) (h : map_find m s = some e) : map_entry m s = e := by
  simp [map_entry, h]

theorem map_entry_of_not_mem (m : List (String × NetExposure α)) (s : String)
    (h : s ∉ map_keys m) : map_entry m s = NetExposure.zero := by
  simp [map_entry, (map_find_eq_none_iff m s).2 h]

/-- Fields of one generic step. -/
theorem gen_step_fields (g : NetExposure α → NetExposure α) (inc : Int)
    (r : AggregationResult α) (p : Position α) :
    (gen_step g inc r p).by_symbol =
        map_update NetExposure.zero r.by_symbol p.symbol (fun e => g (fold_position p e)) ∧
    (gen_step g inc r p).total_long_exposure =
        r.total_long_exposure + (if p.notional > 0 then p.notional else 0) ∧
    (gen_step g inc r p).total_short_exposure =
        r.total_short_exposure + (if p.notional > 0 then 0 else |p.notional|) ∧
    (gen_step g inc r p).net_exposure = r.net_exposure + p.notional ∧
    (gen_step g inc r p).total_positions = r.total_positions + inc := by
  unfold gen_step add_exposure Position.notional
  by_cases h : p.quantity * p.price > 0
  · simp [h]
  · simp [h]

/-! ## Aggregation: folding a list of positions -/

theorem sym_positions_cons (p : Position α) (ps : List (Position α)) (s : String) :
    sym_positions (p :: ps) s =
      if p.symbol = s then p :: sym_positions ps s else sym_positions ps s := by
  unfold sym_positions
  by_cases h : p.symbol = s
  · simp [h]
  · simp [h]

theorem sym_positions_append (ps qs : List (Position α)) (s : String) :
    sym_positions (ps ++ qs) s = sym_positions ps s ++ sym_positions qs s := by
  simp [sym_positions]

theorem mem_sym_positions_iff (ps : List (Position α)) (s : String) :
    sym_positions ps s ≠ [] ↔ s ∈ ps.map (fun p => p.symbol) := by
  induction ps with
  | nil => simp [sym_positions]
  | cons p ps ih =>
    rw [sym_positions_cons]
    by_cases h : p.symbol = s
    · simp [h]
    · have h2 : ¬ s = p.symbol := fun e => h e.symm
      simp only [h, if_false, ih, List.map_cons, List.mem_cons, h2, false_or]

/-- The folded fields of an entry after a loop over `ps`: the fields before the loop plus
the sums over the positions of the symbol. -/
theorem gen_fold_core (g : NetExposure α → NetExposure α) (inc : Int)
    (hg : ∀ e, (g e).core = e.core) (ps : List (Position α)) (R : AggregationResult α)
    (s : String) :
    (map_entry (ps.foldl (gen_step g inc) R).by_symbol s).core =
      ((map_entry R.by_symbol s).quantity + sym_quantity ps s,
       (map_entry R.by_symbol s).notional + sym_notional ps s,
       (map_entry R.by_symbol s).position_count + sym_count ps s) := by
  induction ps generalizing R with
  | nil => simp [sym_quantity, sym_notional, sym_count, sym_positions, NetExposure.core]
  | cons p ps ih =>
    rw [List.foldl_cons, ih, (gen_step_fields g inc R p).1, map_entry_update]
    unfold sym_quantity sym_notional sym_count
    rw [sym_positions_cons]
    by_cases h : p.symbol = s
    · subst h
      have h1 := hg (fold_position p (map_entry R.by_symbol p.symbol))
      simp only [NetExposure.core, Prod.mk.injEq] at h1
      obtain ⟨h1, h2, h3⟩ := h1
      simp only [if_true, List.map_cons, List.sum_cons, List.length_cons, Prod.mk.injEq]
      rw [h1, h2, h3]
      simp only [fold_position, Position.notional]
      refine ⟨by ring, by ring, ?_⟩
      push_cast
      ring
    · simp only [h, if_false]

theorem gen_fold_keys (g : NetExposure α → NetExposure α) (inc : Int)
    (ps : List (Position α)) (R : AggregationResult α) (s : String) :
    s ∈ map_keys (ps.foldl (gen_step g inc) R).by_symbol ↔
      s ∈ map_keys R.by_symbol ∨ s ∈ ps.map (fun p => p.symbol) := by
  induction ps generalizing R with
  | nil => simp
  | cons p ps ih =>
    rw [List.foldl_cons, ih, (gen_step_fields g inc R p).1, mem_map_keys_update]
    simp only [List.map_cons, List.mem_cons]
    tauto

theorem gen_fold_nodup (g : NetExposure α → NetExposure α) (inc : Int)
    (ps : List (Position α)) (R : AggregationResult α)
    (h : (map_keys R.by_symbol).Nodup) :
    (map_keys (ps.foldl (gen_step g inc) R).by_symbol).Nodup := by
  induction ps generalizing R with
  | nil => exact h
  | cons p ps ih =>
    rw [List.foldl_cons]
    apply ih
    rw [(gen_step_fields g inc R p).1]
    exact nodup_map_keys_update _ _ _ _ h

theorem long_sum_cons (p : Position α) (ps : List (Position α)) :
    long_sum (p :: ps) = (if p.notional > 0 then p.notional else 0) + long_sum ps := by
  unfold long_sum
  by_cases h : p.notional > 0
  · simp [h]
  · simp [h]

theorem short_sum_cons (p : Position α) (ps : List (Position α)) :
    short_sum (p :: ps) = (if p.notional > 0 then 0 else |p.notional|) + short_sum ps := by
  unfold short_sum
  by_cases h : p.notional > 0
  · have h2 : ¬ p.notional ≤ 0 := not_le.2 h
    simp [h, h2]
  · have h2 : p.notional ≤ 0 := not_lt.1 h
    simp [h, h2]

theorem long_sum_append (ps qs : List (Position α)) :
    long_sum (ps ++ qs) = long_sum ps + long_sum qs := by
  simp [long_sum]

theorem short_sum_append (ps qs : List (Position α)) :
    short_sum (ps ++ qs) = short_sum ps + short_sum qs := by
  simp [short_sum]

theorem net_sum_append (ps qs : List (Position α)) :
    net_sum (ps ++ qs) = net_sum ps + net_sum qs := by
  simp [net_sum]

/-- The portfolio totals after a loop over `ps`. -/
theorem gen_fold_totals (g : NetExposure α → NetExposure α) (inc : Int)
    (ps : List (Position α)) (R : AggregationResult α) :
    (ps.foldl (gen_step g inc) R).total_long_exposure = R.total_long_exposure + long_sum ps ∧
    (ps.foldl (gen_step g inc) R).total_short_exposure
      = R.total_short_exposure + short_sum ps ∧
    (ps.foldl (gen_step g inc) R).net_exposure = R.net_exposure + net_sum ps ∧
    (ps.foldl (gen_step g inc) R).total_positions
      = R.total_positions + inc * (ps.length : Int) := by
  induction ps generalizing R with
  | nil => simp [long_sum, short_sum, net_sum]
  | cons p ps ih =>
    obtain ⟨_, f2, f3, f4, f5⟩ := gen_step_fields g inc R p
    obtain ⟨i1, i2, i3, i4⟩ := ih (gen_step g inc R p)
    rw [List.foldl_cons, i1, i2, i3, i4, f2, f3, f4, f5, long_sum_cons, short_sum_cons]
    refine ⟨by ring, by ring, ?_, ?_⟩
    · simp only [net_sum, List.map_cons, List.sum_cons]; ring
    · simp only [List.length_cons]; push_cast; ring

/-! ## Aggregation: the merge of the partial results -/

theorem merge_entry_fold_entry (entries : List (String × NetExposure α))
    (m : List (String × NetExposure α)) (s : String) (h : (map_keys entries).Nodup) :
    (map_entry (entries.foldl merge_entry m) s).quantity
      = (map_entry m s).quantity + (map_entry entries s).quantity ∧
    (map_entry (entries.foldl merge_entry m) s).notional
      = (map_entry m s).notional + (map_entry entries s).notional ∧
    (map_entry (entries.foldl merge_entry m) s).position_count
      = (map_entry m s).position_count + (map_entry entries s).position_count ∧
    (map_entry (entries.foldl merge_entry m) s).avg_price = (map_entry m s).avg_price := by
  induction entries generalizing m with
  | nil => simp [map_entry, map_find, NetExposure.zero]
  | cons hd tl ih =>
    obtain ⟨k, e⟩ := hd
    simp only [map_keys, List.map_cons, List.nodup_cons] at h
    obtain ⟨i1, i2, i3, i4⟩ := ih (merge_entry m (k, e)) h.2
    rw [List.foldl_cons, i1, i2, i3, i4]
    unfold merge_entry
    rw [map_entry_update]
    by_cases hk : k = s
    · subst hk
      have hz : map_entry tl k = NetExposure.zero := map_entry_of_not_mem tl k h.1
      have he : map_entry ((k, e) :: tl) k = e := by simp [map_entry, map_find]
      rw [hz, he]
      simp [NetExposure.zero]
    · have he : map_entry ((k, e) :: tl) s = map_entry tl s := by
        simp [map_entry, map_find, hk]
      rw [he]
      simp [hk]

theorem merge_entry_fold_keys (entries : List (String × NetExposure α))
    (m : List (String × NetExposure α)) (s : String) :
    s ∈ map_keys (entries.foldl merge_entry m) ↔ s ∈ map_keys m ∨ s ∈ map_keys entries := by
  induction entries generalizing m with
  | nil => simp [map_keys]
  | cons hd tl ih =>
    rw [List.foldl_cons, ih]
    unfold merge_entry
    rw [mem_map_keys_update]
    simp only [map_keys, List.map_cons, List.mem_cons]
    tauto

theorem merge_entry_fold_nodup (entries : List (String × NetExposure α))
    (m : List (String × NetExposure α)) (h : (map_keys m).Nodup) :
    (map_keys (entries.foldl merge_entry m)).Nodup := by
  induction entries generalizing m with
  | nil => exact h
  | cons hd tl ih =>
    rw [List.foldl_cons]
    apply ih
    unfold merge_entry
    exact nodup_map_keys_update _ _ _ _ h

/-- Partial result of a worker that owns the slice `sl`. -/
theorem worker_fold_facts (sl : List (Position α)) (s : String) :
    (map_entry (worker_fold sl).by_symbol s).quantity = sym_quantity sl s ∧
    (map_entry (worker_fold sl).by_symbol s).notional = sym_notional sl s ∧
    (map_entry (worker_fold sl).by_symbol s).position_count = sym_count sl s ∧
    (s ∈ map_keys (worker_fold sl).by_symbol ↔ s ∈ sl.map (fun p => p.symbol)) ∧
    (map_keys (worker_fold sl).by_symbol).Nodup := by
  unfold worker_fold
  rw [worker_step_eq_gen]
  have hc := gen_fold_core id 1 (fun _ => rfl) sl (AggregationResult.init 0) s
  have hk := gen_fold_keys id 1 sl (AggregationResult.init (0 : Int)) s
  have hn := gen_fold_nodup id 1 sl (AggregationResult.init (0 : Int))
    (by simp [AggregationResult.init, map_keys])
  simp only [NetExposure.core, Prod.mk.injEq, AggregationResult.init, map_entry, map_find,
    Option.getD_none, NetExposure.zero, zero_add] at hc
  simp only [AggregationResult.init, map_keys, List.map_nil, List.not_mem_nil, false_or] at hk
  exact ⟨hc.1, hc.2.1, hc.2.2, hk, hn⟩

theorem worker_fold_totals (sl : List (Position α)) :
    (worker_fold sl).total_long_exposure = long_sum sl ∧
    (worker_fold sl).total_short_exposure = short_sum sl ∧
    (worker_fold sl).net_exposure = net_sum sl ∧
    (worker_fold sl).total_positions = (sl.length : Int) := by
  unfold worker_fold
  have ht := gen_fold_totals id 1 sl (AggregationResult.init (0 : Int))
  rw [← worker_step_eq_gen] at ht
  obtain ⟨t1, t2, t3, t4⟩ := ht
  have z1 : (AggregationResult.init 0 : AggregationResult α).total_long_exposure = 0 := rfl
  have z2 : (AggregationResult.init 0 : AggregationResult α).total_short_exposure = 0 := rfl
  have z3 : (AggregationResult.init 0 : AggregationResult α).net_exposure = 0 := rfl
  have z4 : (AggregationResult.init 0 : AggregationResult α).total_positions = 0 := rfl
  rw [z1, zero_add] at t1
  rw [z2, zero_add] at t2
  rw [z3, zero_add] at t3
  rw [z4, zero_add, one_mul] at t4
  exact ⟨t1, t2, t3, t4⟩

theorem sym_sums_append (ps qs : List (Position α)) (s : String) :
    sym_quantity (ps ++ qs) s = sym_quantity ps s + sym_quantity qs s ∧
    sym_notional (ps ++ qs) s = sym_notional ps s + sym_notional qs s ∧
    sym_count (ps ++ qs) s = sym_count ps s + sym_count qs s := by
  simp [sym_quantity, sym_notional, sym_count, sym_positions_append]

/-- Merging the partial results of the slices `ls` gives the sums over their
concatenation. -/
theorem merge_slices_facts (ls : List (List (Position α))) (R : AggregationResult α)
    (s : String) (hR : (map_keys R.by_symbol).Nodup) :
    (map_entry (merge_slices R ls).by_symbol s).quantity
      = (map_entry R.by_symbol s).quantity + sym_quantity ls.flatten s ∧
    (map_entry (merge_slices R ls).by_symbol s).notional
      = (map_entry R.by_symbol s).notional + sym_notional ls.flatten s ∧
    (map_entry (merge_slices R ls).by_symbol s).position_count
      = (map_entry R.by_symbol s).position_count + sym_count ls.flatten s ∧
    (map_entry (merge_slices R ls).by_symbol s).avg_price
      = (map_entry R.by_symbol s).avg_price ∧
    (s ∈ map_keys (merge_slices R ls).by_symbol ↔
      s ∈ map_keys R.by_symbol ∨ s ∈ ls.flatten.map (fun p => p.symbol)) ∧
    (map_keys (merge_slices R ls).by_symbol).Nodup ∧
    (merge_slices R ls).total_long_exposure = R.total_long_exposure + long_sum ls.flatten ∧
    (merge_slices R ls).total_short_exposure
      = R.total_short_exposure + short_sum ls.flatten ∧
    (merge_slices R ls).net_exposure = R.net_exposure + net_sum ls.flatten ∧
    (merge_slices R ls).total_positions = R.total_positions + (ls.flatten.length : Int) := by
  induction ls generalizing R with
  | nil =>
    simp [merge_slices, sym_quantity, sym_notional, sym_count, sym_positions, long_sum,
      short_sum, net_sum, hR]
  | cons sl ls ih =>
    have hF : merge_slices R (sl :: ls) = merge_slices (merge_partial_result R (worker_fold sl)) ls :=
      rfl
    obtain ⟨w1, w2, w3, w4, w5⟩ := worker_fold_facts sl s
    obtain ⟨t1, t2, t3, t4⟩ := worker_fold_totals sl
    generalize worker_fold sl = W at *
    obtain ⟨m1, m2, m3, m4⟩ := merge_entry_fold_entry W.by_symbol R.by_symbol s w5
    have mk := merge_entry_fold_keys W.by_symbol R.by_symbol s
    have mn := merge_entry_fold_nodup W.by_symbol R.by_symbol hR
    have p1 : (merge_partial_result R W).by_symbol = W.by_symbol.foldl merge_entry R.by_symbol := rfl
    have p2 : (merge_partial_result R W).total_long_exposure
        = R.total_long_exposure + W.total_long_exposure := rfl
    have p3 : (merge_partial_result R W).total_short_exposure
        = R.total_short_exposure + W.total_short_exposure := rfl
    have p4 : (merge_partial_result R W).net_exposure = R.net_exposure + W.net_exposure := rfl
    have p5 : (merge_partial_result R W).total_positions
        = R.total_positions + W.total_positions := rfl
    obtain ⟨a1, a2, a3, a4, a5, a6, a7, a8, a9, a10⟩ :=
      ih (merge_partial_result R W) (by rw [p1]; exact mn)
    obtain ⟨s1, s2, s3⟩ := sym_sums_append sl ls.flatten s
    rw [p1] at a1 a2 a3 a4 a5
    rw [p2] at a7
    rw [p3] at a8
    rw [p4] at a9
    rw [p5] at a10
    rw [hF]
    simp only [List.flatten_cons, s1, s2, s3, long_sum_append, short_sum_append,
      net_sum_append, List.length_append, List.map_append, List.mem_append]
    refine ⟨?_, ?_, ?_, ?_, ?_, a6, ?_, ?_, ?_, ?_⟩
    · rw [a1, m1, w1]; ring
    · rw [a2, m2, w2]; ring
    · rw [a3, m3, w3]; ring
    · rw [a4, m4]
    · rw [a5, mk, w4]; tauto
    · rw [a7, t1]; ring
    · rw [a8, t2]; ring
    · rw [a9, t3]; ring
    · rw [a10, t4]; push_cast; ring

end AggLemmas

/-! ## Work partitioning -/

section Partition

theorem chunk_size_mul_ge (N T : Nat) (hT : 1 ≤ T) : N ≤ chunk_size N T * T := by
  unfold chunk_size
  have h := Nat.div_add_mod (N + T - 1) T
  have h2 := Nat.mod_lt (N + T - 1) (show T > 0 by omega)
  have h3 : T * ((N + T - 1) / T) = (N + T - 1) / T * T := Nat.mul_comm _ _
  omega

theorem chunk_size_pos (N T : Nat) (hT : 1 ≤ T) (hN : 0 < N) : 0 < chunk_size N T := by
  unfold chunk_size
  exact Nat.div_pos (by omega) (by omega)

/-- The slices of the first `k` workers, concatenated, are the first `k * chunk_size`
items. -/
theorem slices_flatten_take {γ : Type} (l : List γ) (T k : Nat) :
    ((List.range k).map (fun t =>
      (l.take (worker_end l.length T t)).drop (worker_start l.length T t))).flatten
      = l.take (k * chunk_size l.length T) := by
  induction k with
  | zero => simp
  | succ k ih =>
    rw [List.range_succ, List.map_append, List.flatten_append, ih]
    simp only [List.map_cons, List.map_nil, List.flatten_cons, List.flatten_nil,
      List.append_nil, worker_end, worker_start]
    have h1 : l.take (min (k * chunk_size l.length T + chunk_size l.length T) l.length)
        = l.take ((k + 1) * chunk_size l.length T) := by
      rw [Nat.add_mul, Nat.one_mul]
      rcases Nat.le_total (k * chunk_size l.length T + chunk_size l.length T) l.length
        with h | h
      · rw [Nat.min_eq_left h]
      · rw [Nat.min_eq_right h, List.take_of_length_le h, List.take_of_length_le le_rfl]
    rw [h1]
    have h2 : l.take (k * chunk_size l.length T)
        = (l.take ((k + 1) * chunk_size l.length T)).take (k * chunk_size l.length T) := by
      rw [List.take_take, Nat.min_eq_left]
      rw [Nat.add_mul]
      omega
    conv_lhs => rw [h2]
    exact List.take_append_drop _ _

end Partition

section AggMulti

variable {α : Type} [LinearOrderedField α]

theorem worker_slices_flatten (positions : List (Position α)) (T : Nat) (hT : 1 ≤ T) :
    ((List.range T).map (worker_slice positions T)).flatten = positions := by
  have h := slices_flatten_take positions T T
  have h2 : ((List.range T).map (worker_slice positions T))
      = (List.range T).map (fun t =>
          (positions.take (worker_end positions.length T t)).drop
            (worker_start positions.length T t)) := rfl
  rw [h2, h]
  apply List.take_of_length_le
  rw [Nat.mul_comm]
  exact chunk_size_mul_ge _ _ hT

theorem aggregate_positions_multi_eq (positions : List (Position α)) (T : Nat)
    (hT : 1 ≤ T) :
    aggregate_positions_multi positions T = some (multi_total positions T) := by
  unfold aggregate_positions_multi multi_total
  have h0 : ¬ T = 0 := by omega
  have h1 : (List.range T).map (aggregate_worker positions T)
      = ((List.range T).map (worker_slice positions T)).map worker_fold := by
    rw [List.map_map]
    rfl
  simp only [h0, if_false, h1]
  show (recompute_avg_prices (merge_slices (AggregationResult.init 0)
      ((List.range T).map (worker_slice positions T))).by_symbol).bind _ = _
  rw [recompute_avg_prices_eq]
  rfl

theorem map_find_map_values {β γ : Type} (m : List (String × β)) (g : β → γ) (s : String) :
    map_find (m.map (fun se => (se.1, g se.2))) s = (map_find m s).map g := by
  induction m with
  | nil => rfl
  | cons hd tl ih =>
    obtain ⟨k, v⟩ := hd
    by_cases h : k = s
    · simp [map_find, h]
    · simp [map_find, h, ih]

theorem map_keys_map_values {β γ : Type} (m : List (String × β)) (g : β → γ) :
    map_keys (m.map (fun se => (se.1, g se.2))) = map_keys m := by
  simp [map_keys, List.map_map, Function.comp_def]

theorem map_find_eq_entry {β : Type} (m : List (String × NetExposure α)) (s : String)
    (f : NetExposure α → β) :
    (map_find m s).map f = if s ∈ map_keys m then some (f (map_entry m s)) else none := by
  by_cases h : s ∈ map_keys m
  · obtain ⟨e, he⟩ := (map_find_isSome_iff m s).2 h
    simp [h, he, map_entry]
  · simp [h, (map_find_eq_none_iff m s).2 h]

theorem avg_price_total_consistent (e : NetExposure α) (h : (avg_price_total e).quantity ≠ 0) :
    (avg_price_total e).avg_price = (avg_price_total e).notional / (avg_price_total e).quantity := by
  unfold avg_price_total at *
  by_cases hq : e.quantity = 0
  · simp [hq] at h
  · simp [hq]

theorem single_fold_avg_consistent (ps : List (Position α)) (R : AggregationResult α)
    (h : avg_consistent R.by_symbol) :
    avg_consistent (ps.foldl single_step_total R).by_symbol := by
  induction ps generalizing R with
  | nil => exact h
  | cons p ps ih =>
    rw [List.foldl_cons]
    apply ih
    rw [single_step_total_eq_gen, (gen_step_fields avg_price_total 0 R p).1]
    intro s e he hq
    rw [map_find_update] at he
    by_cases hk : p.symbol = s
    · rw [if_pos hk] at he
      cases he
      exact avg_price_total_consistent _ hq
    · rw [if_neg hk] at he
      exact h s e he hq

/-- What `aggregate_positions_single` computes, symbol by symbol and in total. -/
theorem single_total_facts (ps : List (Position α)) (s : String) :
    (map_entry (single_total ps).by_symbol s).quantity = sym_quantity ps s ∧
    (map_entry (single_total ps).by_symbol s).notional = sym_notional ps s ∧
    (map_entry (single_total ps).by_symbol s).position_count = sym_count ps s ∧
    (s ∈ map_keys (single_total ps).by_symbol ↔ s ∈ ps.map (fun p => p.symbol)) ∧
    (map_keys (single_total ps).by_symbol).Nodup ∧
    (single_total ps).total_long_exposure = long_sum ps ∧
    (single_total ps).total_short_exposure = short_sum ps ∧
    (single_total ps).net_exposure = net_sum ps ∧
    (single_total ps).total_positions = (ps.length : Int) ∧
    avg_consistent (single_total ps).by_symbol := by
  have hav := single_fold_avg_consistent ps (AggregationResult.init (ps.length : Int))
    (by intro s e he; simp [AggregationResult.init, map_find] at he)
  unfold single_total
  rw [single_step_total_eq_gen] at hav ⊢
  have hc := gen_fold_core avg_price_total 0 core_avg_price_total ps
    (AggregationResult.init (ps.length : Int)) s
  have hk := gen_fold_keys avg_price_total 0 ps (AggregationResult.init (ps.length : Int)) s
  have hn := gen_fold_nodup avg_price_total 0 ps (AggregationResult.init (ps.length : Int))
    (by simp [AggregationResult.init, map_keys])
  obtain ⟨t1, t2, t3, t4⟩ :=
    gen_fold_totals avg_price_total 0 ps (AggregationResult.init (ps.length : Int))
  simp only [NetExposure.core, Prod.mk.injEq, AggregationResult.init, map_entry, map_find,
    Option.getD_none, NetExposure.zero, zero_add] at hc
  simp only [AggregationResult.init, map_keys, List.map_nil, List.not_mem_nil, false_or] at hk
  simp only [AggregationResult.init, zero_add, zero_mul, add_zero] at t1 t2 t3 t4
  exact ⟨hc.1, hc.2.1, hc.2.2, hk, hn, t1, t2, t3, t4, hav⟩

/-- What `aggregate_positions_multi` computes, symbol by symbol and in total. -/
theorem multi_total_facts (ps : List (Position α)) (T : Nat) (hT : 1 ≤ T) (s : String) :
    (map_entry (multi_total ps T).by_symbol s).quantity = sym_quantity ps s ∧
    (map_entry (multi_total ps T).by_symbol s).notional = sym_notional ps s ∧
    (map_entry (multi_total ps T).by_symbol s).position_count = sym_count ps s ∧
    (s ∈ map_keys (multi_total ps T).by_symbol ↔ s ∈ ps.map (fun p => p.symbol)) ∧
    (map_keys (multi_total ps T).by_symbol).Nodup ∧
    (multi_total ps T).total_long_exposure = long_sum ps ∧
    (multi_total ps T).total_short_exposure = short_sum ps ∧
    (multi_total ps T).net_exposure = net_sum ps ∧
    (multi_total ps T).total_positions = (ps.length : Int) ∧
    (map_entry (multi_total ps T).by_symbol s).avg_price =
      (if sym_quantity ps s ≠ 0 then sym_notional ps s / sym_quantity ps s else 0) := by
  obtain ⟨a1, a2, a3, a4, a5, a6, a7, a8, a9, a10⟩ :=
    merge_slices_facts ((List.range T).map (worker_slice ps T)) (AggregationResult.init 0) s
      (by simp [AggregationResult.init, map_keys])
  rw [worker_slices_flatten ps T hT] at a1 a2 a3 a5 a7 a8 a9 a10
  have hby : (multi_total ps T).by_symbol =
      (merge_slices (AggregationResult.init 0)
        ((List.range T).map (worker_slice ps T))).by_symbol.map
          (fun se => (se.1, avg_price_total se.2)) := rfl
  have f7 : (multi_total ps T).total_long_exposure = (merge_slices (AggregationResult.init 0)
        ((List.range T).map (worker_slice ps T))).total_long_exposure := rfl
  have f8 : (multi_total ps T).total_short_exposure = (merge_slices (AggregationResult.init 0)
        ((List.range T).map (worker_slice ps T))).total_short_exposure := rfl
  have f9 : (multi_total ps T).net_exposure = (merge_slices (AggregationResult.init 0)
        ((List.range T).map (worker_slice ps T))).net_exposure := rfl
  have f10 : (multi_total ps T).total_positions = (merge_slices (AggregationResult.init 0)
        ((List.range T).map (worker_slice ps T))).total_positions := rfl
  rw [f7, f8, f9, f10, hby]
  generalize merge_slices (AggregationResult.init 0)
        ((List.range T).map (worker_slice ps T)) = F at *
  have z0 : map_entry (AggregationResult.init 0 : AggregationResult α).by_symbol s
      = NetExposure.zero := rfl
  have zk : map_keys (AggregationResult.init 0 : AggregationResult α).by_symbol = [] := rfl
  have z1 : (AggregationResult.init 0 : AggregationResult α).total_long_exposure = 0 := rfl
  have z2 : (AggregationResult.init 0 : AggregationResult α).total_short_exposure = 0 := rfl
  have z3 : (AggregationResult.init 0 : AggregationResult α).net_exposure = 0 := rfl
  have z4 : (AggregationResult.init 0 : AggregationResult α).total_positions = 0 := rfl
  have y1 : (NetExposure.zero : NetExposure α).quantity = 0 := rfl
  have y2 : (NetExposure.zero : NetExposure α).notional = 0 := rfl
  have y3 : (NetExposure.zero : NetExposure α).position_count = 0 := rfl
  have y4 : (NetExposure.zero : NetExposure α).avg_price = 0 := rfl
  rw [z0, y1, zero_add] at a1
  rw [z0, y2, zero_add] at a2
  rw [z0, y3, zero_add] at a3
  rw [z0, y4] at a4
  rw [zk] at a5
  simp only [List.not_mem_nil, false_or] at a5
  rw [z1, zero_add] at a7
  rw [z2, zero_add] at a8
  rw [z3, zero_add] at a9
  rw [z4, zero_add] at a10
  have hent : map_entry (F.by_symbol.map (fun se => (se.1, avg_price_total se.2))) s
      = avg_price_total (map_entry F.by_symbol s) := by
    unfold map_entry
    rw [map_find_map_values]
    cases map_find F.by_symbol s with
    | none =>
      simp [avg_price_total, NetExposure.zero]
    | some e => rfl
  have hc := core_avg_price_total (map_entry F.by_symbol s)
  simp only [NetExposure.core, Prod.mk.injEq] at hc
  refine ⟨?_, ?_, ?_, ?_, ?_, a7, a8, a9, a10, ?_⟩
  · rw [hent, hc.1]; exact a1
  · rw [hent, hc.2.1]; exact a2
  · rw [hent, hc.2.2]; exact a3
  · rw [map_keys_map_values]; exact a5
  · rw [map_keys_map_values]; exact a6
  · rw [hent]
    unfold avg_price_total
    by_cases hq : sym_quantity ps s = 0
    · have hq2 : (map_entry F.by_symbol s).quantity = 0 := a1.trans hq
      simp [hq, hq2, a4]
    · have hq2 : ¬ (map_entry F.by_symbol s).quantity = 0 := fun h => hq (a1.symm.trans h)
      simp [hq, hq2, a1, a2]

/-! ## Aggregation: sign and count invariants -/

theorem net_sum_cons (p : Position α) (ps : List (Position α)) :
    net_sum (p :: ps) = p.notional + net_sum ps := by
  simp [net_sum]

theorem exposure_sums_invariant (ps : List (Position α)) :
    0 ≤ long_sum ps ∧ 0 ≤ short_sum ps ∧ long_sum ps - short_sum ps = net_sum ps := by
  induction ps with
  | nil => simp [long_sum, short_sum, net_sum]
  | cons p ps ih =>
    obtain ⟨h1, h2, h3⟩ := ih
    rw [long_sum_cons, short_sum_cons, net_sum_cons]
    by_cases hp : p.notional > 0
    · simp only [hp, if_true]
      refine ⟨by linarith, by linarith, by linarith⟩
    · simp only [hp, if_false]
      have hle : p.notional ≤ 0 := not_lt.1 hp
      have habs : |p.notional| = -p.notional := abs_of_nonpos hle
      have hab : 0 ≤ |p.notional| := abs_nonneg _
      refine ⟨by linarith, by linarith, ?_⟩
      rw [habs]
      linarith

theorem map_entry_of_mem_nodup (m : List (String × NetExposure α)) (k : String)
    (e : NetExposure α) (hn : (map_keys m).Nodup) (hm : (k, e) ∈ m) : map_entry m k = e := by
  induction m with
  | nil => cases hm
  | cons hd tl ih =>
    obtain ⟨k', v⟩ := hd
    simp only [map_keys, List.map_cons, List.nodup_cons] at hn
    rcases List.mem_cons.1 hm with h | h
    · cases h
      simp [map_entry, map_find]
    · have hk : k ∈ tl.map Prod.fst := List.mem_map.2 ⟨(k, e), h, rfl⟩
      have hne : ¬ k' = k := fun h0 => hn.1 (h0 ▸ hk)
      have := ih hn.2 h
      simp only [map_entry, map_find, hne, if_false] at this ⊢
      exact this

theorem sym_count_eq_count (ps : List (Position α)) (s : String) :
    sym_count ps s = (((ps.map (fun p => p.symbol)).count s : Nat) : Int) := by
  unfold sym_count sym_positions
  rw [List.count_eq_countP, List.countP_map, List.countP_eq_length_filter]
  congr 2

theorem cast_sum_map (l : List String) (f : String → Nat) :
    (l.map (fun k => ((f k : Nat) : Int))).sum = (((l.map f).sum : Nat) : Int) := by
  induction l with
  | nil => rfl
  | cons a t ih =>
    simp only [List.map_cons, List.sum_cons, ih]
    push_cast
    rfl

/-- In a map with one entry per occurring symbol, each holding the number of positions of
its symbol, the position counts add up to the number of positions. -/
theorem position_count_sum (ps : List (Position α)) (m : List (String × NetExposure α))
    (hn : (map_keys m).Nodup)
    (hk : ∀ s, s ∈ map_keys m ↔ s ∈ ps.map (fun p => p.symbol))
    (hc : ∀ s, (map_entry m s).position_count = sym_count ps s) :
    (m.map (fun se => se.2.position_count)).sum = (ps.length : Int) := by
  have h1 : m.map (fun se => se.2.position_count)
      = (map_keys m).map (fun k =>
          ((((ps.map (fun p => p.symbol)).count k : Nat)) : Int)) := by
    unfold map_keys
    rw [List.map_map]
    apply List.map_congr_left
    intro se hse
    obtain ⟨k, e⟩ := se
    have he := map_entry_of_mem_nodup m k e hn hse
    simp only [Function.comp]
    rw [← sym_count_eq_count, ← hc k, he]
  have hperm : (map_keys m).Perm (ps.map (fun p => p.symbol)).dedup := by
    rw [List.perm_ext_iff_of_nodup hn (List.nodup_dedup _)]
    intro s
    rw [hk s, List.mem_dedup]
  rw [h1, cast_sum_map, (hperm.map _).sum_eq, List.sum_map_count_dedup_eq_length,
    List.length_map]

end AggMulti

/-! ## Monte Carlo: trial counts -/

section MonteCarloLemmas

variable {α : Type} [LinearOrderedField α]

theorem sims_for_thread_sum (n T : Nat) (hT : 1 ≤ T) :
    ((List.range T).map (sims_for_thread n T)).sum = n := by
  have key : ∀ k, k ≤ T → ((List.range k).map (sims_for_thread n T)).sum
      = k * (n / T) + min k (n % T) := by
    intro k
    induction k with
    | zero => simp
    | succ k ih =>
      intro hk
      rw [List.range_succ, List.map_append, List.sum_append, ih (by omega)]
      simp only [List.map_cons, List.map_nil, List.sum_cons, List.sum_nil, sims_for_thread]
      rw [Nat.add_mul]
      split <;> omega
  rw [key T le_rfl]
  have h2 := Nat.mod_lt n (show T > 0 by omega)
  have h := Nat.div_add_mod n T
  rw [Nat.min_eq_right (by omega)]
  exact h

theorem simulate_loop_length (m : Libm α) (g : Rng α) (positions : List (Position α))
    (time_horizon : α) (n : Nat) (rng : g.State) :
    (simulate_loop m g positions time_horizon n rng).length = n := by
  induction n generalizing rng with
  | zero => rfl
  | succ n ih => simp [simulate_loop, ih]

theorem simulate_portfolio_pnl_length (m : Libm α) (g : Rng α)
    (positions : List (Position α)) (n : Nat) (time_horizon : α) (seed : Nat) :
    (simulate_portfolio_pnl m g positions n time_horizon seed).length = n :=
  simulate_loop_length m g positions time_horizon n (g.seed seed)

/-! ## Monte Carlo: the simulated samples -/

theorem rng_state_after_succ (g : Rng α) (s : g.State) (i : Nat) :
    rng_state_after g s (i + 1) = rng_state_after g (g.normal s).2 i := by
  induction i with
  | zero => rfl
  | succ i ih =>
    show (g.normal (rng_state_after g s (i + 1))).2
      = (g.normal (rng_state_after g (g.normal s).2 i)).2
    rw [ih]

theorem rng_state_after_add (g : Rng α) (s : g.State) (a b : Nat) :
    rng_state_after g (rng_state_after g s a) b = rng_state_after g s (a + b) := by
  induction b with
  | zero => rfl
  | succ b ih =>
    show (g.normal (rng_state_after g (rng_state_after g s a) b)).2
      = (g.normal (rng_state_after g s (a + b))).2
    rw [ih]

/-- One trial started in the state `s` with the running sum `acc`: position `j` uses draw
`j` counted from `s`, and the generator is left after `|P|` draws. -/
theorem simulate_trial_fold (m : Libm α) (g : Rng α) (positions : List (Position α))
    (time_horizon : α) (acc : α) (s : g.State) :
    positions.foldl (fun (acc : α × g.State) pos =>
      let draw := g.normal acc.2
      let z := draw.1
      let drift :=
        (pos.risk_free_rate - 1 / 2 * pos.volatility * pos.volatility) * time_horizon
      let diffusion := pos.volatility * m.sqrt time_horizon * z
      let price_change_factor := m.exp (drift + diffusion)
      let new_price := pos.price * price_change_factor
      let position_pnl := pos.quantity * (new_price - pos.price)
      (acc.1 + position_pnl, draw.2)) (acc, s)
    = (acc + (List.zipWith (fun pos j => position_pnl_formula m time_horizon pos
          (g.normal (rng_state_after g s j)).1) positions
          (List.range positions.length)).sum,
       rng_state_after g s positions.length) := by
  induction positions generalizing acc s with
  | nil => simp [rng_state_after]
  | cons pos rest ih =>
    have harg : (pos.risk_free_rate - 1 / 2 * pos.volatility * pos.volatility) * time_horizon
          + pos.volatility * m.sqrt time_horizon * (g.normal s).1
        = (pos.risk_free_rate - pos.volatility ^ 2 / 2) * time_horizon
          + pos.volatility * m.sqrt time_horizon * (g.normal s).1 := by ring
    have hpnl : acc + pos.quantity * (pos.price * m.exp
          ((pos.risk_free_rate - 1 / 2 * pos.volatility * pos.volatility) * time_horizon
            + pos.volatility * m.sqrt time_horizon * (g.normal s).1) - pos.price)
        = acc + position_pnl_formula m time_horizon pos (g.normal s).1 := by
      rw [harg]
      unfold position_pnl_formula
      ring
    rw [List.foldl_cons]
    show List.foldl _ (acc + pos.quantity * (pos.price * m.exp
          ((pos.risk_free_rate - 1 / 2 * pos.volatility * pos.volatility) * time_horizon
            + pos.volatility * m.sqrt time_horizon * (g.normal s).1) - pos.price),
          (g.normal s).2) rest = _
    rw [hpnl, ih]
    have hr : List.range (pos :: rest).length
        = 0 :: (List.range rest.length).map Nat.succ := by
      rw [List.length_cons, List.range_succ_eq_map]
    rw [hr, List.zipWith_cons_cons, List.zipWith_map_right, List.sum_cons]
    have hz : List.zipWith (fun pos j => position_pnl_formula m time_horizon pos
          (g.normal (rng_state_after g (g.normal s).2 j)).1) rest (List.range rest.length)
        = List.zipWith (fun a b => position_pnl_formula m time_horizon a
          (g.normal (rng_state_after g s (Nat.succ b))).1) rest (List.range rest.length) := by
      congr 1
      funext a b
      rw [rng_state_after_succ]
    rw [hz, add_assoc, List.length_cons, rng_state_after_succ]
    rfl

theorem simulate_trial_eq (m : Libm α) (g : Rng α) (positions : List (Position α))
    (time_horizon : α) (s : g.State) :
    simulate_trial m g positions time_horizon s
      = ((List.zipWith (fun pos j => position_pnl_formula m time_horizon pos
            (g.normal (rng_state_after g s j)).1) positions
            (List.range positions.length)).sum,
         rng_state_after g s positions.length) := by
  unfold simulate_trial
  rw [simulate_trial_fold, zero_add]

/-- Sample `k` of the loop started in the state `s`. -/
theorem simulate_loop_getElem (m : Libm α) (g : Rng α) (positions : List (Position α))
    (time_horizon : α) (n : Nat) (s : g.State) (k : Nat) (hk : k < n) :
    (simulate_loop m g positions time_horizon n s)[k]?
      = some (List.zipWith (fun pos j => position_pnl_formula m time_horizon pos
          (g.normal (rng_state_after g s (k * positions.length + j))).1) positions
          (List.range positions.length)).sum := by
  induction n generalizing s k with
  | zero => omega
  | succ n ih =>
    have hl : simulate_loop m g positions time_horizon (n + 1) s
        = (simulate_trial m g positions time_horizon s).1
          :: simulate_loop m g positions time_horizon n
              (simulate_trial m g positions time_horizon s).2 := rfl
    have ht := simulate_trial_eq m g positions time_horizon s
    have ht1 := congrArg Prod.fst ht
    have ht2 := congrArg Prod.snd ht
    simp only at ht1 ht2
    rw [hl]
    cases k with
    | zero =>
      rw [List.getElem?_cons_zero, ht1]
      simp only [Nat.zero_mul, Nat.zero_add]
    | succ k =>
      rw [List.getElem?_cons_succ, ih _ k (by omega), ht2]
      have harith : ∀ j, positions.length + (k * positions.length + j)
          = (k + 1) * positions.length + j := by
        intro j
        rw [Nat.add_mul, Nat.one_mul]
        omega
      simp only [rng_state_after_add, harith]

/-- Sample `k` of `simulate_portfolio_pnl` in terms of the stream of draws. -/
theorem simulate_portfolio_pnl_getElem (m : Libm α) (g : Rng α)
    (positions : List (Position α)) (n : Nat) (time_horizon : α) (seed : Nat) (k : Nat)
    (hk : k < n) :
    (simulate_portfolio_pnl m g positions n time_horizon seed)[k]?
      = some (trial_pnl_formula m time_horizon positions (draw_stream g seed) k) :=
  simulate_loop_getElem m g positions time_horizon n (g.seed seed) k hk

theorem checked_div_eq_some_iff (x y d : α) :
    checked_div x y = some d ↔ y ≠ 0 ∧ d = x / y := by
  unfold checked_div
  by_cases hy : y = 0
  · simp [hy]
  · simp [hy, eq_comm]

theorem trial_pnl_formula_congr (m : Libm α) (time_horizon : α)
    (positions : List (Position α)) (z1 z2 : Nat → α) (hz : ∀ i, z1 i = z2 i) (k : Nat) :
    trial_pnl_formula m time_horizon positions z1 k
      = trial_pnl_formula m time_horizon positions z2 k := by
  have h : z1 = z2 := funext hz
  rw [h]

/-- The samples depend on the generator only through its stream of draws. -/
theorem simulate_portfolio_pnl_congr (m : Libm α) (g1 g2 : Rng α)
    (positions : List (Position α)) (n : Nat) (time_horizon : α) (seed : Nat)
    (hz : ∀ i, draw_stream g1 seed i = draw_stream g2 seed i) :
    simulate_portfolio_pnl m g1 positions n time_horizon seed
      = simulate_portfolio_pnl m g2 positions n time_horizon seed := by
  apply List.ext_getElem?
  intro k
  by_cases hk : k < n
  · rw [simulate_portfolio_pnl_getElem m g1 positions n time_horizon seed k hk,
      simulate_portfolio_pnl_getElem m g2 positions n time_horizon seed k hk,
      trial_pnl_formula_congr m time_horizon positions _ _ hz k]
  · rw [List.getElem?_eq_none (by rw [simulate_portfolio_pnl_length]; omega),
      List.getElem?_eq_none (by rw [simulate_portfolio_pnl_length]; omega)]

end MonteCarloLemmas

/-! ## Sorting -/

section SortLemmas

variable {α : Type} [LinearOrderedField α]

theorem std_sort_perm {β : Type} (comp : β → β → Prop) [DecidableRel comp] (l : List β) :
    (std_sort comp l).Perm l :=
  List.perm_insertionSort _ l

theorem std_sort_length {β : Type} (comp : β → β → Prop) [DecidableRel comp] (l : List β) :
    (std_sort comp l).length = l.length :=
  (std_sort_perm comp l).length_eq

/-- Sorting with `<` gives an ascending list. -/
theorem std_sort_lt_sorted (l : List α) :
    (std_sort (fun a b : α => a < b) l).Sorted (fun a b => a ≤ b) := by
  haveI : IsTotal α (fun a b => ¬ b < a) := ⟨fun a b => by
    rcases le_total a b with h | h
    · exact Or.inl (not_lt.2 h)
    · exact Or.inr (not_lt.2 h)⟩
  haveI : IsTrans α (fun a b => ¬ b < a) := ⟨fun a b c h1 h2 =>
    not_lt.2 (le_trans (not_lt.1 h1) (not_lt.1 h2))⟩
  have h := List.sorted_insertionSort (fun a b : α => ¬ b < a) l
  exact List.Pairwise.imp (fun hab => not_lt.1 hab) h

/-- Sorting with the comparator of `get_top_exposures` gives non-increasing `|notional|`. -/
theorem std_sort_exposure_sorted (l : List (String × NetExposure α)) :
    (std_sort exposure_comp l).Sorted (fun a b => |a.2.notional| ≥ |b.2.notional|) := by
  haveI : IsTotal (String × NetExposure α) (fun a b => ¬ exposure_comp b a) := ⟨fun a b => by
    unfold exposure_comp
    rcases le_total |a.2.notional| |b.2.notional| with h | h
    · exact Or.inr (not_lt.2 h)
    · exact Or.inl (not_lt.2 h)⟩
  haveI : IsTrans (String × NetExposure α) (fun a b => ¬ exposure_comp b a) :=
    ⟨fun a b c h1 h2 => by
      unfold exposure_comp at *
      exact not_lt.2 (le_trans (not_lt.1 h2) (not_lt.1 h1))⟩
  have h := List.sorted_insertionSort
    (fun a b : String × NetExposure α => ¬ exposure_comp b a) l
  exact List.Pairwise.imp (fun hab => not_lt.1 hab) h

/-- Function `get_top_exposures` keeps the first `top_n` entries of the sorted vector. -/
theorem get_top_exposures_eq_take (result : AggregationResult α) (top_n : Nat) :
    get_top_exposures result top_n
      = (std_sort exposure_comp result.by_symbol).take top_n := by
  unfold get_top_exposures
  simp only
  split
  · rfl
  · rename_i h
    exact (List.take_of_length_le (not_lt.1 h)).symm

/-- The first `k` entries of any vector that holds the map entries in non-increasing
`|notional|` are entries of the map, have distinct symbols, and dominate every entry
left out. -/
theorem take_sorted_top_k (S L : List (String × NetExposure α)) (k : Nat)
    (hperm : S.Perm L)
    (hsorted : S.Pairwise (fun a b => |a.2.notional| ≥ |b.2.notional|))
    (hnd : (map_keys L).Nodup) :
    (∀ e ∈ S.take k, e ∈ L) ∧
    (map_keys (S.take k)).Nodup ∧
    (∀ e ∈ L, e.1 ∉ map_keys (S.take k) →
      ∀ r ∈ S.take k, |e.2.notional| ≤ |r.2.notional|) := by
  refine ⟨?_, ?_, ?_⟩
  · intro e he
    exact hperm.mem_iff.1 (List.mem_of_mem_take he)
  · have h1 : (map_keys S).Nodup := ((hperm.map Prod.fst).nodup_iff).2 hnd
    exact List.Nodup.sublist ((List.take_sublist k S).map Prod.fst) h1
  · intro e he hkey r hr
    have heS : e ∈ S.take k ++ S.drop k := by
      rw [List.take_append_drop]
      exact hperm.mem_iff.2 he
    have hdrop : e ∈ S.drop k := by
      rcases List.mem_append.1 heS with h | h
      · exact absurd (List.mem_map_of_mem Prod.fst h) hkey
      · exact h
    have hpw : (S.take k ++ S.drop k).Pairwise
        (fun a b => |a.2.notional| ≥ |b.2.notional|) := by
      rw [List.take_append_drop]
      exact hsorted
    exact (List.pairwise_append.1 hpw).2.2 r hr e hdrop

end SortLemmas

/-! ## Value-at-Risk summary -/

section VarLemmas

variable {α : Type} [LinearOrderedField α]

theorem idx_bounds (n : Nat) (hn : 0 < n) :
    idx_99 n ≤ idx_95 n ∧ idx_95 n < n ∧ idx_99 n < n := by
  unfold idx_95 idx_99
  omega

theorem checked_div_of_ne_zero (x y : α) (hy : y ≠ 0) : checked_div x y = some (x / y) := by
  simp [checked_div, hy]

/-- The loop of lines 59-61 reads the first `k` elements and adds them up. -/
theorem es_loop_eq (S : List α) (k : Nat) (a : α) (hk : k ≤ S.length) :
    (List.range k).foldlM (fun es_sum i => do
      let v ← S[i]?
      pure (es_sum + v)) a = some (a + (S.take k).sum) := by
  induction k with
  | zero => simp
  | succ k ih =>
    have hk2 : k < S.length := by omega
    rw [List.range_succ, List.foldlM_append, ih (by omega)]
    have h1 : S[k]? = some S[k] := List.getElem?_eq_getElem hk2
    have h2 : S.take (k + 1) = S.take k ++ [S[k]] := by
      rw [List.take_succ, h1]
      rfl
    simp only [Option.bind_eq_bind, Option.some_bind, List.foldlM_cons, List.foldlM_nil, h1,
      h2, List.sum_append, List.sum_cons, List.sum_nil, add_zero]
    rw [add_assoc]
    rfl

theorem calculate_var_eq_total (m : Libm α) (pnl_values : List α) (h : pnl_values ≠ []) :
    calculate_var m pnl_values = some (calculate_var_total m pnl_values) := by
  have hlen : (std_sort (fun a b : α => a < b) pnl_values).length = pnl_values.length :=
    std_sort_length _ _
  have hpos : 0 < pnl_values.length := List.length_pos.2 h
  obtain ⟨_, b95, b99⟩ := idx_bounds pnl_values.length hpos
  have he : pnl_values.isEmpty = false := by
    cases pnl_values with
    | nil => exact absurd rfl h
    | cons _ _ => rfl
  unfold calculate_var calculate_var_total
  simp only [he, Bool.false_eq_true, if_false]
  generalize std_sort (fun a b : α => a < b) pnl_values = S at hlen
  rw [← hlen] at b95 b99 hpos
  have g95 : S[idx_95 S.length]? = some (S.getD (idx_95 S.length) 0) := by
    rw [List.getD_eq_getElem?_getD, List.getElem?_eq_getElem b95]
    rfl
  have g99 : S[idx_99 S.length]? = some (S.getD (idx_99 S.length) 0) := by
    rw [List.getD_eq_getElem?_getD, List.getElem?_eq_getElem b99]
    rfl
  have hn : (S.length : α) ≠ 0 := Nat.cast_ne_zero.2 (by omega)
  have hd : ((idx_99 S.length + 1 : Nat) : α) ≠ 0 := Nat.cast_ne_zero.2 (by omega)
  have hes := es_loop_eq S (idx_99 S.length + 1) 0 (by omega)
  rw [zero_add] at hes
  simp only [Option.bind_eq_bind] at hes
  simp only [Option.bind_eq_bind, g95, g99, Option.some_bind, hes,
    checked_div_of_ne_zero _ _ hn, checked_div_of_ne_zero _ _ hd]
  rfl

/-- The loop of lines 59-61 with rounded additions. -/
theorem es_loop_rounded_eq (fl : α → α) (S : List α) (k : Nat) (a : α) (hk : k ≤ S.length) :
    (List.range k).foldlM (fun es_sum i => do
      let v ← S[i]?
      pure (fl (es_sum + v))) a
      = some ((S.take k).foldl (fun acc v => fl (acc + v)) a) := by
  induction k with
  | zero => simp
  | succ k ih =>
    have hk2 : k < S.length := by omega
    rw [List.range_succ, List.foldlM_append, ih (by omega)]
    have h1 : S[k]? = some S[k] := List.getElem?_eq_getElem hk2
    have h2 : S.take (k + 1) = S.take k ++ [S[k]] := by
      rw [List.take_succ, h1]
      rfl
    simp only [Option.bind_eq_bind, Option.some_bind, List.foldlM_cons, List.foldlM_nil, h1,
      h2, List.foldl_append, List.foldl_cons, List.foldl_nil]
    rfl

/-- Without rounding, `calculate_var_rounded` is `calculate_var`. -/
theorem calculate_var_rounded_id (m : Libm α) (pnl_values : List α) :
    calculate_var_rounded id m pnl_values = calculate_var m pnl_values := by
  have hid : ∀ o : Option α, Option.map id o = o := fun o => by cases o <;> rfl
  unfold calculate_var_rounded calculate_var
  simp only [hid, id_eq]

/-- The tail statistics of `calculate_var_rounded` on a non-empty vector: the two look-ups
are exact, the expected shortfall is the rounded quotient of the rounded sum. -/
theorem calculate_var_rounded_tail (fl : α → α) (m : Libm α) (pnl_values : List α)
    (h : pnl_values ≠ []) :
    ∃ r, calculate_var_rounded fl m pnl_values = some r ∧
      r.var_95 = -((std_sort (fun a b : α => a < b) pnl_values).getD
        (idx_95 pnl_values.length) 0) ∧
      r.var_99 = -((std_sort (fun a b : α => a < b) pnl_values).getD
        (idx_99 pnl_values.length) 0) ∧
      r.expected_shortfall
        = fl (-(rounded_sum fl ((std_sort (fun a b : α => a < b) pnl_values).take
              (idx_99 pnl_values.length + 1)))
            / ((idx_99 pnl_values.length + 1 : Nat) : α)) := by
  have hlen : (std_sort (fun a b : α => a < b) pnl_values).length = pnl_values.length :=
    std_sort_length _ _
  have hpos : 0 < pnl_values.length := List.length_pos.2 h
  obtain ⟨_, b95, b99⟩ := idx_bounds pnl_values.length hpos
  have he : pnl_values.isEmpty = false := by
    cases pnl_values with
    | nil => exact absurd rfl h
    | cons _ _ => rfl
  unfold calculate_var_rounded rounded_sum
  simp only [he, Bool.false_eq_true, if_false]
  rw [hlen]
  generalize std_sort (fun a b : α => a < b) pnl_values = S at hlen
  rw [← hlen] at b95 b99 hpos
  have g95 : S[idx_95 pnl_values.length]? = some (S.getD (idx_95 pnl_values.length) 0) := by
    rw [List.getD_eq_getElem?_getD, List.getElem?_eq_getElem (by rw [← hlen]; exact b95)]
    rfl
  have g99 : S[idx_99 pnl_values.length]? = some (S.getD (idx_99 pnl_values.length) 0) := by
    rw [List.getD_eq_getElem?_getD, List.getElem?_eq_getElem (by rw [← hlen]; exact b99)]
    rfl
  have hn : (pnl_values.length : α) ≠ 0 := Nat.cast_ne_zero.2 (by omega)
  have hd : ((idx_99 pnl_values.length + 1 : Nat) : α) ≠ 0 := Nat.cast_ne_zero.2 (by omega)
  have hes := es_loop_rounded_eq fl S (idx_99 pnl_values.length + 1) 0
    (by rw [hlen] at b99; omega)
  simp only [Option.bind_eq_bind] at hes
  simp only [Option.bind_eq_bind, g95, g99, Option.some_bind, hes,
    checked_div_of_ne_zero _ _ hn, checked_div_of_ne_zero _ _ hd, Option.map_some']
  exact ⟨_, rfl, rfl, rfl, rfl⟩

theorem binary64_exponent_eq (a : ℚ) (e : Int) (h1 : (2 : ℚ) ^ e ≤ a) (h2 : a < 2 ^ (e + 1))
    (he : -1022 ≤ e) : binary64_exponent a = e := by
  have ha : 0 < a := lt_of_lt_of_le (zpow_pos (by norm_num) e) h1
  have hlog : Int.log 2 a = e := by
    apply le_antisymm
    · have := (Int.lt_zpow_iff_log_lt (by norm_num : 1 < 2) ha).1 (by exact_mod_cast h2)
      omega
    · exact (Int.zpow_le_iff_le_log (by norm_num : 1 < 2) ha).1 (by exact_mod_cast h1)
  unfold binary64_exponent
  rw [hlog]
  exact max_eq_left he

/-- Rounding of a value whose binade is known. -/
theorem round_binary64_eq (x : ℚ) (e : Int) (h1 : (2 : ℚ) ^ e ≤ |x|) (h2 : |x| < 2 ^ (e + 1))
    (he : -1022 ≤ e) :
    round_binary64 x = round_half_even (x / 2 ^ (e - 52)) * 2 ^ (e - 52) := by
  unfold round_binary64
  rw [binary64_exponent_eq |x| e h1 h2 he]

theorem idx_95_eq_floor (n : Nat) : idx_95 n = ⌊(5 / 100 : ℚ) * (n : ℚ)⌋₊ := by
  have h : (5 / 100 : ℚ) * (n : ℚ) = ((n * 5 : Nat) : ℚ) / ((100 : Nat) : ℚ) := by
    push_cast
    ring
  rw [h, Nat.floor_div_eq_div]
  rfl

theorem idx_99_eq_floor (n : Nat) : idx_99 n = ⌊(1 / 100 : ℚ) * (n : ℚ)⌋₊ := by
  have h : (1 / 100 : ℚ) * (n : ℚ) = ((n * 1 : Nat) : ℚ) / ((100 : Nat) : ℚ) := by
    push_cast
    ring
  rw [h, Nat.floor_div_eq_div]
  rfl

theorem shifted_range_sorted (n : Nat) (c : ℚ) :
    ((List.range n).map (fun (i : Nat) => (i : ℚ) - c)).Sorted (fun a b => a ≤ b) := by
  unfold List.Sorted
  rw [List.pairwise_map]
  refine List.Pairwise.imp ?_ (List.pairwise_lt_range n)
  intro a b hab
  have : (a : ℚ) < (b : ℚ) := by exact_mod_cast hab
  linarith

theorem test_samples_sorted : test_samples.Sorted (fun a b => a ≤ b) :=
  shifted_range_sorted 1000 500

/-! ## Value-at-Risk summary: order and moments -/

theorem getD_eq_getElem_of_lt (S : List α) (i : Nat) (h : i < S.length) :
    S.getD i 0 = S[i] := by
  rw [List.getD_eq_getElem?_getD, List.getElem?_eq_getElem h]
  rfl

/-- In an ascending list a later element is at least an earlier one. -/
theorem sorted_getD_le (S : List α) (hS : S.Sorted (fun a b => a ≤ b)) (i j : Nat)
    (hij : i ≤ j) (hj : j < S.length) : S.getD i 0 ≤ S.getD j 0 := by
  rw [getD_eq_getElem_of_lt S i (by omega), getD_eq_getElem_of_lt S j hj]
  rcases Nat.lt_or_eq_of_le hij with h | h
  · exact List.pairwise_iff_getElem.1 hS i j (by omega) hj h
  · subst h
    exact le_refl _

/-- The first `k + 1` elements of an ascending list add up to at most `k + 1` times the
element of index `k`. -/
theorem take_sum_le (S : List α) (hS : S.Sorted (fun a b => a ≤ b)) (k : Nat)
    (hk : k < S.length) : (S.take (k + 1)).sum ≤ ((k + 1 : Nat) : α) * S.getD k 0 := by
  have hall : ∀ x ∈ S.take (k + 1), x ≤ S.getD k 0 := by
    intro x hx
    obtain ⟨i, hi, rfl⟩ := List.getElem_of_mem hx
    rw [List.length_take] at hi
    rw [List.getElem_take]
    have hi2 : i < S.length := by omega
    rw [← getD_eq_getElem_of_lt S i hi2]
    exact sorted_getD_le S hS i k (by omega) hk
  have hlen : (S.take (k + 1)).length = k + 1 := by
    rw [List.length_take]
    omega
  have h := List.sum_le_card_nsmul (S.take (k + 1)) (S.getD k 0) hall
  rw [hlen, nsmul_eq_mul] at h
  exact h

theorem foldl_add_eq_sum (f : α → α) (l : List α) (a : α) :
    l.foldl (fun acc x => acc + f x) a = a + (l.map f).sum := by
  induction l generalizing a with
  | nil => simp
  | cons x xs ih =>
    rw [List.foldl_cons, ih, List.map_cons, List.sum_cons, add_assoc]

/-- The fields of the summary of a non-empty vector, read off the sorted vector. -/
theorem calculate_var_total_fields (m : Libm α) (pnl_values : List α) :
    (calculate_var_total m pnl_values).var_95
      = -((std_sort (fun a b : α => a < b) pnl_values).getD (idx_95 pnl_values.length) 0) ∧
    (calculate_var_total m pnl_values).var_99
      = -((std_sort (fun a b : α => a < b) pnl_values).getD (idx_99 pnl_values.length) 0) ∧
    (calculate_var_total m pnl_values).expected_shortfall
      = -(((std_sort (fun a b : α => a < b) pnl_values).take
            (idx_99 pnl_values.length + 1)).sum)
          / ((idx_99 pnl_values.length + 1 : Nat) : α) ∧
    (calculate_var_total m pnl_values).mean_pnl
      = pnl_values.sum / (pnl_values.length : α) ∧
    (calculate_var_total m pnl_values).std_pnl
      = m.sqrt ((pnl_values.map (fun x =>
          (x - pnl_values.sum / (pnl_values.length : α))
            * (x - pnl_values.sum / (pnl_values.length : α)))).sum
          / (pnl_values.length : α)) := by
  have hsum : pnl_values.foldl (fun acc x => acc + x) 0 = pnl_values.sum := by
    have h := foldl_add_eq_sum (fun x => x) pnl_values 0
    rw [zero_add, List.map_id'] at h
    exact h
  unfold calculate_var_total
  simp only [std_sort_length, hsum]
  refine ⟨trivial, trivial, trivial, trivial, ?_⟩
  have h := foldl_add_eq_sum (fun x =>
    (x - pnl_values.sum / (pnl_values.length : α))
      * (x - pnl_values.sum / (pnl_values.length : α))) pnl_values 0
  rw [zero_add] at h
  rw [h]

theorem test_samples_ne_nil : test_samples ≠ [] := by
  intro h0
  have h1 := congrArg List.length h0
  simp [test_samples] at h1

theorem gain_samples_ne_nil : gain_samples ≠ [] := by
  intro h0
  have h1 := congrArg List.length h0
  simp [gain_samples] at h1

theorem shifted_range_sum (n : Nat) (c : ℚ) :
    ((List.range n).map (fun (i : Nat) => (i : ℚ) - c)).sum
      = (n : ℚ) * ((n : ℚ) - 1) / 2 - (n : ℚ) * c := by
  induction n with
  | zero => simp
  | succ n ih =>
    rw [List.range_succ, List.map_append, List.sum_append, ih]
    simp only [List.map_cons, List.map_nil, List.sum_cons, List.sum_nil]
    push_cast
    ring

/-- In an ascending list the element of index `i` is at most `c` exactly when more than
`i` elements are at most `c`. -/
theorem sorted_getElem_le_iff (S : List α) (hS : S.Sorted (fun a b => a ≤ b)) (c : α)
    (i : Nat) (hi : i < S.length) :
    S[i] ≤ c ↔ i < (S.filter (fun x => x ≤ c)).length := by
  induction S generalizing i with
  | nil => simp at hi
  | cons a t ih =>
    have hat : ∀ b ∈ t, a ≤ b := (List.sorted_cons.1 hS).1
    have ht : t.Sorted (fun a b => a ≤ b) := (List.sorted_cons.1 hS).2
    by_cases hac : a ≤ c
    · have hf : (a :: t).filter (fun x => x ≤ c) = a :: t.filter (fun x => x ≤ c) := by
        simp [hac]
      rw [hf]
      cases i with
      | zero => simp [hac]
      | succ j =>
        have hj : j < t.length := by simpa using hi
        simp only [List.getElem_cons_succ, List.length_cons, Nat.add_lt_add_iff_right]
        exact ih ht j hj
    · have hnil : t.filter (fun x => x ≤ c) = [] := by
        rw [List.filter_eq_nil_iff]
        intro b hb hbc
        exact hac (le_trans (hat b hb) (by simpa using hbc))
      have hf : (a :: t).filter (fun x => x ≤ c) = [] := by
        simp [hac, hnil]
      rw [hf]
      cases i with
      | zero => simp [hac]
      | succ j =>
        have hj : j < t.length := by simpa using hi
        simp only [List.getElem_cons_succ, List.length_nil, Nat.not_lt_zero, iff_false]
        intro hle
        exact hac (le_trans (hat _ (List.getElem_mem _)) hle)

/-- The sign of `var_95`: it is non-negative exactly when more than `floor(0.05 n)` of the
samples are at most zero. -/
theorem var_95_nonneg_iff (m : Libm α) (pnl_values : List α) (h : pnl_values ≠ []) :
    0 ≤ (calculate_var_total m pnl_values).var_95 ↔
      idx_95 pnl_values.length < (pnl_values.filter (fun x => x ≤ 0)).length := by
  have hlen := std_sort_length (fun a b : α => a < b) pnl_values
  obtain ⟨_, b95', _⟩ := idx_bounds pnl_values.length (List.length_pos.2 h)
  have b95 : idx_95 pnl_values.length
      < (std_sort (fun a b : α => a < b) pnl_values).length := by rw [hlen]; exact b95'
  rw [(calculate_var_total_fields m pnl_values).1, getD_eq_getElem_of_lt _ _ b95,
    neg_nonneg, sorted_getElem_le_iff _ (std_sort_lt_sorted pnl_values) 0 _ b95]
  rw [((std_sort_perm (fun a b : α => a < b) pnl_values).filter _).length_eq]

theorem var_99_ge_var_95_total (m : Libm α) (pnl_values : List α) (h : pnl_values ≠ []) :
    (calculate_var_total m pnl_values).var_95 ≤ (calculate_var_total m pnl_values).var_99 := by
  have hlen := std_sort_length (fun a b : α => a < b) pnl_values
  obtain ⟨b, b95', _⟩ := idx_bounds pnl_values.length (List.length_pos.2 h)
  have b95 : idx_95 pnl_values.length
      < (std_sort (fun a b : α => a < b) pnl_values).length := by rw [hlen]; exact b95'
  rw [(calculate_var_total_fields m pnl_values).1,
    (calculate_var_total_fields m pnl_values).2.1, neg_le_neg_iff]
  exact sorted_getD_le _ (std_sort_lt_sorted pnl_values) _ _ b b95

theorem expected_shortfall_ge_var_99_total (m : Libm α) (pnl_values : List α)
    (h : pnl_values ≠ []) :
    (calculate_var_total m pnl_values).var_99
      ≤ (calculate_var_total m pnl_values).expected_shortfall := by
  have hlen := std_sort_length (fun a b : α => a < b) pnl_values
  obtain ⟨_, _, b99'⟩ := idx_bounds pnl_values.length (List.length_pos.2 h)
  have b99 : idx_99 pnl_values.length
      < (std_sort (fun a b : α => a < b) pnl_values).length := by rw [hlen]; exact b99'
  rw [(calculate_var_total_fields m pnl_values).2.1,
    (calculate_var_total_fields m pnl_values).2.2.1, neg_div, neg_le_neg_iff]
  have hd : (0 : α) < ((idx_99 pnl_values.length + 1 : Nat) : α) := by
    exact_mod_cast Nat.succ_pos _
  rw [div_le_iff₀ hd, mul_comm]
  exact take_sum_le _ (std_sort_lt_sorted pnl_values) _ b99

/-- Sorting an ascending vector leaves it unchanged. -/
theorem std_sort_of_sorted (l : List α) (hl : l.Sorted (fun a b => a ≤ b)) :
    std_sort (fun a b : α => a < b) l = l :=
  List.eq_of_perm_of_sorted (std_sort_perm _ l) (std_sort_lt_sorted l) hl

/-! ## Value-at-Risk summary: reordering and bounds -/

theorem std_sort_perm_eq (l1 l2 : List α) (h : l1.Perm l2) :
    std_sort (fun a b : α => a < b) l1 = std_sort (fun a b : α => a < b) l2 :=
  List.eq_of_perm_of_sorted
    (((std_sort_perm _ l1).trans h).trans (std_sort_perm _ l2).symm)
    (std_sort_lt_sorted l1) (std_sort_lt_sorted l2)

theorem calculate_var_total_perm (m : Libm α) (l1 l2 : List α) (h : l1.Perm l2) :
    calculate_var_total m l1 = calculate_var_total m l2 := by
  obtain ⟨a1, a2, a3, a4, a5⟩ := calculate_var_total_fields m l1
  obtain ⟨b1, b2, b3, b4, b5⟩ := calculate_var_total_fields m l2
  have hs := std_sort_perm_eq l1 l2 h
  have hl : l1.length = l2.length := h.length_eq
  have hsum : l1.sum = l2.sum := h.sum_eq
  have hsq : (l1.map (fun x => (x - l2.sum / (l2.length : α))
        * (x - l2.sum / (l2.length : α)))).sum
      = (l2.map (fun x => (x - l2.sum / (l2.length : α))
        * (x - l2.sum / (l2.length : α)))).sum := (h.map _).sum_eq
  rw [hs, hl] at a1 a2 a3
  rw [hsum, hl] at a4 a5
  rw [hsq] at a5
  cases hr1 : calculate_var_total m l1
  cases hr2 : calculate_var_total m l2
  rw [hr1] at a1 a2 a3 a4 a5
  rw [hr2] at b1 b2 b3 b4 b5
  simp only at a1 a2 a3 a4 a5 b1 b2 b3 b4 b5
  rw [a1, a2, a3, a4, a5, b1, b2, b3, b4, b5]

theorem calculate_var_perm (m : Libm α) (l1 l2 : List α) (h : l1.Perm l2) :
    calculate_var m l1 = calculate_var m l2 := by
  by_cases h1 : l1 = []
  · subst h1
    rw [List.nil_perm.1 h]
  · have h2 : l2 ≠ [] := fun h0 => h1 (List.perm_nil.1 (h0 ▸ h))
    rw [calculate_var_eq_total m l1 h1, calculate_var_eq_total m l2 h2,
      calculate_var_total_perm m l1 l2 h]

end VarLemmas

/-! ## Batch Greeks -/

section GreeksLemmas

variable {α : Type} [LinearOrderedField α]
variable {β γ : Type}

theorem map_option_append (f : β → Option γ) (a b : List β) :
    map_option f (a ++ b) =
      (map_option f a).bind (fun ya => (map_option f b).map (fun yb => ya ++ yb)) := by
  induction a with
  | nil =>
    simp only [List.nil_append, map_option, Option.some_bind]
    cases map_option f b <;> rfl
  | cons x xs ih =>
    have e1 : map_option f (x :: xs ++ b)
        = (f x).bind (fun y => (map_option f (xs ++ b)).map (fun ys => y :: ys)) := rfl
    have e2 : map_option f (x :: xs)
        = (f x).bind (fun y => (map_option f xs).map (fun ys => y :: ys)) := rfl
    rw [e1, e2, ih]
    cases f x with
    | none => rfl
    | some y =>
      cases map_option f xs with
      | none => rfl
      | some ys =>
        cases map_option f b <;> rfl

theorem map_option_length (f : β → Option γ) (l : List β) (ys : List γ)
    (h : map_option f l = some ys) : ys.length = l.length := by
  induction l generalizing ys with
  | nil =>
    simp only [map_option, Option.some.injEq] at h
    subst h
    rfl
  | cons x xs ih =>
    simp only [map_option] at h
    cases hx : f x with
    | none => rw [hx] at h; cases h
    | some y =>
      rw [hx] at h
      cases hxs : map_option f xs with
      | none => rw [hxs] at h; cases h
      | some zs =>
        rw [hxs] at h
        simp only [Option.some_bind, Option.map_some', Option.some.injEq] at h
        rw [← h, List.length_cons, List.length_cons, ih zs hxs]

theorem map_option_getElem (f : β → Option γ) (l : List β) (ys : List γ)
    (h : map_option f l = some ys) (i : Nat) : (l[i]?).bind f = ys[i]? := by
  induction l generalizing ys i with
  | nil =>
    simp only [map_option, Option.some.injEq] at h
    subst h
    rfl
  | cons x xs ih =>
    simp only [map_option] at h
    cases hx : f x with
    | none => rw [hx] at h; cases h
    | some y =>
      rw [hx] at h
      cases hxs : map_option f xs with
      | none => rw [hxs] at h; cases h
      | some zs =>
        rw [hxs] at h
        simp only [Option.some_bind, Option.map_some', Option.some.injEq] at h
        rw [← h]
        cases i with
        | zero => simpa using hx
        | succ j => simpa using ih zs hxs j

theorem map_option_isSome (f : β → Option γ) (l : List β)
    (h : ∀ x ∈ l, ∃ y, f x = some y) : ∃ ys, map_option f l = some ys := by
  induction l with
  | nil => exact ⟨[], rfl⟩
  | cons x xs ih =>
    obtain ⟨y, hy⟩ := h x (List.mem_cons_self _ _)
    obtain ⟨ys, hys⟩ := ih (fun z hz => h z (List.mem_cons_of_mem _ hz))
    exact ⟨y :: ys, by simp [map_option, hy, hys]⟩

theorem map_option_mem_some (f : β → Option γ) (l : List β) (ys : List γ)
    (h : map_option f l = some ys) : ∀ x ∈ l, ∃ y, f x = some y := by
  induction l generalizing ys with
  | nil => intro x hx; cases hx
  | cons x xs ih =>
    simp only [map_option] at h
    cases hx : f x with
    | none => rw [hx] at h; cases h
    | some y =>
      rw [hx] at h
      cases hxs : map_option f xs with
      | none => rw [hxs] at h; cases h
      | some zs =>
        intro z hz
        rcases List.mem_cons.1 hz with hz | hz
        · exact ⟨y, hz ▸ hx⟩
        · exact ih zs hxs z hz

/-- The loop of a worker, `results[i] = f(positions[i])` for `i` in `[s, s + len)`,
overwrites that window of `R` and nothing else. -/
theorem set_loop_eq (f : β → Option γ) (ps : List β) (len s : Nat) (R : List γ)
    (hR : R.length = ps.length) (hs : len ≠ 0 → s + len ≤ ps.length) :
    (List.range' s len).foldlM (fun results i => do
      let pos ← ps[i]?
      let g ← f pos
      pure (results.set i g)) R
      = (map_option f ((ps.drop s).take len)).map
          (fun ys => R.take s ++ ys ++ R.drop (s + len)) := by
  induction len generalizing s R with
  | zero =>
    simp [map_option]
  | succ len ih =>
    have hlt : s < ps.length := by have := hs (by omega); omega
    have hlt2 : s < R.length := by omega
    have h1 : ps[s]? = some ps[s] := List.getElem?_eq_getElem hlt
    have h2 : (ps.drop s).take (len + 1) = ps[s] :: (ps.drop (s + 1)).take len := by
      rw [List.drop_eq_getElem_cons hlt, List.take_succ_cons]
    rw [List.range'_succ, List.foldlM_cons, h2]
    simp only [h1, Option.bind_eq_bind, Option.some_bind, map_option]
    cases hf : f ps[s] with
    | none => rfl
    | some g =>
      simp only [Option.some_bind]
      have hR2 : (R.set s g).length = ps.length := by rw [List.length_set]; exact hR
      have hi := ih (s + 1) (R.set s g) hR2 (by intro _; have := hs (by omega); omega)
      simp only [Option.bind_eq_bind] at hi
      show List.foldlM _ (R.set s g) (List.range' (s + 1) len) = _
      rw [hi]
      have e1 : (R.set s g).take (s + 1) = R.take s ++ [g] := by
        rw [List.set_eq_take_append_cons_drop, if_pos hlt2]
        have e0 : R.take s ++ g :: R.drop (s + 1) = (R.take s ++ [g]) ++ R.drop (s + 1) := by
          simp
        rw [e0]
        apply List.take_left'
        rw [List.length_append, List.length_take, List.length_singleton]
        omega
      have e2 : (R.set s g).drop (s + 1 + len) = R.drop (s + (len + 1)) := by
        rw [List.drop_set_of_lt g R (show s < s + 1 + len by omega)]
        congr 1
        omega
      rw [e1, e2]
      cases map_option f ((ps.drop (s + 1)).take len) with
      | none => rfl
      | some ys => simp

/-- One worker of the batch, applied to a result vector whose first `k * chunk` slots are
filled: it fills the next chunk. -/
theorem worker_step_fill (f : β → Option γ) (ps : List β) (T k : Nat) (Z ys : List γ)
    (hZ : Z.length = ps.length)
    (hys : ys.length = min (k * chunk_size ps.length T) ps.length) :
    (if worker_start ps.length T k < worker_end ps.length T k then
      (List.range' (worker_start ps.length T k)
        (worker_end ps.length T k - worker_start ps.length T k)).foldlM
        (fun results i => do
          let pos ← ps[i]?
          let g ← f pos
          pure (results.set i g)) (ys ++ Z.drop (k * chunk_size ps.length T))
    else pure (ys ++ Z.drop (k * chunk_size ps.length T)))
    = (map_option f ((ps.drop (k * chunk_size ps.length T)).take (chunk_size ps.length T))).map
        (fun zs => (ys ++ zs) ++ Z.drop ((k + 1) * chunk_size ps.length T)) := by
  simp only [worker_end, worker_start]
  generalize chunk_size ps.length T = c at hys ⊢
  have hadd : (k + 1) * c = k * c + c := by rw [Nat.add_mul, Nat.one_mul]
  by_cases hlt : k * c < min (k * c + c) ps.length
  · rw [if_pos hlt]
    have hkc : k * c < ps.length := by
      have := Nat.min_le_right (k * c + c) ps.length
      omega
    have hysl : ys.length = k * c := by rw [hys]; exact Nat.min_eq_left (by omega)
    have hRl : (ys ++ Z.drop (k * c)).length = ps.length := by
      rw [List.length_append, List.length_drop, hysl, hZ]
      omega
    rw [set_loop_eq f ps _ _ _ hRl (by intro _; omega)]
    have hslice : (ps.drop (k * c)).take (min (k * c + c) ps.length - k * c)
        = (ps.drop (k * c)).take c := by
      rcases Nat.le_total (k * c + c) ps.length with h | h
      · rw [Nat.min_eq_left h]
        congr 1
        omega
      · rw [Nat.min_eq_right h]
        rw [List.take_of_length_le (by rw [List.length_drop]),
          List.take_of_length_le (by rw [List.length_drop]; omega)]
    rw [hslice]
    have htake : (ys ++ Z.drop (k * c)).take (k * c) = ys := List.take_left' hysl
    have hdrop : (ys ++ Z.drop (k * c)).drop (k * c + (min (k * c + c) ps.length - k * c))
        = Z.drop ((k + 1) * c) := by
      have e : k * c + (min (k * c + c) ps.length - k * c)
          = ys.length + (min (k * c + c) ps.length - k * c) := by rw [hysl]
      rw [e, List.drop_append, List.drop_drop, hadd]
      rcases Nat.le_total (k * c + c) ps.length with h | h
      · rw [Nat.min_eq_left h]
        congr 1
        omega
      · rw [Nat.min_eq_right h]
        rw [List.drop_eq_nil_of_le (by omega), List.drop_eq_nil_of_le (by omega)]
    rw [htake, hdrop]
  · rw [if_neg hlt]
    have hcase : c = 0 ∨ ps.length ≤ k * c := by
      rcases Nat.le_total (k * c + c) ps.length with h | h
      · rw [Nat.min_eq_left h] at hlt
        left
        omega
      · rw [Nat.min_eq_right h] at hlt
        right
        omega
    have hslice : (ps.drop (k * c)).take c = [] := by
      rcases hcase with h | h
      · rw [h]; rfl
      · rw [List.drop_eq_nil_of_le h]; exact List.take_nil
    have hdrop : Z.drop ((k + 1) * c) = Z.drop (k * c) := by
      rcases hcase with h | h
      · rw [hadd, h]; rfl
      · rw [List.drop_eq_nil_of_le (by omega), List.drop_eq_nil_of_le (by omega)]
    rw [hslice, hdrop]
    simp [map_option]

/-- The fan-out of `calculate_all_greeks_multi` after the first `k` workers. -/
theorem workers_loop_eq (f : β → Option γ) (ps : List β) (T k : Nat) (Z : List γ)
    (hZ : Z.length = ps.length) :
    (List.range k).foldlM (fun results t =>
      if worker_start ps.length T t < worker_end ps.length T t then
        (List.range' (worker_start ps.length T t)
          (worker_end ps.length T t - worker_start ps.length T t)).foldlM
          (fun results i => do
            let pos ← ps[i]?
            let g ← f pos
            pure (results.set i g)) results
      else pure results) Z
    = (map_option f (ps.take (k * chunk_size ps.length T))).map
        (fun ys => ys ++ Z.drop (k * chunk_size ps.length T)) := by
  induction k with
  | zero => simp [map_option]
  | succ k ih =>
    rw [List.range_succ, List.foldlM_append, ih]
    have hadd : (k + 1) * chunk_size ps.length T
        = k * chunk_size ps.length T + chunk_size ps.length T := by
      rw [Nat.add_mul, Nat.one_mul]
    have htake : ps.take ((k + 1) * chunk_size ps.length T)
        = ps.take (k * chunk_size ps.length T)
          ++ (ps.drop (k * chunk_size ps.length T)).take (chunk_size ps.length T) := by
      rw [hadd, List.take_add]
    rw [htake, map_option_append]
    cases hm : map_option f (ps.take (k * chunk_size ps.length T)) with
    | none => rfl
    | some ys =>
      have hys : ys.length = min (k * chunk_size ps.length T) ps.length := by
        rw [map_option_length f _ ys hm, List.length_take]
      simp only [Option.map_some', Option.bind_eq_bind, Option.some_bind, List.foldlM_cons,
        List.foldlM_nil]
      have hw := worker_step_fill f ps T k Z ys hZ hys
      simp only [Option.bind_eq_bind] at hw
      rw [hw]
      cases map_option f ((ps.drop (k * chunk_size ps.length T)).take
          (chunk_size ps.length T)) with
      | none => rfl
      | some zs => rfl

theorem map_option_some (g : β → γ) (l : List β) :
    map_option (fun x => some (g x)) l = some (l.map g) := by
  induction l with
  | nil => rfl
  | cons x xs ih => simp only [map_option, ih, Option.some_bind, Option.map_some', List.map_cons]

/-- The `push_back` loop of `calculate_all_greeks_single` started from `acc`. -/
theorem push_back_foldl_eq (g : β → γ) (l : List β) (acc : List γ) :
    l.foldl (fun results pos => results ++ [g pos]) acc = acc ++ l.map g := by
  induction l generalizing acc with
  | nil => simp
  | cons x xs ih =>
    rw [List.foldl_cons, ih, List.map_cons, List.append_assoc]
    rfl

theorem ieee_div_of_ne_zero (m : Libm α) (x y : α) (hy : y ≠ 0) : ieee_div m x y = x / y := by
  unfold ieee_div
  rw [if_neg hy]

theorem ieee_div_zero (m : Libm α) (x y : α) (hy : y = 0) :
    ieee_div m x y = m.div_zero x := by
  unfold ieee_div
  rw [if_pos hy]

theorem calculate_all_greeks_single_eq (m : Libm α) (positions : List (Position α))
    (bump_size : α) :
    calculate_all_greeks_single m positions bump_size
      = positions.map (fun pos => calculate_greeks m pos bump_size) := by
  unfold calculate_all_greeks_single
  rw [push_back_foldl_eq (fun pos => calculate_greeks m pos bump_size) positions []]
  rfl

theorem calculate_all_greeks_multi_eq (m : Libm α) (positions : List (Position α)) (T : Nat)
    (bump_size : α) (hT : 1 ≤ T) :
    calculate_all_greeks_multi m positions T bump_size
      = some (positions.map (fun pos => calculate_greeks m pos bump_size)) := by
  unfold calculate_all_greeks_multi greeks_worker
  rw [if_neg (by omega)]
  have h := workers_loop_eq (fun pos => some (calculate_greeks m pos bump_size)) positions T T
    (List.replicate positions.length (Greeks.zero : Greeks α)) (List.length_replicate _ _)
  have hge : positions.length ≤ T * chunk_size positions.length T := by
    rw [Nat.mul_comm]
    exact chunk_size_mul_ge _ _ hT
  rw [List.take_of_length_le hge,
    List.drop_eq_nil_of_le (by rw [List.length_replicate]; exact hge), map_option_some,
    Option.map_some', List.append_nil] at h
  exact h

/-- Outside the degenerate branch, with non-zero divisors, the call and put prices are the
closed form with field quotients. -/
theorem black_scholes_price_closed_form (m : Libm α) (spot strike vol rate time : α)
    (is_call : Bool) (ht : 0 < time) (hv : 0 < vol) (hK : strike ≠ 0)
    (hd : vol * m.sqrt time ≠ 0) :
    black_scholes_price m spot strike vol rate time is_call
      = if is_call then
          spot * normal_cdf m ((m.log (spot / strike) + (rate + 1 / 2 * vol * vol) * time)
              / (vol * m.sqrt time))
            - strike * m.exp (-rate * time)
              * normal_cdf m ((m.log (spot / strike) + (rate + 1 / 2 * vol * vol) * time)
                / (vol * m.sqrt time) - vol * m.sqrt time)
        else
          strike * m.exp (-rate * time)
              * normal_cdf m (-((m.log (spot / strike) + (rate + 1 / 2 * vol * vol) * time)
                / (vol * m.sqrt time) - vol * m.sqrt time))
            - spot * normal_cdf m (-((m.log (spot / strike)
                + (rate + 1 / 2 * vol * vol) * time) / (vol * m.sqrt time))) := by
  unfold black_scholes_price
  rw [if_neg (not_or.2 ⟨not_le.2 ht, not_le.2 hv⟩)]
  simp only [ieee_div_of_ne_zero m _ _ hK, ieee_div_of_ne_zero m _ _ hd]

/-! ## Portfolio delta -/

/-- The loop of `total_portfolio_delta` over the first `k` indices. -/
theorem delta_loop_eq (greeks : List (Greeks α)) (positions : List (Position α)) (k : Nat)
    (a : α) (hg : k ≤ greeks.length) (hp : k ≤ positions.length) :
    (List.range k).foldlM (fun total i => do
      let g ← greeks[i]?
      let pos ← positions[i]?
      pure (total + g.delta * pos.quantity)) a
      = some (a + (List.zipWith (fun g pos => g.delta * pos.quantity)
          (greeks.take k) (positions.take k)).sum) := by
  induction k with
  | zero => simp
  | succ k ih =>
    have hk1 : k < greeks.length := by omega
    have hk2 : k < positions.length := by omega
    rw [List.range_succ, List.foldlM_append, ih (by omega) (by omega)]
    have h1 : greeks[k]? = some greeks[k] := List.getElem?_eq_getElem hk1
    have h2 : positions[k]? = some positions[k] := List.getElem?_eq_getElem hk2
    have t1 : greeks.take (k + 1) = greeks.take k ++ [greeks[k]] := by
      rw [List.take_succ, h1]
      rfl
    have t2 : positions.take (k + 1) = positions.take k ++ [positions[k]] := by
      rw [List.take_succ, h2]
      rfl
    have hl : (greeks.take k).length = (positions.take k).length := by
      rw [List.length_take, List.length_take]
      omega
    rw [t1, t2, List.zipWith_append _ _ _ _ _ hl]
    simp only [Option.bind_eq_bind, Option.some_bind, List.foldlM_cons, List.foldlM_nil, h1,
      h2, List.sum_append, List.zipWith_cons_cons, List.zipWith_nil_right, List.sum_cons,
      List.sum_nil, add_zero]
    rw [add_assoc]
    rfl

theorem total_portfolio_delta_eq (greeks : List (Greeks α)) (positions : List (Position α))
    (h : greeks.length = positions.length) :
    total_portfolio_delta greeks positions
      = some (List.zipWith (fun g pos => g.delta * pos.quantity) greeks positions).sum := by
  unfold total_portfolio_delta
  have hl := delta_loop_eq greeks positions greeks.length 0 le_rfl (by omega)
  simp only [Option.bind_eq_bind] at hl
  simp only [Option.bind_eq_bind]
  rw [hl, zero_add, List.take_length, h, List.take_length]

/-- The batch of a portfolio of equities. -/
theorem map_stock_greeks (m : Libm α) (positions : List (Position α)) (bump_size : α)
    (h : ∀ pos ∈ positions, pos.type = PositionType.STOCK) :
    positions.map (fun pos => calculate_greeks m pos bump_size)
      = positions.map (fun pos =>
          { price := pos.price, delta := 1, gamma := 0, vega := 0, theta := 0 }) := by
  apply List.map_congr_left
  intro pos hpos
  unfold calculate_greeks
  rw [if_pos (h pos hpos)]

theorem zipWith_stock_delta (positions : List (Position α)) :
    (List.zipWith (fun (g : Greeks α) (pos : Position α) => g.delta * pos.quantity)
      (positions.map (fun pos =>
        { price := pos.price, delta := 1, gamma := 0, vega := 0, theta := 0 })) positions).sum
      = (positions.map (fun pos => pos.quantity)).sum := by
  induction positions with
  | nil => rfl
  | cons pos rest ih =>
    simp only [List.map_cons, List.zipWith_cons_cons, List.sum_cons, ih, one_mul]

end GreeksLemmas

/-! ## Environment tuner -/

section SystemLemmas

theorem attempt_call_eq (requested ok : Bool) (op : SystemOp) (st : Bool × List SystemOp) :
    attempt_call requested ok op st
      = (st.1 && (!requested || ok), st.2 ++ (if requested then [op] else [])) := by
  cases requested <;> cases ok <;> simp [attempt_call]

theorem perform_call_eq (requested : Bool) (op : SystemOp) (st : Bool × List SystemOp) :
    perform_call requested op st = (st.1, st.2 ++ (if requested then [op] else [])) := by
  cases requested <;> simp [perform_call]

/-- The flag and the calls of `apply_system_config` in closed form. -/
theorem apply_system_config_eq (os : OsCalls) (config : SystemConfig) :
    apply_system_config os config =
      ((((true && (!(!config.cpu_affinity.isEmpty)
            || set_thread_affinity os config.cpu_affinity))
          && (!(decide (config.numa_node ≥ 0)) || os.bind_numa_node config.numa_node))
          && (!config.lock_memory || os.lock_memory))
          && (!config.realtime_priority || os.set_realtime_priority 50),
       ((((([] ++ (if (!config.cpu_affinity.isEmpty) = true
            then [SystemOp.set_thread_affinity config.cpu_affinity] else []))
          ++ (if decide (config.numa_node ≥ 0) = true
            then [SystemOp.bind_numa_node config.numa_node] else []))
          ++ (if config.lock_memory = true then [SystemOp.lock_memory] else []))
          ++ (if config.realtime_priority = true
            then [SystemOp.set_realtime_priority 50] else []))
          ++ (if config.prefault_memory = true then [SystemOp.prefault_stack 64] else []))
          ++ (if decide (config.preallocate_mb > 0) = true
            then [SystemOp.prefault_heap config.preallocate_mb] else [])) := by
  unfold apply_system_config
  simp only [attempt_call_eq, perform_call_eq]

/-! ## CPU-list parser -/

theorem isDigit_ne_comma (c : Char) (h : c.isDigit = true) : c ≠ ',' := by
  intro h0
  subst h0
  exact absurd h (by decide)

theorem isDigit_ne_dash (c : Char) (h : c.isDigit = true) : c ≠ '-' := by
  intro h0
  subst h0
  exact absurd h (by decide)

theorem isDigit_ne_plus (c : Char) (h : c.isDigit = true) : c ≠ '+' := by
  intro h0
  subst h0
  exact absurd h (by decide)

theorem isDigit_not_isspace (c : Char) (h : c.isDigit = true) : c_isspace c = false := by
  cases hs : c_isspace c with
  | false => rfl
  | true =>
    unfold c_isspace at hs
    simp only [Bool.or_eq_true, decide_eq_true_eq] at hs
    rcases hs with ((((h0 | h0) | h0) | h0) | h0) | h0 <;>
      (subst h0; exact absurd h (by decide))

theorem getline_tokens_append_comma (t acc rest : List Char) (h : ',' ∉ t) :
    getline_tokens acc (t ++ ',' :: rest) = (acc ++ t) :: getline_tokens [] rest := by
  induction t generalizing acc with
  | nil => simp [getline_tokens]
  | cons c t ih =>
    have hc : ¬ c = ',' := fun h0 => h (h0 ▸ List.mem_cons_self _ _)
    have ht : ',' ∉ t := fun h0 => h (List.mem_cons_of_mem _ h0)
    rw [List.cons_append, getline_tokens, if_neg hc, ih _ ht, List.append_assoc]
    rfl

theorem getline_tokens_last (t acc : List Char) (h : ',' ∉ t) (hne : acc ++ t ≠ []) :
    getline_tokens acc t = [acc ++ t] := by
  induction t generalizing acc with
  | nil =>
    rw [List.append_nil] at hne
    have : acc.isEmpty = false := by
      cases acc with
      | nil => exact absurd rfl hne
      | cons _ _ => rfl
    simp [getline_tokens, this]
  | cons c t ih =>
    have hc : ¬ c = ',' := fun h0 => h (h0 ▸ List.mem_cons_self _ _)
    have ht : ',' ∉ t := fun h0 => h (List.mem_cons_of_mem _ h0)
    rw [getline_tokens, if_neg hc, ih _ ht (by simp), List.append_assoc]
    rfl

/-- Reading a comma-separated string of non-empty comma-free tokens gives the tokens. -/
theorem getline_tokens_join (ts : List (List Char)) (h : ∀ t ∈ ts, ',' ∉ t ∧ t ≠ []) :
    getline_tokens [] (join_tokens ts) = ts := by
  induction ts with
  | nil => rfl
  | cons t rest ih =>
    obtain ⟨h1, h2⟩ := h t (List.mem_cons_self _ _)
    cases rest with
    | nil =>
      rw [join_tokens, getline_tokens_last t [] h1 (by simpa using h2)]
      rfl
    | cons u rest =>
      rw [join_tokens, getline_tokens_append_comma t [] _ h1,
        ih (fun x hx => h x (List.mem_cons_of_mem _ hx))]
      rfl

theorem is_number_facts (ds : List Char) (h : is_number ds) :
    ',' ∉ ds ∧ '-' ∉ ds ∧ ds ≠ [] := by
  refine ⟨?_, ?_, h.1⟩
  · intro h0
    exact isDigit_ne_comma _ (h.2 _ h0) rfl
  · intro h0
    exact isDigit_ne_dash _ (h.2 _ h0) rfl

/-- On a run of digits `std::stoi` returns its value, provided it fits `int`. -/
theorem stoi_number (ds : List Char) (h : is_number ds)
    (hfit : (digits_value ds : Int) ≤ INT_MAX) : stoi ds = some (digits_value ds : Int) := by
  obtain ⟨hne, hd⟩ := h
  cases ds with
  | nil => exact absurd rfl hne
  | cons c rest =>
    have hc := hd c (List.mem_cons_self _ _)
    have hsp : c_isspace c = false := isDigit_not_isspace c hc
    have h1 : (c :: rest).dropWhile c_isspace = c :: rest := by
      rw [List.dropWhile_cons, hsp]
      rfl
    have h2 : (c :: rest).takeWhile Char.isDigit = c :: rest :=
      List.takeWhile_eq_self_iff.2 hd
    have hdash : ¬ c = '-' := isDigit_ne_dash c hc
    have hplus : ¬ c = '+' := isDigit_ne_plus c hc
    have hneg : decide ((c :: rest).head? = some '-') = false := by
      simp [hdash]
    unfold stoi
    simp only [h1]
    have hm : (match c :: rest with
        | '-' :: r => r
        | '+' :: r => r
        | _ => c :: rest) = c :: rest := by
      split
      · rename_i heq
        exact absurd (List.cons.inj heq).1 hdash
      · rename_i heq
        exact absurd (List.cons.inj heq).1 hplus
      · rfl
    rw [hm, h2, hneg]
    have hmin : INT_MIN ≤ (digits_value (c :: rest) : Int) := by
      have : (0 : Int) ≤ (digits_value (c :: rest) : Int) := Int.ofNat_nonneg _
      unfold INT_MIN
      omega
    simp [hmin, hfit]

theorem takeWhile_ne_dash (a b : List Char) (h : '-' ∉ a) :
    (a ++ '-' :: b).takeWhile (fun c => c ≠ '-') = a := by
  induction a with
  | nil => simp
  | cons c t ih =>
    have hc : c ≠ '-' := fun h0 => h (h0 ▸ List.mem_cons_self _ _)
    have ht : '-' ∉ t := fun h0 => h (List.mem_cons_of_mem _ h0)
    rw [List.cons_append, List.takeWhile_cons, ih ht]
    simp [hc]

theorem dropWhile_ne_dash (a b : List Char) (h : '-' ∉ a) :
    (a ++ '-' :: b).dropWhile (fun c => c ≠ '-') = '-' :: b := by
  induction a with
  | nil => simp
  | cons c t ih =>
    have hc : c ≠ '-' := fun h0 => h (h0 ▸ List.mem_cons_self _ _)
    have ht : '-' ∉ t := fun h0 => h (List.mem_cons_of_mem _ h0)
    rw [List.cons_append, List.dropWhile_cons, ih ht]
    simp [hc]

theorem mem_int_range (start end_ x : Int) (vs : List Int)
    (h : int_range start end_ = some vs) : x ∈ vs ↔ start ≤ x ∧ x ≤ end_ := by
  unfold int_range at h
  by_cases hle : start ≤ end_
  · rw [if_pos hle] at h
    by_cases hmax : end_ = INT_MAX
    · rw [if_pos hmax] at h
      cases h
    · rw [if_neg hmax] at h
      cases h
      rw [List.mem_map]
      constructor
      · rintro ⟨k, hk, rfl⟩
        have hk2 := List.mem_range.1 hk
        omega
      · rintro ⟨h1, h2⟩
        exact ⟨(x - start).toNat, List.mem_range.2 (by omega), by omega⟩
  · rw [if_neg hle] at h
    cases h
    simp only [List.not_mem_nil, false_iff]
    omega

/-- A well-formed token whose numbers fit `int` is parsed without error, and the values
it adds are exactly the integers it names. -/
theorem parse_token_well_formed (t : CpuToken) (hw : t.well_formed) (hf : t.fits_int) :
    ∃ vs, parse_token t.text = some vs ∧ ∀ x, x ∈ vs ↔ t.covers x := by
  cases t with
  | single ds =>
    obtain ⟨_, hdash, _⟩ := is_number_facts ds hw
    refine ⟨[(digits_value ds : Int)], ?_, ?_⟩
    · unfold parse_token CpuToken.text
      rw [if_neg hdash, stoi_number ds hw hf]
      rfl
    · intro x
      simp [CpuToken.covers]
  | range a b =>
    obtain ⟨hwa, hwb⟩ := hw
    obtain ⟨hfa, hfb, hfe⟩ := hf
    obtain ⟨_, hdash, _⟩ := is_number_facts a hwa
    have hmem : '-' ∈ a ++ '-' :: b := by simp
    have hr : ∃ vs, int_range (digits_value a : Int) (digits_value b : Int) = some vs := by
      unfold int_range
      by_cases hle : (digits_value a : Int) ≤ (digits_value b : Int)
      · rw [if_pos hle, if_neg (ne_of_lt (hfe (by exact_mod_cast hle)))]
        exact ⟨_, rfl⟩
      · rw [if_neg hle]
        exact ⟨_, rfl⟩
    obtain ⟨vs, hvs⟩ := hr
    refine ⟨vs, ?_, ?_⟩
    · unfold parse_token CpuToken.text
      rw [if_pos hmem, takeWhile_ne_dash a b hdash, dropWhile_ne_dash a b hdash]
      simp only [List.drop_succ_cons, List.drop_zero, stoi_number a hwa hfa,
        stoi_number b hwb hfb, Option.bind_eq_bind, Option.some_bind]
      exact hvs
    · intro x
      exact mem_int_range _ _ x vs hvs

/-- The loop over the tokens started with `cpus = acc`. -/
theorem token_loop_eq (ts : List (List Char)) (acc : List Int) :
    ts.foldlM (fun cpus token => do
      let values ← parse_token token
      pure (cpus ++ values)) acc
      = (map_option parse_token ts).map (fun vss => acc ++ vss.flatten) := by
  induction ts generalizing acc with
  | nil => simp [map_option]
  | cons t rest ih =>
    simp only [List.foldlM_cons, map_option, Option.bind_eq_bind]
    cases parse_token t with
    | none => rfl
    | some vs =>
      simp only [Option.some_bind]
      have h := ih (acc ++ vs)
      simp only [Option.bind_eq_bind] at h
      show List.foldlM _ (acc ++ vs) rest = _
      rw [h]
      cases map_option parse_token rest with
      | none => rfl
      | some vss => simp

theorem map_option_tokens (toks : List CpuToken)
    (h : ∀ t ∈ toks, t.well_formed ∧ t.fits_int) :
    ∃ vss, map_option parse_token (toks.map CpuToken.text) = some vss ∧
      ∀ x, x ∈ vss.flatten ↔ ∃ t ∈ toks, t.covers x := by
  induction toks with
  | nil => exact ⟨[], rfl, by simp⟩
  | cons t rest ih =>
    obtain ⟨hw, hf⟩ := h t (List.mem_cons_self _ _)
    obtain ⟨vs, hvs, hcov⟩ := parse_token_well_formed t hw hf
    obtain ⟨vss, hvss, hall⟩ := ih (fun u hu => h u (List.mem_cons_of_mem _ hu))
    refine ⟨vs :: vss, ?_, ?_⟩
    · simp only [List.map_cons, map_option, hvs, hvss, Option.some_bind, Option.map_some']
    · intro x
      rw [List.flatten_cons, List.mem_append, hcov x, hall x]
      simp only [List.mem_cons, exists_eq_or_imp]

/-- Sorting integers with `<` gives an ascending list. -/
theorem std_sort_int_sorted (l : List Int) :
    (std_sort (fun a b : Int => a < b) l).Sorted (fun a b => a ≤ b) := by
  haveI : IsTotal Int (fun a b => ¬ b < a) := ⟨fun a b => by
    rcases le_total a b with h | h
    · exact Or.inl (not_lt.2 h)
    · exact Or.inr (not_lt.2 h)⟩
  haveI : IsTrans Int (fun a b => ¬ b < a) := ⟨fun a b c h1 h2 =>
    not_lt.2 (le_trans (not_lt.1 h1) (not_lt.1 h2))⟩
  have h := List.sorted_insertionSort (fun a b : Int => ¬ b < a) l
  exact List.Pairwise.imp (fun hab => not_lt.1 hab) h

theorem mem_std_unique (l : List Int) (x : Int) : x ∈ std_unique l ↔ x ∈ l := by
  induction l with
  | nil => simp [std_unique]
  | cons a t ih =>
    cases t with
    | nil => simp [std_unique]
    | cons b rest =>
      rw [std_unique]
      by_cases hab : a = b
      · rw [if_pos hab, ih]
        subst hab
        simp
      · rw [if_neg hab, List.mem_cons, ih]
        simp only [List.mem_cons]

/-- Removing equal neighbours from an ascending list gives a strictly increasing one. -/
theorem std_unique_sorted (l : List Int) (h : l.Sorted (fun a b => a ≤ b)) :
    (std_unique l).Sorted (fun a b => a < b) := by
  induction l with
  | nil => simp [std_unique]
  | cons a t ih =>
    cases t with
    | nil => simp [std_unique]
    | cons b rest =>
      have ht : (b :: rest).Sorted (fun a b => a ≤ b) := (List.sorted_cons.1 h).2
      have hall : ∀ y ∈ b :: rest, a ≤ y := (List.sorted_cons.1 h).1
      rw [std_unique]
      by_cases hab : a = b
      · rw [if_pos hab]
        exact ih ht
      · rw [if_neg hab]
        refine List.sorted_cons.2 ⟨?_, ih ht⟩
        intro y hy
        rw [mem_std_unique] at hy
        have hby : b ≤ y := by
          rcases List.mem_cons.1 hy with h0 | h0
          · rw [h0]
          · exact (List.sorted_cons.1 ht).1 y h0
        have hab2 : a ≤ b := hall b (List.mem_cons_self _ _)
        omega

/-- `parse_cpu_list` on the string of well-formed tokens whose numbers fit `int`. -/
theorem parse_cpu_list_tokens (toks : List CpuToken)
    (h : ∀ t ∈ toks, t.well_formed ∧ t.fits_int) :
    ∃ cpus, parse_cpu_list (cpu_list_string toks) = some cpus ∧
      cpus.Sorted (fun a b => a < b) ∧ ∀ x, x ∈ cpus ↔ ∃ t ∈ toks, t.covers x := by
  have htok : getline_tokens [] (join_tokens (toks.map CpuToken.text))
      = toks.map CpuToken.text := by
    apply getline_tokens_join
    intro x hx
    obtain ⟨t, ht, rfl⟩ := List.mem_map.1 hx
    obtain ⟨hw, _⟩ := h t ht
    cases t with
    | single ds =>
      obtain ⟨h1, _, h3⟩ := is_number_facts ds hw
      exact ⟨h1, h3⟩
    | range a b =>
      obtain ⟨h1, _, _⟩ := is_number_facts a hw.1
      obtain ⟨h2, _, _⟩ := is_number_facts b hw.2
      refine ⟨?_, by simp [CpuToken.text]⟩
      intro h0
      simp only [CpuToken.text, List.mem_append, List.mem_cons] at h0
      rcases h0 with h0 | h0 | h0
      · exact h1 h0
      · exact absurd h0 (by decide)
      · exact h2 h0
  obtain ⟨vss, hvss, hall⟩ := map_option_tokens toks h
  refine ⟨std_unique (std_sort (fun a b : Int => a < b) vss.flatten), ?_, ?_, ?_⟩
  · unfold parse_cpu_list cpu_list_string
    rw [htok, token_loop_eq, hvss]
    rfl
  · exact std_unique_sorted _ (std_sort_int_sorted _)
  · intro x
    rw [mem_std_unique, (std_sort_perm _ _).mem_iff, hall x]

/-- A range token whose end lies below its start yields no value and no error. -/
theorem parse_token_reversed (token : List Char) (start end_ : Int) (hdash : '-' ∈ token)
    (hs : stoi (token.takeWhile (fun c => c ≠ '-')) = some start)
    (he : stoi ((token.dropWhile (fun c => c ≠ '-')).drop 1) = some end_)
    (hlt : end_ < start) : parse_token token = some [] := by
  unfold parse_token
  rw [if_pos hdash, hs, he]
  simp only [Option.bind_eq_bind, Option.some_bind]
  unfold int_range
  rw [if_neg (not_le.2 hlt)]

/-- `parse_cpu_list` on the comma-joined string of given tokens. -/
theorem parse_cpu_list_join (ts : List (List Char)) (h : ∀ t ∈ ts, ',' ∉ t ∧ t ≠ []) :
    parse_cpu_list (String.mk (join_tokens ts))
      = (map_option parse_token ts).map
          (fun vss => std_unique (std_sort (fun a b : Int => a < b) vss.flatten)) := by
  unfold parse_cpu_list
  rw [getline_tokens_join ts h, token_loop_eq]
  cases map_option parse_token ts <;> rfl

/-- Dropping a token that yields no value does not change the parse. -/
theorem map_option_drop_empty (pre post : List (List Char)) (token : List Char)
    (h : parse_token token = some []) :
    (map_option parse_token (pre ++ token :: post)).map List.flatten
      = (map_option parse_token (pre ++ post)).map List.flatten := by
  rw [map_option_append, map_option_append]
  simp only [map_option, h, Option.some_bind]
  cases map_option parse_token pre with
  | none => rfl
  | some a =>
    cases map_option parse_token post with
    | none => rfl
    | some b => simp

end SystemLemmas

/-! ## The normal distribution function and the Black-Scholes call price over the reals -/

section BlackScholesLemmas

open MeasureTheory Set

theorem gauss_integrable : Integrable (fun t : ℝ => Real.exp (-t ^ 2)) := by
  have h := integrable_exp_neg_mul_sq (one_pos : (0 : ℝ) < 1)
  simpa using h

theorem gauss_support : Function.support (fun t : ℝ => Real.exp (-t ^ 2)) = univ := by
  ext t
  simp [Real.exp_ne_zero]

theorem gauss_tail_pos (y : ℝ) : 0 < ∫ t in Ioi y, Real.exp (-t ^ 2) := by
  rw [setIntegral_pos_iff_support_of_nonneg_ae]
  · rw [gauss_support, univ_inter]
    simp
  · exact Filter.Eventually.of_forall (fun t => (Real.exp_pos _).le)
  · exact gauss_integrable.integrableOn

theorem gauss_head_pos (y : ℝ) : 0 < ∫ t in Iic y, Real.exp (-t ^ 2) := by
  rw [setIntegral_pos_iff_support_of_nonneg_ae]
  · rw [gauss_support, univ_inter]
    simp
  · exact Filter.Eventually.of_forall (fun t => (Real.exp_pos _).le)
  · exact gauss_integrable.integrableOn

theorem gauss_total : ∫ t : ℝ, Real.exp (-t ^ 2) = Real.sqrt Real.pi := by
  have h := integral_gaussian 1
  simpa using h

theorem gauss_tail_zero : ∫ t in Ioi (0 : ℝ), Real.exp (-t ^ 2) = Real.sqrt Real.pi / 2 := by
  have h := integral_gaussian_Ioi 1
  simpa using h

theorem gauss_tail_lt (y : ℝ) : ∫ t in Ioi y, Real.exp (-t ^ 2) < Real.sqrt Real.pi := by
  have h := integral_add_compl (measurableSet_Ioi : MeasurableSet (Ioi y)) gauss_integrable
  rw [compl_Ioi, gauss_total] at h
  have h2 := gauss_head_pos y
  linarith

theorem gauss_tail_shift (y b : ℝ) :
    ∫ t in Ioi (y + b), Real.exp (-t ^ 2) = ∫ s in Ioi y, Real.exp (-(s + b) ^ 2) := by
  rw [← integral_indicator measurableSet_Ioi, ← integral_indicator measurableSet_Ioi]
  rw [← integral_add_right_eq_self _ b]
  congr 1
  ext s
  simp only [indicator, mem_Ioi]
  by_cases h : y < s
  · rw [if_pos h, if_pos (by linarith)]
  · rw [if_neg h, if_neg (by linarith)]

/-- Strict tail inequality. -/
theorem gauss_tail_shift_lt (y b : ℝ) (hb : 0 < b) :
    ∫ t in Ioi (y + b), Real.exp (-t ^ 2)
      < Real.exp (-(2 * b * y) - b ^ 2) * ∫ t in Ioi y, Real.exp (-t ^ 2) := by
  rw [gauss_tail_shift, ← integral_mul_left, ← sub_pos]
  have hi1 : IntegrableOn (fun t : ℝ => Real.exp (-(2 * b * y) - b ^ 2) * Real.exp (-t ^ 2))
      (Ioi y) := (gauss_integrable.const_mul _).integrableOn
  have hi2 : IntegrableOn (fun s : ℝ => Real.exp (-(s + b) ^ 2)) (Ioi y) :=
    (gauss_integrable.comp_add_right b).integrableOn
  rw [← integral_sub hi1 hi2]
  have hpos : ∀ s, y < s →
      0 < Real.exp (-(2 * b * y) - b ^ 2) * Real.exp (-s ^ 2) - Real.exp (-(s + b) ^ 2) := by
    intro s hs
    rw [sub_pos, ← Real.exp_add, Real.exp_lt_exp]
    nlinarith
  rw [setIntegral_pos_iff_support_of_nonneg_ae]
  · have hsub : Ioi y ⊆ Function.support (fun s : ℝ =>
        Real.exp (-(2 * b * y) - b ^ 2) * Real.exp (-s ^ 2) - Real.exp (-(s + b) ^ 2)) ∩ Ioi y := by
      intro s hs
      exact ⟨(hpos s hs).ne', hs⟩
    refine lt_of_lt_of_le ?_ (measure_mono hsub)
    simp
  · exact (ae_restrict_iff' measurableSet_Ioi).2
      (Filter.Eventually.of_forall (fun s hs => (hpos s hs).le))
  · exact hi1.sub hi2

/-- The tail from a point left of zero. -/
theorem gauss_tail_neg (a : ℝ) (ha : 0 ≤ a) :
    ∫ t in Ioi (-a), Real.exp (-t ^ 2)
      = (∫ t in (-a)..0, Real.exp (-t ^ 2)) + Real.sqrt Real.pi / 2 := by
  have hle : -a ≤ 0 := by linarith
  have hu : Ioi (-a) = Ioc (-a) 0 ∪ Ioi 0 := (Ioc_union_Ioi_eq_Ioi hle).symm
  rw [hu, setIntegral_union (Ioc_disjoint_Ioi le_rfl) measurableSet_Ioi
    gauss_integrable.integrableOn gauss_integrable.integrableOn, gauss_tail_zero,
    intervalIntegral.integral_of_le hle]

theorem gauss_interval_le (a : ℝ) (ha : 0 ≤ a) :
    ∫ t in (-a)..0, Real.exp (-t ^ 2) ≤ a := by
  have hle : -a ≤ 0 := by linarith
  have h := @intervalIntegral.integral_mono_on (fun t : ℝ => Real.exp (-t ^ 2))
    (fun _ => (1 : ℝ)) (-a) 0 volume hle
    (gauss_integrable.intervalIntegrable) (intervalIntegrable_const)
    (fun t _ => by
      show Real.exp (-t ^ 2) ≤ 1
      rw [Real.exp_le_one_iff]
      nlinarith [sq_nonneg t])
  simpa using h

theorem gauss_interval_ge (a : ℝ) (ha : 0 ≤ a) :
    a - a ^ 3 / 3 ≤ ∫ t in (-a)..0, Real.exp (-t ^ 2) := by
  have hle : -a ≤ 0 := by linarith
  have hint : IntervalIntegrable (fun t : ℝ => 1 - t ^ 2) volume (-a) 0 :=
    (Continuous.intervalIntegrable (by continuity) _ _)
  have h := @intervalIntegral.integral_mono_on (fun t : ℝ => 1 - t ^ 2)
    (fun t : ℝ => Real.exp (-t ^ 2)) (-a) 0 volume hle
    hint (gauss_integrable.intervalIntegrable)
    (fun t _ => by
      show 1 - t ^ 2 ≤ Real.exp (-t ^ 2)
      have := Real.add_one_le_exp (-t ^ 2)
      linarith)
  have hval : ∫ t in (-a)..0, (1 - t ^ 2) = a - a ^ 3 / 3 := by
    rw [intervalIntegral.integral_sub intervalIntegrable_const
      (Continuous.intervalIntegrable (by continuity) _ _)]
    simp only [intervalIntegral.integral_const, integral_pow]
    simp
    ring
  rw [← hval]
  exact h

theorem normal_cdf_exact (m : Libm ℝ) (hm : m.exact_real) (x : ℝ) :
    normal_cdf m x
      = (∫ t in Ioi (-(x / Real.sqrt 2)), Real.exp (-t ^ 2)) / Real.sqrt Real.pi := by
  obtain ⟨herfc, _, _, _, hc, _⟩ := hm
  unfold normal_cdf
  rw [herfc, hc]
  have h : -x * (1 / Real.sqrt 2) = -(x / Real.sqrt 2) := by ring
  rw [h]
  ring

theorem sqrt_pi_pos : 0 < Real.sqrt Real.pi := Real.sqrt_pos.2 Real.pi_pos

theorem normal_cdf_pos (m : Libm ℝ) (hm : m.exact_real) (x : ℝ) : 0 < normal_cdf m x := by
  rw [normal_cdf_exact m hm]
  exact div_pos (gauss_tail_pos _) sqrt_pi_pos

theorem normal_cdf_lt_one (m : Libm ℝ) (hm : m.exact_real) (x : ℝ) : normal_cdf m x < 1 := by
  rw [normal_cdf_exact m hm, div_lt_one sqrt_pi_pos]
  exact gauss_tail_lt _

theorem normal_cdf_shift_lt (m : Libm ℝ) (hm : m.exact_real) (x s : ℝ) (hs : 0 < s) :
    normal_cdf m (x - s) < Real.exp (s * x - s ^ 2 / 2) * normal_cdf m x := by
  rw [normal_cdf_exact m hm, normal_cdf_exact m hm]
  have h2 : 0 < Real.sqrt 2 := Real.sqrt_pos.2 (by norm_num)
  have h22 : Real.sqrt 2 * Real.sqrt 2 = 2 := Real.mul_self_sqrt (by norm_num)
  have hb : 0 < s / Real.sqrt 2 := div_pos hs h2
  have h := gauss_tail_shift_lt (-(x / Real.sqrt 2)) (s / Real.sqrt 2) hb
  have e1 : -(x / Real.sqrt 2) + s / Real.sqrt 2 = -((x - s) / Real.sqrt 2) := by ring
  have e2 : -(2 * (s / Real.sqrt 2) * -(x / Real.sqrt 2)) - (s / Real.sqrt 2) ^ 2
      = s * x - s ^ 2 / 2 := by
    have h5 : -(2 * (s / Real.sqrt 2) * -(x / Real.sqrt 2)) - (s / Real.sqrt 2) ^ 2
        = (2 * s * x - s ^ 2) / (Real.sqrt 2 * Real.sqrt 2) := by
      rw [eq_div_iff (mul_pos h2 h2).ne']
      have h6 : Real.sqrt 2 ≠ 0 := h2.ne'
      field_simp
    rw [h5, h22]
    ring
  rw [e1, e2] at h
  rw [← mul_div_assoc]
  exact div_lt_div_of_pos_right h sqrt_pi_pos

theorem black_scholes_call_eq (m : Libm ℝ) (hm : m.exact_real) (spot strike vol rate time : ℝ)
    (hK : 0 < strike) (hv : 0 < vol) (ht : 0 < time) :
    black_scholes_price m spot strike vol rate time true
      = spot * normal_cdf m ((Real.log (spot / strike) + (rate + 1 / 2 * vol * vol) * time)
            / (vol * Real.sqrt time))
          - strike * Real.exp (-rate * time)
            * normal_cdf m ((Real.log (spot / strike) + (rate + 1 / 2 * vol * vol) * time)
                / (vol * Real.sqrt time) - vol * Real.sqrt time) := by
  obtain ⟨_, hexp, hlog, hsqrt, _, _⟩ := hm
  have hd : vol * m.sqrt time ≠ 0 := by
    rw [hsqrt]
    exact (mul_pos hv (Real.sqrt_pos.2 ht)).ne'
  rw [black_scholes_price_closed_form m spot strike vol rate time true ht hv hK.ne' hd]
  simp only [if_true, hexp, hlog, hsqrt]

theorem exp_neg_bounds (x : ℝ) (hx : 0 ≤ x) :
    1 - x ≤ Real.exp (-x) ∧ Real.exp (-x) ≤ 1 / (1 + x) := by
  constructor
  · have := Real.add_one_le_exp (-x)
    linarith
  · rw [Real.exp_neg, ← one_div]
    exact one_div_le_one_div_of_le (by linarith) (by linarith [Real.add_one_le_exp x])

/-- Bounds on the normal distribution function right of zero. -/
theorem normal_cdf_bounds (m : Libm ℝ) (hm : m.exact_real) (x : ℝ) (hx : 0 ≤ x) :
    1 / 2 + (x - x ^ 3 / 6) / (Real.sqrt 2 * Real.sqrt Real.pi) ≤ normal_cdf m x ∧
    normal_cdf m x ≤ 1 / 2 + x / (Real.sqrt 2 * Real.sqrt Real.pi) := by
  have h2 : 0 < Real.sqrt 2 := Real.sqrt_pos.2 (by norm_num)
  have h22 : Real.sqrt 2 * Real.sqrt 2 = 2 := Real.mul_self_sqrt (by norm_num)
  have hp := sqrt_pi_pos
  have ha : 0 ≤ x / Real.sqrt 2 := div_nonneg hx h2.le
  rw [normal_cdf_exact m hm, gauss_tail_neg _ ha, add_div]
  have e1 : Real.sqrt Real.pi / 2 / Real.sqrt Real.pi = 1 / 2 := by
    rw [div_div, mul_comm, ← div_div, div_self hp.ne']
  have e2 : x / (Real.sqrt 2 * Real.sqrt Real.pi) = x / Real.sqrt 2 / Real.sqrt Real.pi := by
    rw [div_div]
  have e3 : (x - x ^ 3 / 6) / (Real.sqrt 2 * Real.sqrt Real.pi)
      = (x / Real.sqrt 2 - (x / Real.sqrt 2) ^ 3 / 3) / Real.sqrt Real.pi := by
    rw [← div_div]
    congr 1
    rw [div_pow]
    have h3 : Real.sqrt 2 ^ 3 = 2 * Real.sqrt 2 := by
      rw [pow_succ, pow_two, h22]
    rw [h3]
    field_simp
    ring
  rw [e1, e2, e3]
  constructor
  · have := div_le_div_of_nonneg_right (gauss_interval_ge _ ha) hp.le
    linarith
  · have := div_le_div_of_nonneg_right (gauss_interval_le _ ha) hp.le
    linarith

theorem inv_sqrt_two_pi_bounds :
    39 / 100 ≤ 1 / (Real.sqrt 2 * Real.sqrt Real.pi) ∧
    1 / (Real.sqrt 2 * Real.sqrt Real.pi) ≤ 2 / 5 := by
  have h2 : 0 < Real.sqrt 2 := Real.sqrt_pos.2 (by norm_num)
  have hp := sqrt_pi_pos
  have hpos : 0 < Real.sqrt 2 * Real.sqrt Real.pi := mul_pos h2 hp
  have hsq : (Real.sqrt 2 * Real.sqrt Real.pi) * (Real.sqrt 2 * Real.sqrt Real.pi)
      = 2 * Real.pi := by
    have h22 : Real.sqrt 2 * Real.sqrt 2 = 2 := Real.mul_self_sqrt (by norm_num)
    have hpp : Real.sqrt Real.pi * Real.sqrt Real.pi = Real.pi :=
      Real.mul_self_sqrt Real.pi_pos.le
    calc (Real.sqrt 2 * Real.sqrt Real.pi) * (Real.sqrt 2 * Real.sqrt Real.pi)
        = (Real.sqrt 2 * Real.sqrt 2) * (Real.sqrt Real.pi * Real.sqrt Real.pi) := by ring
      _ = 2 * Real.pi := by rw [h22, hpp]
  have hlo : 5 / 2 ≤ Real.sqrt 2 * Real.sqrt Real.pi := by
    by_contra hcon
    have hlt := not_le.1 hcon
    have := Real.pi_gt_d2
    nlinarith
  have hhi : Real.sqrt 2 * Real.sqrt Real.pi ≤ 100 / 39 := by
    by_contra hcon
    have hlt := not_le.1 hcon
    have := Real.pi_lt_d2
    nlinarith
  constructor
  · rw [le_div_iff₀ hpos]
    linarith
  · rw [div_le_iff₀ hpos]
    linarith

theorem black_scholes_call_bounds (m : Libm ℝ) (hm : m.exact_real)
    (spot strike vol rate time : ℝ)
    (hS : 0 < spot) (hK : 0 < strike) (hv : 0 < vol) (ht : 0 < time) :
    0 < black_scholes_price m spot strike vol rate time true ∧
      black_scholes_price m spot strike vol rate time true < spot := by
  rw [black_scholes_call_eq m hm spot strike vol rate time hK hv ht]
  refine ⟨?_, ?_⟩
  · have hs : 0 < vol * Real.sqrt time := mul_pos hv (Real.sqrt_pos.2 ht)
    have hlt := normal_cdf_shift_lt m hm
      ((Real.log (spot / strike) + (rate + 1 / 2 * vol * vol) * time) / (vol * Real.sqrt time))
      (vol * Real.sqrt time) hs
    have hexp : Real.exp (-rate * time) * Real.exp ((vol * Real.sqrt time)
        * ((Real.log (spot / strike) + (rate + 1 / 2 * vol * vol) * time)
          / (vol * Real.sqrt time)) - (vol * Real.sqrt time) ^ 2 / 2) = spot / strike := by
      rw [← Real.exp_add, mul_div_cancel₀ _ hs.ne', mul_pow, Real.sq_sqrt ht.le]
      have : -rate * time + (Real.log (spot / strike) + (rate + 1 / 2 * vol * vol) * time
          - vol ^ 2 * time / 2) = Real.log (spot / strike) := by ring
      rw [this, Real.exp_log (div_pos hS hK)]
    have hpos : 0 < strike * Real.exp (-rate * time) :=
      mul_pos hK (Real.exp_pos _)
    have h1 := mul_lt_mul_of_pos_left hlt hpos
    have h2 : strike * Real.exp (-rate * time) * (Real.exp ((vol * Real.sqrt time)
        * ((Real.log (spot / strike) + (rate + 1 / 2 * vol * vol) * time)
          / (vol * Real.sqrt time)) - (vol * Real.sqrt time) ^ 2 / 2)
        * normal_cdf m ((Real.log (spot / strike) + (rate + 1 / 2 * vol * vol) * time)
          / (vol * Real.sqrt time)))
        = spot * normal_cdf m ((Real.log (spot / strike) + (rate + 1 / 2 * vol * vol) * time)
          / (vol * Real.sqrt time)) := by
      rw [← mul_assoc, mul_assoc strike, hexp, mul_div_cancel₀ _ hK.ne']
    rw [h2] at h1
    linarith
  · have h1 := normal_cdf_lt_one m hm
      ((Real.log (spot / strike) + (rate + 1 / 2 * vol * vol) * time) / (vol * Real.sqrt time))
    have h2 := normal_cdf_pos m hm
      ((Real.log (spot / strike) + (rate + 1 / 2 * vol * vol) * time) / (vol * Real.sqrt time)
        - vol * Real.sqrt time)
    have h3 : 0 < strike * Real.exp (-rate * time) * normal_cdf m
        ((Real.log (spot / strike) + (rate + 1 / 2 * vol * vol) * time) / (vol * Real.sqrt time)
        - vol * Real.sqrt time) := mul_pos (mul_pos hK (Real.exp_pos _)) h2
    have h4 := mul_lt_mul_of_pos_left h1 hS
    linarith

theorem black_scholes_call_test_value (m : Libm ℝ) (hm : m.exact_real) :
    |black_scholes_price m 100 100 (1 / 5) (1 / 20) 1 true - 1045 / 100| ≤ 1 / 2 := by
  rw [black_scholes_call_eq m hm 100 100 (1 / 5) (1 / 20) 1
    (by norm_num) (by norm_num) (by norm_num)]
  have hd1 : (Real.log (100 / 100) + (1 / 20 + 1 / 2 * (1 / 5) * (1 / 5)) * 1)
      / (1 / 5 * Real.sqrt 1) = (7 / 20 : ℝ) := by
    rw [div_self (by norm_num : (100 : ℝ) ≠ 0), Real.log_one, Real.sqrt_one]
    norm_num
  have hd2 : (7 / 20 : ℝ) - 1 / 5 * Real.sqrt 1 = 3 / 20 := by
    rw [Real.sqrt_one]
    norm_num
  have he : (-(1 / 20) * 1 : ℝ) = -(1 / 20) := by norm_num
  rw [hd1, hd2, he]
  have a1 : 1 / 2 + (7 / 20 - (7 / 20) ^ 3 / 6) * (1 / (Real.sqrt 2 * Real.sqrt Real.pi))
      ≤ normal_cdf m (7 / 20) := by
    rw [mul_one_div]
    exact (normal_cdf_bounds m hm (7 / 20) (by norm_num)).1
  have a2 : normal_cdf m (7 / 20)
      ≤ 1 / 2 + 7 / 20 * (1 / (Real.sqrt 2 * Real.sqrt Real.pi)) := by
    rw [mul_one_div]
    exact (normal_cdf_bounds m hm (7 / 20) (by norm_num)).2
  have b1 : 1 / 2 + (3 / 20 - (3 / 20) ^ 3 / 6) * (1 / (Real.sqrt 2 * Real.sqrt Real.pi))
      ≤ normal_cdf m (3 / 20) := by
    rw [mul_one_div]
    exact (normal_cdf_bounds m hm (3 / 20) (by norm_num)).1
  have b2 : normal_cdf m (3 / 20)
      ≤ 1 / 2 + 3 / 20 * (1 / (Real.sqrt 2 * Real.sqrt Real.pi)) := by
    rw [mul_one_div]
    exact (normal_cdf_bounds m hm (3 / 20) (by norm_num)).2
  obtain ⟨q1, q2⟩ := exp_neg_bounds (1 / 20) (by norm_num)
  obtain ⟨u1, u2⟩ := inv_sqrt_two_pi_bounds
  generalize 1 / (Real.sqrt 2 * Real.sqrt Real.pi) = u at a1 a2 b1 b2 u1 u2
  generalize Real.exp (-(1 / 20)) = q at q1 q2
  generalize normal_cdf m (7 / 20) = A at a1 a2
  generalize normal_cdf m (3 / 20) = B at b1 b2
  norm_num at a1 a2 b1 b2 q1 q2
  have hq0 : 0 ≤ q := by linarith
  have hu0 : 0 ≤ u := by linarith
  rw [abs_le]
  constructor
  · nlinarith [mul_le_mul_of_nonneg_left b2 hq0, mul_nonneg hq0 hu0,
      mul_le_mul_of_nonneg_right q2 hu0]
  · nlinarith [mul_le_mul_of_nonneg_left b1 hq0, mul_nonneg hq0 hu0,
      mul_le_mul_of_nonneg_right q1 hu0]

/-- The tails right of `y` and right of `-y` make up the whole integral. -/
theorem gauss_tail_reflect (y : ℝ) :
    (∫ t in Ioi y, Real.exp (-t ^ 2)) + (∫ t in Ioi (-y), Real.exp (-t ^ 2))
      = Real.sqrt Real.pi := by
  have h1 : ∫ t in Ioi (-y), Real.exp (-t ^ 2) = ∫ t in Iic y, Real.exp (-t ^ 2) := by
    have h := integral_comp_neg_Ioi (-y) (fun t : ℝ => Real.exp (-t ^ 2))
    simp only [neg_neg, neg_sq] at h
    exact h
  have h2 := integral_add_compl (measurableSet_Ioi : MeasurableSet (Ioi y)) gauss_integrable
  rw [compl_Ioi, gauss_total] at h2
  rw [h1]
  exact h2

/-- Symmetry of the normal distribution function. -/
theorem normal_cdf_symm (m : Libm ℝ) (hm : m.exact_real) (x : ℝ) :
    normal_cdf m x + normal_cdf m (-x) = 1 := by
  rw [normal_cdf_exact m hm, normal_cdf_exact m hm, neg_div, neg_neg, ← add_div, add_comm,
    gauss_tail_reflect, div_self sqrt_pi_pos.ne']

theorem black_scholes_put_eq (m : Libm ℝ) (hm : m.exact_real) (spot strike vol rate time : ℝ)
    (hK : 0 < strike) (hv : 0 < vol) (ht : 0 < time) :
    black_scholes_price m spot strike vol rate time false
      = strike * Real.exp (-rate * time)
            * normal_cdf m (-((Real.log (spot / strike) + (rate + 1 / 2 * vol * vol) * time)
                / (vol * Real.sqrt time) - vol * Real.sqrt time))
          - spot * normal_cdf m (-((Real.log (spot / strike)
              + (rate + 1 / 2 * vol * vol) * time) / (vol * Real.sqrt time))) := by
  obtain ⟨_, hexp, hlog, hsqrt, _, _⟩ := hm
  have hd : vol * m.sqrt time ≠ 0 := by
    rw [hsqrt]
    exact (mul_pos hv (Real.sqrt_pos.2 ht)).ne'
  rw [black_scholes_price_closed_form m spot strike vol rate time false ht hv hK.ne' hd]
  simp only [Bool.false_eq_true, if_false, hexp, hlog, hsqrt]

/-- Call price minus put price. -/
theorem black_scholes_parity (m : Libm ℝ) (hm : m.exact_real) (spot strike vol rate time : ℝ)
    (hK : 0 < strike) (hv : 0 < vol) (ht : 0 < time) :
    black_scholes_price m spot strike vol rate time true
        - black_scholes_price m spot strike vol rate time false
      = spot - strike * Real.exp (-rate * time) := by
  rw [black_scholes_call_eq m hm spot strike vol rate time hK hv ht,
    black_scholes_put_eq m hm spot strike vol rate time hK hv ht]
  have h1 := normal_cdf_symm m hm
    ((Real.log (spot / strike) + (rate + 1 / 2 * vol * vol) * time) / (vol * Real.sqrt time))
  have h2 := normal_cdf_symm m hm
    ((Real.log (spot / strike) + (rate + 1 / 2 * vol * vol) * time) / (vol * Real.sqrt time)
      - vol * Real.sqrt time)
  generalize normal_cdf m ((Real.log (spot / strike) + (rate + 1 / 2 * vol * vol) * time)
    / (vol * Real.sqrt time)) = A at h1 ⊢
  generalize normal_cdf m (-((Real.log (spot / strike) + (rate + 1 / 2 * vol * vol) * time)
    / (vol * Real.sqrt time))) = A2 at h1 ⊢
  generalize normal_cdf m ((Real.log (spot / strike) + (rate + 1 / 2 * vol * vol) * time)
    / (vol * Real.sqrt time) - vol * Real.sqrt time) = B at h2 ⊢
  generalize normal_cdf m (-((Real.log (spot / strike) + (rate + 1 / 2 * vol * vol) * time)
    / (vol * Real.sqrt time) - vol * Real.sqrt time)) = B2 at h2 ⊢
  have hA : A2 = 1 - A := by linarith
  have hB : B2 = 1 - B := by linarith
  rw [hA, hB]
  ring

end BlackScholesLemmas

/-! # Verified claims -/

section Claims

variable {α : Type} [LinearOrderedField α]

/-- C1. Item partitioning: with `chunk = ceil(N / T)` and worker `t` owning
`[t * chunk, min(t * chunk + chunk, N))`, every index below `N` lies in the range of
exactly one worker `t < T`, and no range contains an index `≥ N`. -/
theorem item_partition_exact_cover (N T : Nat) (hT : 1 ≤ T) :
    (∀ i, i < N → ∃! t, t < T ∧ worker_start N T t ≤ i ∧ i < worker_end N T t) ∧
    (∀ t, t < T → ∀ i, worker_start N T t ≤ i → i < worker_end N T t → i < N) := by
  constructor
  · intro i hi
    have hc := chunk_size_pos N T hT (by omega)
    have hge := chunk_size_mul_ge N T hT
    refine ⟨i / chunk_size N T, ⟨?_, ?_, ?_⟩, ?_⟩
    · rw [Nat.div_lt_iff_lt_mul hc]
      exact Nat.lt_of_lt_of_le hi (by rw [Nat.mul_comm]; exact hge)
    · unfold worker_start; exact Nat.div_mul_le_self i _
    · unfold worker_end worker_start
      have := Nat.lt_div_mul_add (a := i) hc
      simp only [lt_min_iff]
      exact ⟨this, hi⟩
    · rintro t ⟨_, h1, h2⟩
      unfold worker_end worker_start at *
      simp only [lt_min_iff] at h2
      have h3 : i < (t + 1) * chunk_size N T := by rw [Nat.add_mul]; omega
      have h4 : i / chunk_size N T < t + 1 := (Nat.div_lt_iff_lt_mul hc).2 h3
      have h5 : t ≤ i / chunk_size N T := (Nat.le_div_iff_mul_le hc).2 h1
      omega
  · intro t _ i _ h2
    unfold worker_end at h2
    simp only [lt_min_iff] at h2
    exact h2.2

/-- C1 at ten items and three workers. -/
theorem item_partition_exact_cover_witness :
    1 ≤ 3 ∧
    ((∀ i, i < 10 → ∃! t, t < 3 ∧ worker_start 10 3 t ≤ i ∧ i < worker_end 10 3 t) ∧
     (∀ t, t < 3 → ∀ i, worker_start 10 3 t ≤ i → i < worker_end 10 3 t → i < 10)) :=
  ⟨by decide, item_partition_exact_cover 10 3 (by decide)⟩

/-- C3. For every position list and every `T ≥ 1`, both aggregations return a result, and
the multi-threaded one has the same key set, the same per-symbol quantity, notional and
position count, and the same four portfolio totals as the single-threaded one. -/
theorem multi_matches_single (positions : List (Position α)) (T : Nat) (hT : 1 ≤ T) :
    ∃ rs rm, aggregate_positions_single positions = some rs ∧
      aggregate_positions_multi positions T = some rm ∧
      (∀ s, s ∈ map_keys rm.by_symbol ↔ s ∈ map_keys rs.by_symbol) ∧
      (∀ s, (map_find rm.by_symbol s).map NetExposure.core
          = (map_find rs.by_symbol s).map NetExposure.core) ∧
      rm.total_long_exposure = rs.total_long_exposure ∧
      rm.total_short_exposure = rs.total_short_exposure ∧
      rm.net_exposure = rs.net_exposure ∧
      rm.total_positions = rs.total_positions := by
  refine ⟨single_total positions, multi_total positions T,
    aggregate_positions_single_eq positions, aggregate_positions_multi_eq positions T hT,
    ?_, ?_, ?_, ?_, ?_, ?_⟩
  · intro s
    rw [(multi_total_facts positions T hT s).2.2.2.1, (single_total_facts positions s).2.2.2.1]
  · intro s
    obtain ⟨a1, a2, a3, a4, _⟩ := multi_total_facts positions T hT s
    obtain ⟨b1, b2, b3, b4, _⟩ := single_total_facts positions s
    rw [map_find_eq_entry, map_find_eq_entry]
    simp only [a4, b4, NetExposure.core, a1, a2, a3, b1, b2, b3]
  · obtain ⟨_, _, _, _, _, a, _⟩ := multi_total_facts positions T hT ""
    obtain ⟨_, _, _, _, _, b, _⟩ := single_total_facts positions ""
    rw [a, b]
  · obtain ⟨_, _, _, _, _, _, a, _⟩ := multi_total_facts positions T hT ""
    obtain ⟨_, _, _, _, _, _, b, _⟩ := single_total_facts positions ""
    rw [a, b]
  · obtain ⟨_, _, _, _, _, _, _, a, _⟩ := multi_total_facts positions T hT ""
    obtain ⟨_, _, _, _, _, _, _, b, _⟩ := single_total_facts positions ""
    rw [a, b]
  · obtain ⟨_, _, _, _, _, _, _, _, a, _⟩ := multi_total_facts positions T hT ""
    obtain ⟨_, _, _, _, _, _, _, _, b, _⟩ := single_total_facts positions ""
    rw [a, b]

/-- C3 at five positions of three symbols and two workers. -/
theorem multi_matches_single_witness :
    1 ≤ 2 ∧
    ∃ rs rm, aggregate_positions_single mixed_positions = some rs ∧
      aggregate_positions_multi mixed_positions 2 = some rm ∧
      (∀ s, s ∈ map_keys rm.by_symbol ↔ s ∈ map_keys rs.by_symbol) ∧
      (∀ s, (map_find rm.by_symbol s).map NetExposure.core
          = (map_find rs.by_symbol s).map NetExposure.core) ∧
      rm.total_long_exposure = rs.total_long_exposure ∧
      rm.total_short_exposure = rs.total_short_exposure ∧
      rm.net_exposure = rs.net_exposure ∧
      rm.total_positions = rs.total_positions :=
  ⟨by decide, multi_matches_single mixed_positions 2 (by decide)⟩

/-- C4 fails at two positions of one symbol that cancel (100 and -100 at 150): the
single-threaded result keeps the average price 150 of the first fold step, the
multi-threaded result leaves the value-initialised 0. -/
theorem avg_price_differs_when_flat :
    aggregate_positions_single flat_positions
      = some ⟨[("AAPL", ⟨0, 0, 150, 2⟩)], 15000, 15000, 0, 2⟩ ∧
    aggregate_positions_multi flat_positions 2
      = some ⟨[("AAPL", ⟨0, 0, 0, 2⟩)], 15000, 15000, 0, 2⟩ ∧
    ¬ (∀ rs rm, aggregate_positions_single flat_positions = some rs →
        aggregate_positions_multi flat_positions 2 = some rm →
        ∀ s, (map_find rm.by_symbol s).map (fun e => e.avg_price)
          = (map_find rs.by_symbol s).map (fun e => e.avg_price)) := by
  have h1 : aggregate_positions_single flat_positions
      = some ⟨[("AAPL", ⟨0, 0, 150, 2⟩)], 15000, 15000, 0, 2⟩ := by
    simp [aggregate_positions_single, flat_positions, stock_position, single_step,
      map_updateM, set_avg_price, fold_position, checked_div, add_exposure,
      AggregationResult.init, NetExposure.zero]
    norm_num
  have h2 : aggregate_positions_multi flat_positions 2
      = some ⟨[("AAPL", ⟨0, 0, 0, 2⟩)], 15000, 15000, 0, 2⟩ := by
    norm_num [aggregate_positions_multi, flat_positions, stock_position, map_update,
      fold_position, add_exposure, aggregate_worker, worker_step, merge_partial_result,
      worker_start, worker_end, chunk_size, AggregationResult.init, NetExposure.zero,
      List.range, List.range.loop, merge_entry, recompute_avg_prices, set_avg_price]
  refine ⟨h1, h2, ?_⟩
  intro h
  have h3 := h _ _ h1 h2 "AAPL"
  simp [map_find] at h3

/-- C4 as amended. Over exact arithmetic, for every position list and every `T ≥ 1`, both
aggregations return a result and the two results have the same symbols (each symbol of one
is a symbol of the other); a symbol has the same net quantity in both, a symbol whose net
quantity is not zero has the same `avg_price` in both, and a symbol whose net quantity is
exactly zero has `avg_price = 0` in the multi-threaded result. -/
theorem multi_avg_price_matches_when_nonzero (positions : List (Position α)) (T : Nat)
    (hT : 1 ≤ T) :
    ∃ rs rm, aggregate_positions_single positions = some rs ∧
      aggregate_positions_multi positions T = some rm ∧
      (∀ s, s ∈ map_keys rm.by_symbol ↔ s ∈ map_keys rs.by_symbol) ∧
      (∀ s, (∃ em, map_find rm.by_symbol s = some em) ↔
        (∃ es, map_find rs.by_symbol s = some es)) ∧
      ∀ s es, map_find rs.by_symbol s = some es →
        ∃ em, map_find rm.by_symbol s = some em ∧ em.quantity = es.quantity ∧
          (es.quantity ≠ 0 → em.avg_price = es.avg_price) ∧
          (es.quantity = 0 → em.avg_price = 0) := by
  have hkeys : ∀ s, s ∈ map_keys (multi_total positions T).by_symbol ↔
      s ∈ map_keys (single_total positions).by_symbol := by
    intro s
    rw [(multi_total_facts positions T hT s).2.2.2.1, (single_total_facts positions s).2.2.2.1]
  refine ⟨single_total positions, multi_total positions T,
    aggregate_positions_single_eq positions, aggregate_positions_multi_eq positions T hT,
    hkeys, ?_, ?_⟩
  · intro s
    rw [map_find_isSome_iff, map_find_isSome_iff]
    exact hkeys s
  intro s es hes
  obtain ⟨a1, a2, _, a4, _, _, _, _, _, a10⟩ := multi_total_facts positions T hT s
  obtain ⟨b1, b2, _, b4, _, _, _, _, _, b10⟩ := single_total_facts positions s
  have hmem : s ∈ map_keys (multi_total positions T).by_symbol :=
    a4.2 (b4.1 ((map_find_isSome_iff _ s).1 ⟨es, hes⟩))
  obtain ⟨em, hem⟩ := (map_find_isSome_iff _ s).2 hmem
  have e1 := map_find_eq_some_entry _ s es hes
  have e2 := map_find_eq_some_entry _ s em hem
  rw [e1] at b1 b2
  rw [e2] at a1 a2 a10
  refine ⟨em, hem, by rw [a1, b1], ?_, ?_⟩
  · intro hq
    rw [b10 s es hes hq, a10, b1, b2]
    rw [b1] at hq
    simp [hq]
  · intro hq
    rw [b1] at hq
    rw [a10]
    simp [hq]

/-- C4 as amended, at five positions of three symbols and two workers. -/
theorem multi_avg_price_matches_when_nonzero_witness :
    1 ≤ 2 ∧
    ∃ rs rm, aggregate_positions_single mixed_positions = some rs ∧
      aggregate_positions_multi mixed_positions 2 = some rm ∧
      (∀ s, s ∈ map_keys rm.by_symbol ↔ s ∈ map_keys rs.by_symbol) ∧
      (∀ s, (∃ em, map_find rm.by_symbol s = some em) ↔
        (∃ es, map_find rs.by_symbol s = some es)) ∧
      ∀ s es, map_find rs.by_symbol s = some es →
        ∃ em, map_find rm.by_symbol s = some em ∧ em.quantity = es.quantity ∧
          (es.quantity ≠ 0 → em.avg_price = es.avg_price) ∧
          (es.quantity = 0 → em.avg_price = 0) :=
  ⟨by decide, multi_avg_price_matches_when_nonzero mixed_positions 2 (by decide)⟩

/-- C6. For every position list, `aggregate_positions_single` returns a result whose
`by_symbol` keys are exactly the symbols occurring in the list (each once), and the entry
of a symbol `s` has `quantity` the sum of the quantities, `notional` the sum of
`quantity * price` and `position_count` the number of the positions of `s`; the two
offsetting positions of the test give quantity 50 and notional 7500. -/
theorem single_by_symbol_sums (positions : List (Position α)) :
    (∃ r, aggregate_positions_single positions = some r ∧
      (∀ s, s ∈ map_keys r.by_symbol ↔ ∃ p ∈ positions, p.symbol = s) ∧
      (map_keys r.by_symbol).Nodup ∧
      (∀ s e, map_find r.by_symbol s = some e →
        e.quantity
          = ((positions.filter (fun p => p.symbol = s)).map (fun p => p.quantity)).sum ∧
        e.notional
          = ((positions.filter (fun p => p.symbol = s)).map
              (fun p => p.quantity * p.price)).sum ∧
        e.position_count = ((positions.filter (fun p => p.symbol = s)).length : Int))) ∧
    (∃ r e, aggregate_positions_single offsetting_positions = some r ∧
      map_keys r.by_symbol = ["AAPL"] ∧ map_find r.by_symbol "AAPL" = some e ∧
      e.quantity = 50 ∧ e.notional = 7500 ∧ e.position_count = 2) := by
  constructor
  · refine ⟨single_total positions, aggregate_positions_single_eq positions, ?_, ?_, ?_⟩
    · intro s
      rw [(single_total_facts positions s).2.2.2.1]
      simp
    · exact (single_total_facts positions "").2.2.2.2.1
    · intro s e he
      obtain ⟨b1, b2, b3, _⟩ := single_total_facts positions s
      rw [map_find_eq_some_entry _ s e he] at b1 b2 b3
      exact ⟨b1, b2, b3⟩
  · refine ⟨⟨[("AAPL", ⟨50, 7500, 150, 2⟩)], 15000, 7500, 7500, 2⟩, ⟨50, 7500, 150, 2⟩,
      ?_, rfl, ?_, rfl, rfl, rfl⟩
    · simp [aggregate_positions_single, offsetting_positions, stock_position, single_step,
        map_updateM, set_avg_price, fold_position, checked_div, add_exposure,
        AggregationResult.init, NetExposure.zero]
      norm_num
    · simp [map_find]

/-- C7. For every position list, `aggregate_positions_single` returns `net_exposure` the
sum of all notionals, `total_long_exposure` the sum of the notionals `> 0`,
`total_short_exposure` the sum of `|notional|` over the notionals `≤ 0`, and
`total_positions` the number of positions; one position of 100 at 150 gives 15000,
15000, 0 and 1. -/
theorem single_totals (positions : List (Position α)) :
    (∃ r, aggregate_positions_single positions = some r ∧
      r.net_exposure = (positions.map (fun p => p.quantity * p.price)).sum ∧
      r.total_long_exposure
        = ((positions.map (fun p => p.quantity * p.price)).filter (fun x => x > 0)).sum ∧
      r.total_short_exposure
        = (((positions.map (fun p => p.quantity * p.price)).filter (fun x => x ≤ 0)).map
            (fun x => |x|)).sum ∧
      r.total_positions = (positions.length : Int)) ∧
    (∃ r, aggregate_positions_single [stock_position "AAPL" 100 150] = some r ∧
      r.net_exposure = 15000 ∧ r.total_long_exposure = 15000 ∧
      r.total_short_exposure = 0 ∧ r.total_positions = 1 ∧
      r.by_symbol = [("AAPL", ⟨100, 15000, 150, 1⟩)]) := by
  constructor
  · obtain ⟨_, _, _, _, _, t1, t2, t3, t4, _⟩ := single_total_facts positions ""
    exact ⟨single_total positions, aggregate_positions_single_eq positions, t3, t1, t2, t4⟩
  · refine ⟨⟨[("AAPL", ⟨100, 15000, 150, 1⟩)], 15000, 0, 15000, 1⟩, ?_, rfl, rfl, rfl, rfl,
      rfl⟩
    simp [aggregate_positions_single, stock_position, single_step,
      map_updateM, set_avg_price, fold_position, checked_div, add_exposure,
      AggregationResult.init, NetExposure.zero]
    norm_num

/-- C2. Simulation-count partitioning: for every `n` and `T ≥ 1`, worker `t` is assigned
`n / T + (1 if t < n % T else 0)` trials and returns that many samples, the assignments
of the workers `0 .. T-1` add up to `n`, and `run_monte_carlo_multi` is `calculate_var`
of a vector of exactly `n` samples. -/
theorem monte_carlo_trial_partition (m : Libm α) (g : Rng α)
    (positions : List (Position α)) (n : Nat) (time_horizon : α) (T : Nat) (seed : Nat)
    (hT : 1 ≤ T) :
    (∀ t, sims_for_thread n T t = n / T + (if t < n % T then 1 else 0)) ∧
    ((List.range T).map (sims_for_thread n T)).sum = n ∧
    (monte_carlo_thread_results m g positions n time_horizon T seed).map List.length
      = (List.range T).map (sims_for_thread n T) ∧
    (monte_carlo_all_pnl m g positions n time_horizon T seed).length = n ∧
    run_monte_carlo_multi m g positions n time_horizon T seed
      = calculate_var m (monte_carlo_all_pnl m g positions n time_horizon T seed) := by
  have h3 : (monte_carlo_thread_results m g positions n time_horizon T seed).map List.length
      = (List.range T).map (sims_for_thread n T) := by
    unfold monte_carlo_thread_results
    rw [List.map_map]
    apply List.map_congr_left
    intro t _
    exact simulate_portfolio_pnl_length m g positions _ time_horizon _
  refine ⟨fun _ => rfl, sims_for_thread_sum n T hT, h3, ?_, ?_⟩
  · unfold monte_carlo_all_pnl
    rw [List.length_flatten, h3]
    exact sims_for_thread_sum n T hT
  · unfold run_monte_carlo_multi
    rw [if_neg (by omega)]

/-- C2 at ten trials, four workers and five positions. -/
theorem monte_carlo_trial_partition_witness :
    1 ≤ 4 ∧
    ((∀ t, sims_for_thread 10 4 t = 10 / 4 + (if t < 10 % 4 then 1 else 0)) ∧
    ((List.range 4).map (sims_for_thread 10 4)).sum = 10 ∧
    (monte_carlo_thread_results sample_libm sample_rng mixed_positions 10 (1 / 252) 4
        42).map List.length
      = (List.range 4).map (sims_for_thread 10 4) ∧
    (monte_carlo_all_pnl sample_libm sample_rng mixed_positions 10 (1 / 252) 4 42).length
      = 10 ∧
    run_monte_carlo_multi sample_libm sample_rng mixed_positions 10 (1 / 252) 4 42
      = calculate_var sample_libm
          (monte_carlo_all_pnl sample_libm sample_rng mixed_positions 10 (1 / 252) 4 42)) :=
  ⟨by decide,
    monte_carlo_trial_partition sample_libm sample_rng mixed_positions 10 (1 / 252) 4 42
      (by decide)⟩

/-- C9. For every result and every `k`, `get_top_exposures` returns
`min k (number of symbols)` entries, hence at most `k`, each entry has `|notional|` at
least that of every later entry, and in particular of the next one. -/
theorem top_exposures_bounded_and_sorted (result : AggregationResult α) (k : Nat) :
    (get_top_exposures result k).length = min k result.by_symbol.length ∧
    (get_top_exposures result k).length ≤ k ∧
    (get_top_exposures result k).Chain' (fun a b => |a.2.notional| ≥ |b.2.notional|) ∧
    (get_top_exposures result k).Pairwise (fun a b => |a.2.notional| ≥ |b.2.notional|) := by
  have hlen := std_sort_length exposure_comp result.by_symbol
  have hs := std_sort_exposure_sorted result.by_symbol
  have hl : (get_top_exposures result k).length = min k result.by_symbol.length := by
    unfold get_top_exposures
    simp only
    split
    · rename_i h
      rw [List.length_take, hlen]
    · rename_i h
      rw [hlen] at h ⊢
      omega
  have hp : (get_top_exposures result k).Pairwise
      (fun a b => |a.2.notional| ≥ |b.2.notional|) := by
    unfold get_top_exposures
    simp only
    split
    · exact List.Pairwise.sublist (List.take_sublist _ _) hs
    · exact hs
  refine ⟨hl, ?_, ?_, hp⟩
  · rw [hl]; exact Nat.min_le_left _ _
  · exact List.Pairwise.chain' hp

/-- C10. For every non-empty sample vector of length `n`, `calculate_var` returns a result
with `var_95 = -sorted[floor(0.05 n)]`, `var_99 = -sorted[floor(0.01 n)]` and
`expected_shortfall = -(sum of sorted[0 .. floor(0.01 n)]) / (floor(0.01 n) + 1)`, where
`sorted` is the ascending sort of the samples. -/
theorem calculate_var_tail_statistics (m : Libm α) (pnl_values : List α)
    (h : pnl_values ≠ []) :
    ∃ r, calculate_var m pnl_values = some r ∧
      idx_95 pnl_values.length = ⌊(5 / 100 : ℚ) * (pnl_values.length : ℚ)⌋₊ ∧
      idx_99 pnl_values.length = ⌊(1 / 100 : ℚ) * (pnl_values.length : ℚ)⌋₊ ∧
      ∀ sorted : List α, sorted.Perm pnl_values → sorted.Sorted (fun a b => a ≤ b) →
        ∃ v95 v99, sorted[idx_95 pnl_values.length]? = some v95 ∧
          sorted[idx_99 pnl_values.length]? = some v99 ∧
          r.var_95 = -v95 ∧ r.var_99 = -v99 ∧
          r.expected_shortfall
            = -((sorted.take (idx_99 pnl_values.length + 1)).sum)
                / ((idx_99 pnl_values.length + 1 : Nat) : α) := by
  refine ⟨calculate_var_total m pnl_values, calculate_var_eq_total m pnl_values h,
    idx_95_eq_floor _, idx_99_eq_floor _, ?_⟩
  intro sorted hperm hsorted
  have hS : sorted = std_sort (fun a b : α => a < b) pnl_values :=
    List.eq_of_perm_of_sorted (hperm.trans (std_sort_perm _ pnl_values).symm) hsorted
      (std_sort_lt_sorted pnl_values)
  have hlen : sorted.length = pnl_values.length := hperm.length_eq
  obtain ⟨_, b95, b99⟩ := idx_bounds pnl_values.length (List.length_pos.2 h)
  rw [← hlen] at b95 b99
  refine ⟨sorted.getD (idx_95 pnl_values.length) 0, sorted.getD (idx_99 pnl_values.length) 0,
    ?_, ?_, ?_, ?_, ?_⟩
  · rw [List.getD_eq_getElem?_getD, ← hlen, List.getElem?_eq_getElem b95]
    rfl
  · rw [List.getD_eq_getElem?_getD, ← hlen, List.getElem?_eq_getElem b99]
    rfl
  · rw [hS]
    unfold calculate_var_total
    simp only [std_sort_length]
  · rw [hS]
    unfold calculate_var_total
    simp only [std_sort_length]
  · rw [hS]
    unfold calculate_var_total
    simp only [std_sort_length]

/-- C10 at the samples -500, ..., 499 of the test: `var_95 = 450`, `var_99 = 490` and
`expected_shortfall = 495`. -/
theorem calculate_var_tail_statistics_witness :
    test_samples ≠ [] ∧
    ∃ r, calculate_var sample_libm test_samples = some r ∧
      r.var_95 = 450 ∧ r.var_99 = 490 ∧ r.expected_shortfall = 495 := by
  have hne : test_samples ≠ [] := by
    intro h0
    have h1 := congrArg List.length h0
    simp [test_samples] at h1
  obtain ⟨r, hr, _, _, H⟩ := calculate_var_tail_statistics sample_libm test_samples hne
  obtain ⟨v95, v99, h95, h99, e95, e99, ees⟩ :=
    H test_samples (List.Perm.refl _) test_samples_sorted
  have hl : test_samples.length = 1000 := by simp [test_samples]
  rw [hl] at h95 h99 ees
  have i95 : idx_95 1000 = 50 := by decide
  have i99 : idx_99 1000 = 10 := by decide
  rw [i95] at h95
  rw [i99] at h99 ees
  have t11 : test_samples.take 11 = (List.range 11).map (fun (i : Nat) => (i : ℚ) - 500) := by
    unfold test_samples
    rw [← List.map_take, List.take_range]
    rfl
  rw [t11] at ees
  simp only [test_samples, List.getElem?_map, List.getElem?_range (show 50 < 1000 by decide),
    List.getElem?_range (show 10 < 1000 by decide), Option.map_some', Option.some.injEq]
    at h95 h99
  refine ⟨hne, r, hr, ?_, ?_, ?_⟩
  · rw [e95, ← h95]; norm_num
  · rw [e99, ← h99]; norm_num
  · rw [ees]
    norm_num [List.range_succ]

/-- C5. For every position list, bump size and `T ≥ 1`, `calculate_all_greeks_multi` returns
a list and it is the list `calculate_all_greeks_single` returns; this list has the length of
`positions` and its `i`-th element is `calculate_greeks(positions[i], bump)`, in input
order. -/
theorem greeks_multi_eq_single (m : Libm α) (positions : List (Position α)) (T : Nat)
    (bump_size : α) (hT : 1 ≤ T) :
    calculate_all_greeks_multi m positions T bump_size
      = some (calculate_all_greeks_single m positions bump_size) ∧
    (calculate_all_greeks_single m positions bump_size).length = positions.length ∧
    (∀ i : Nat, (calculate_all_greeks_single m positions bump_size)[i]?
      = (positions[i]?).map (fun pos => calculate_greeks m pos bump_size)) ∧
    calculate_all_greeks_single m positions bump_size
      = positions.map (fun pos => calculate_greeks m pos bump_size) := by
  rw [calculate_all_greeks_multi_eq m positions T bump_size hT,
    calculate_all_greeks_single_eq m positions bump_size]
  refine ⟨rfl, List.length_map _ _, ?_, rfl⟩
  intro i
  rw [List.getElem?_map]

/-- C5 at an equity, a call and a put, two workers and bump 0.01: three Greeks are returned,
the first one those of the equity. -/
theorem greeks_multi_eq_single_witness :
    1 ≤ 2 ∧ option_positions.length = 3 ∧
    (calculate_all_greeks_single sample_libm option_positions (1 / 100))[0]?
      = some ⟨150, 1, 0, 0, 0⟩ ∧
    (calculate_all_greeks_multi sample_libm option_positions 2 (1 / 100)
      = some (calculate_all_greeks_single sample_libm option_positions (1 / 100)) ∧
    (calculate_all_greeks_single sample_libm option_positions (1 / 100)).length
      = option_positions.length ∧
    (∀ i : Nat, (calculate_all_greeks_single sample_libm option_positions (1 / 100))[i]?
      = (option_positions[i]?).map (fun pos => calculate_greeks sample_libm pos (1 / 100))) ∧
    calculate_all_greeks_single sample_libm option_positions (1 / 100)
      = option_positions.map (fun pos => calculate_greeks sample_libm pos (1 / 100))) := by
  have h := greeks_multi_eq_single sample_libm option_positions 2 (1 / 100) (by decide)
  refine ⟨by decide, rfl, ?_, h⟩
  rw [h.2.2.1 0]
  rfl

/-- C11. For every non-empty sample vector, `calculate_var` returns a result with
`var_99 ≥ var_95`. -/
theorem var_99_ge_var_95 (m : Libm α) (pnl_values : List α) (h : pnl_values ≠ []) :
    ∃ r, calculate_var m pnl_values = some r ∧ r.var_99 ≥ r.var_95 :=
  ⟨calculate_var_total m pnl_values, calculate_var_eq_total m pnl_values h,
    var_99_ge_var_95_total m pnl_values h⟩

/-- C11 at the samples -500, ..., 499 of the test. -/
theorem var_99_ge_var_95_witness :
    test_samples ≠ [] ∧
    ∃ r, calculate_var sample_libm test_samples = some r ∧ r.var_99 ≥ r.var_95 :=
  ⟨test_samples_ne_nil, var_99_ge_var_95 sample_libm test_samples test_samples_ne_nil⟩

/-- C12 fails in binary64 at 200 samples equal to the double `-0.7`: `floor(0.01 * 200) = 2`,
so the loop adds three equal values; the rounded sum is `-2.0999999999999996` and its
rounded quotient by 3 gives `expected_shortfall = 0.69999999999999984`, which is below
`var_99 = 0.7` (the double nearest to 0.7). -/
theorem expected_shortfall_below_var_99_rounded :
    round_binary64 (-7 / 10) = -6305039478318694 / 9007199254740992 ∧
    rounding_samples ≠ [] ∧
    ∃ r, calculate_var_rounded round_binary64 sample_libm rounding_samples = some r ∧
      r.var_99 = 6305039478318694 / 9007199254740992 ∧
      r.expected_shortfall = 6305039478318693 / 9007199254740992 ∧
      ¬ (r.expected_shortfall ≥ r.var_99) := by
  have hne : rounding_samples ≠ [] := by
    unfold rounding_samples
    exact List.ne_nil_of_length_pos (by rw [List.length_replicate]; decide)
  have h0 : round_binary64 (-7 / 10) = -6305039478318694 / 9007199254740992 := by
    rw [round_binary64_eq _ (-1) (by norm_num [abs_of_neg]) (by norm_num [abs_of_neg])
      (by norm_num)]
    norm_num [round_half_even]
  have h1 : round_binary64 (0 + -6305039478318694 / 9007199254740992)
      = -6305039478318694 / 9007199254740992 := by
    rw [round_binary64_eq _ (-1) (by norm_num [abs_of_neg]) (by norm_num [abs_of_neg])
      (by norm_num)]
    norm_num [round_half_even]
  have h2 : round_binary64 (-6305039478318694 / 9007199254740992
      + -6305039478318694 / 9007199254740992) = -6305039478318694 / 4503599627370496 := by
    rw [round_binary64_eq _ 0 (by norm_num [abs_of_neg]) (by norm_num [abs_of_neg])
      (by norm_num)]
    norm_num [round_half_even]
  have h3 : round_binary64 (-6305039478318694 / 4503599627370496
      + -6305039478318694 / 9007199254740992) = -4728779608739020 / 2251799813685248 := by
    rw [round_binary64_eq _ 1 (by norm_num [abs_of_neg]) (by norm_num [abs_of_neg])
      (by norm_num)]
    norm_num [round_half_even]
  have h4 : round_binary64 (-(-4728779608739020 / 2251799813685248) / ((2 + 1 : Nat) : ℚ))
      = 6305039478318693 / 9007199254740992 := by
    rw [round_binary64_eq _ (-1) (by norm_num [abs_of_pos]) (by norm_num [abs_of_pos])
      (by norm_num)]
    norm_num [round_half_even]
  have hsort : std_sort (fun a b : ℚ => a < b) rounding_samples = rounding_samples := by
    apply std_sort_of_sorted
    unfold rounding_samples List.Sorted
    rw [List.pairwise_replicate]
    exact Or.inr le_rfl
  have hlen : rounding_samples.length = 200 := by
    unfold rounding_samples
    rw [List.length_replicate]
  have hidx : idx_99 200 = 2 := by decide
  obtain ⟨r, hr, _, h99, hes⟩ :=
    calculate_var_rounded_tail round_binary64 sample_libm rounding_samples hne
  rw [hsort, hlen, hidx] at h99 hes
  have hget : rounding_samples.getD 2 0 = -6305039478318694 / 9007199254740992 := by
    unfold rounding_samples
    rw [List.getD_eq_getElem?_getD, List.getElem?_replicate_of_lt (by decide)]
    rfl
  have htake : rounding_samples.take (2 + 1)
      = [-6305039478318694 / 9007199254740992, -6305039478318694 / 9007199254740992,
          -6305039478318694 / 9007199254740992] := by
    unfold rounding_samples
    rw [List.take_replicate]
    rfl
  rw [hget] at h99
  rw [htake] at hes
  unfold rounded_sum at hes
  simp only [List.foldl_cons, List.foldl_nil, h1, h2, h3, h4] at hes
  have e99 : r.var_99 = 6305039478318694 / 9007199254740992 := by
    rw [h99]
    norm_num
  refine ⟨h0, hne, r, hr, e99, hes, ?_⟩
  rw [e99, hes]
  norm_num

/-- C12 as amended. Over exact arithmetic, for every non-empty sample vector,
`calculate_var` returns a result with `expected_shortfall ≥ var_99`. -/
theorem expected_shortfall_ge_var_99 (m : Libm α) (pnl_values : List α)
    (h : pnl_values ≠ []) :
    ∃ r, calculate_var m pnl_values = some r ∧ r.expected_shortfall ≥ r.var_99 :=
  ⟨calculate_var_total m pnl_values, calculate_var_eq_total m pnl_values h,
    expected_shortfall_ge_var_99_total m pnl_values h⟩

/-- C12 as amended, at the samples -500, ..., 499 of the test. -/
theorem expected_shortfall_ge_var_99_witness :
    test_samples ≠ [] ∧
    ∃ r, calculate_var sample_libm test_samples = some r ∧
      r.expected_shortfall ≥ r.var_99 :=
  ⟨test_samples_ne_nil,
    expected_shortfall_ge_var_99 sample_libm test_samples test_samples_ne_nil⟩

/-- C13 fails at the twenty samples 1, 2, ..., 20: `floor(0.05 * 20) = 1` exceeds
`floor(0.01 * 20) = 0`, yet `var_95 = -2` is negative. -/
theorem var_95_negative_for_gains :
    idx_95 gain_samples.length > idx_99 gain_samples.length ∧
    ∃ r, calculate_var sample_libm gain_samples = some r ∧ r.var_95 = -2 ∧
      ¬ (r.var_95 ≥ 0) := by
  have hs : gain_samples.Sorted (fun a b => a ≤ b) := shifted_range_sorted 20 (-1)
  have hl : gain_samples.length = 20 := by simp [gain_samples]
  have hv : (calculate_var_total sample_libm gain_samples).var_95 = -2 := by
    rw [(calculate_var_total_fields sample_libm gain_samples).1, std_sort_of_sorted _ hs, hl]
    have i95 : idx_95 20 = 1 := by decide
    rw [i95]
    simp [gain_samples, List.getD_eq_getElem?_getD]
    norm_num
  refine ⟨by rw [hl]; decide, calculate_var_total sample_libm gain_samples,
    calculate_var_eq_total sample_libm gain_samples gain_samples_ne_nil, hv, ?_⟩
  rw [hv]
  norm_num

/-- C13 as amended. For every sample vector whose length `n` satisfies
`floor(0.05 n) > floor(0.01 n)`, `calculate_var` returns a result whose `var_95` is
non-negative exactly when more than `floor(0.05 n)` samples are at most zero; in that case
`var_99 ≥ var_95 ≥ 0`. -/
theorem var_95_nonneg_iff_enough_losses (m : Libm α) (pnl_values : List α)
    (h : idx_95 pnl_values.length > idx_99 pnl_values.length) :
    ∃ r, calculate_var m pnl_values = some r ∧
      (r.var_95 ≥ 0 ↔
        idx_95 pnl_values.length < (pnl_values.filter (fun x => x ≤ 0)).length) ∧
      (idx_95 pnl_values.length < (pnl_values.filter (fun x => x ≤ 0)).length →
        r.var_99 ≥ r.var_95 ∧ r.var_95 ≥ 0) := by
  have hne : pnl_values ≠ [] := by
    intro h0
    rw [h0] at h
    have h2 : idx_95 0 > idx_99 0 := h
    exact absurd h2 (by decide)
  refine ⟨calculate_var_total m pnl_values, calculate_var_eq_total m pnl_values hne,
    var_95_nonneg_iff m pnl_values hne, ?_⟩
  intro hc
  exact ⟨var_99_ge_var_95_total m pnl_values hne, (var_95_nonneg_iff m pnl_values hne).2 hc⟩

/-- C13 as amended, at the samples -500, ..., 499 of the test. -/
theorem var_95_nonneg_iff_enough_losses_witness :
    idx_95 test_samples.length > idx_99 test_samples.length ∧
    ∃ r, calculate_var sample_libm test_samples = some r ∧
      (r.var_95 ≥ 0 ↔
        idx_95 test_samples.length < (test_samples.filter (fun x => x ≤ 0)).length) ∧
      (idx_95 test_samples.length < (test_samples.filter (fun x => x ≤ 0)).length →
        r.var_99 ≥ r.var_95 ∧ r.var_95 ≥ 0) := by
  have hl : test_samples.length = 1000 := by simp [test_samples]
  have hi : idx_95 test_samples.length > idx_99 test_samples.length := by
    rw [hl]
    decide
  exact ⟨hi, var_95_nonneg_iff_enough_losses sample_libm test_samples hi⟩

/-- C14. On the empty vector `calculate_var` returns the all-zero result, whatever the
math library is; no element of the empty vector can be read and no quotient by its length
exists, so the early return is the only way to a result. -/
theorem calculate_var_empty (m : Libm α) :
    calculate_var m [] = some { var_95 := 0, var_99 := 0, expected_shortfall := 0,
                                mean_pnl := 0, std_pnl := 0 } ∧
    (∀ i : Nat, (std_sort (fun a b : α => a < b) [])[i]? = none) ∧
    (∀ x : α, checked_div x ((([] : List α).length : Nat) : α) = none) := by
  refine ⟨rfl, ?_, ?_⟩
  · intro i
    rfl
  · intro x
    simp [checked_div]

/-- C15. For every non-empty sample vector `x` of length `n`, `calculate_var` returns
`mean_pnl = (sum of x) / n` and `std_pnl = sqrt((sum of (x_i - mean_pnl)^2) / n)`: the
population mean and standard deviation of the whole input. -/
theorem calculate_var_moments (m : Libm α) (pnl_values : List α) (h : pnl_values ≠ []) :
    ∃ r, calculate_var m pnl_values = some r ∧
      r.mean_pnl = pnl_values.sum / (pnl_values.length : α) ∧
      r.std_pnl = m.sqrt ((pnl_values.map (fun x => (x - r.mean_pnl) ^ 2)).sum
        / (pnl_values.length : α)) := by
  obtain ⟨_, _, _, hm, hsd⟩ := calculate_var_total_fields m pnl_values
  refine ⟨calculate_var_total m pnl_values, calculate_var_eq_total m pnl_values h, hm, ?_⟩
  rw [hsd, hm]
  simp only [pow_two]

/-- C15 at the samples -500, ..., 499 of the test: the mean is -1/2, and the standard
deviation is the square root of the mean squared distance from -1/2. -/
theorem calculate_var_moments_witness :
    test_samples ≠ [] ∧
    ∃ r, calculate_var sample_libm test_samples = some r ∧ r.mean_pnl = -1 / 2 ∧
      r.std_pnl = sample_libm.sqrt
        ((test_samples.map (fun x => (x - (-1 / 2)) ^ 2)).sum / 1000) := by
  obtain ⟨r, hr, hm, hsd⟩ := calculate_var_moments sample_libm test_samples test_samples_ne_nil
  have hl : test_samples.length = 1000 := by simp [test_samples]
  have hsum : test_samples.sum = -500 := by
    unfold test_samples
    rw [shifted_range_sum]
    norm_num
  have hmean : r.mean_pnl = -1 / 2 := by
    rw [hm, hsum, hl]
    norm_num
  refine ⟨test_samples_ne_nil, r, hr, hmean, ?_⟩
  rw [hsd, hmean, hl]
  norm_num

/-- C16. `simulate_portfolio_pnl` returns exactly `n` samples, and sample `k < n` is the sum
over the positions `j` of
`quantity_j * price_j * (exp((r_j - vol_j^2 / 2) * h + vol_j * sqrt(h) * z[k * |P| + j]) - 1)`,
where `z` is the stream of draws of the generator for the seed: one draw per position,
trial-major then position-minor. -/
theorem simulate_portfolio_pnl_samples (m : Libm α) (g : Rng α)
    (positions : List (Position α)) (n : Nat) (time_horizon : α) (seed : Nat) :
    (simulate_portfolio_pnl m g positions n time_horizon seed).length = n ∧
    ∀ k, k < n →
      (simulate_portfolio_pnl m g positions n time_horizon seed)[k]?
        = some (List.zipWith (fun pos j =>
            pos.quantity * pos.price *
              (m.exp ((pos.risk_free_rate - pos.volatility ^ 2 / 2) * time_horizon
                + pos.volatility * m.sqrt time_horizon
                  * draw_stream g seed (k * positions.length + j)) - 1))
            positions (List.range positions.length)).sum := by
  refine ⟨simulate_portfolio_pnl_length m g positions n time_horizon seed, ?_⟩
  intro k hk
  rw [simulate_portfolio_pnl_getElem m g positions n time_horizon seed k hk]
  rfl

/-- C18. For every position of type STOCK and every bump size, `calculate_greeks` returns
`price` = the spot price, `delta = 1` and `gamma = vega = theta = 0`. -/
theorem stock_greeks (m : Libm α) (pos : Position α) (bump_size : α)
    (h : pos.type = PositionType.STOCK) :
    calculate_greeks m pos bump_size
      = { price := pos.price, delta := 1, gamma := 0, vega := 0, theta := 0 } := by
  unfold calculate_greeks
  rw [if_pos h]

/-- C18 at the equity of the test (100 shares at 150) and bump 0.01. -/
theorem stock_greeks_witness :
    (stock_position "AAPL" 100 150).type = PositionType.STOCK ∧
    calculate_greeks sample_libm (stock_position "AAPL" 100 150) (1 / 100)
      = { price := (stock_position "AAPL" 100 150).price, delta := 1, gamma := 0,
          vega := 0, theta := 0 } :=
  ⟨rfl, stock_greeks sample_libm (stock_position "AAPL" 100 150) (1 / 100) rfl⟩

/-- C19. For all spot, strike and rate and every `time ≤ 0` or `vol ≤ 0`,
`black_scholes_price` returns the intrinsic value, `max(spot - strike, 0)` for a call and
`max(strike - spot, 0)` for a put, which is non-negative; this holds for every such input,
also where the divisor `vol * sqrt(time)` of the closed form is zero and its quotient would
be the value of a division by zero. -/
theorem black_scholes_degenerate (m : Libm α) (spot strike vol rate time : α)
    (h : time ≤ 0 ∨ vol ≤ 0) :
    black_scholes_price m spot strike vol rate time true = max (spot - strike) 0 ∧
    black_scholes_price m spot strike vol rate time false = max (strike - spot) 0 ∧
    0 ≤ max (spot - strike) 0 ∧ 0 ≤ max (strike - spot) 0 ∧
    (vol * m.sqrt time = 0 → ∀ x, ieee_div m x (vol * m.sqrt time) = m.div_zero x) := by
  refine ⟨?_, ?_, le_max_right _ _, le_max_right _ _, ?_⟩
  · unfold black_scholes_price
    rw [if_pos h]
    rfl
  · unfold black_scholes_price
    rw [if_pos h]
    rfl
  · intro h0 x
    exact ieee_div_zero m x _ h0

/-- C19 at spot 100, strike 90, volatility 0, rate 0.05 and one year. -/
theorem black_scholes_degenerate_witness :
    ((1 : ℚ) ≤ 0 ∨ (0 : ℚ) ≤ 0) ∧
    (black_scholes_price sample_libm 100 90 0 (1 / 20) 1 true = max (100 - 90) 0 ∧
    black_scholes_price sample_libm 100 90 0 (1 / 20) 1 false = max (90 - 100) 0 ∧
    (0 : ℚ) ≤ max (100 - 90) 0 ∧ (0 : ℚ) ≤ max (90 - 100) 0 ∧
    ((0 : ℚ) * sample_libm.sqrt 1 = 0 →
      ∀ x, ieee_div sample_libm x ((0 : ℚ) * sample_libm.sqrt 1) = sample_libm.div_zero x)) :=
  ⟨Or.inr le_rfl, black_scholes_degenerate sample_libm 100 90 0 (1 / 20) 1 (Or.inr le_rfl)⟩

/-- C22. For every Greeks list and position list of equal length, `total_portfolio_delta`
returns the sum over `i` of `greeks[i].delta * positions[i].quantity`; for a portfolio of
equities only, the portfolio delta of the batch of Greeks is the sum of the quantities. -/
theorem total_portfolio_delta_sum (m : Libm α) (greeks : List (Greeks α))
    (positions : List (Position α)) (bump_size : α)
    (h : greeks.length = positions.length) :
    total_portfolio_delta greeks positions
      = some (List.zipWith (fun g pos => g.delta * pos.quantity) greeks positions).sum ∧
    ((∀ pos ∈ positions, pos.type = PositionType.STOCK) →
      total_portfolio_delta (calculate_all_greeks_single m positions bump_size) positions
        = some (positions.map (fun pos => pos.quantity)).sum) := by
  refine ⟨total_portfolio_delta_eq greeks positions h, ?_⟩
  intro hs
  rw [calculate_all_greeks_single_eq, map_stock_greeks m positions bump_size hs,
    total_portfolio_delta_eq _ positions (by rw [List.length_map]), zipWith_stock_delta]

/-- C22 at the five equities of `mixed_positions` with deltas 1, 1/2, 1/4, 0 and -1: the
portfolio delta is 100 - 10 - 25/2 + 0 - 20 = 115/2. -/
theorem total_portfolio_delta_sum_witness :
    ([⟨150, 1, 0, 0, 0⟩, ⟨300, 1 / 2, 0, 0, 0⟩, ⟨150, 1 / 4, 0, 0, 0⟩, ⟨120, 0, 0, 0, 0⟩,
      ⟨310, -1, 0, 0, 0⟩] : List (Greeks ℚ)).length = mixed_positions.length ∧
    total_portfolio_delta
      ([⟨150, 1, 0, 0, 0⟩, ⟨300, 1 / 2, 0, 0, 0⟩, ⟨150, 1 / 4, 0, 0, 0⟩, ⟨120, 0, 0, 0, 0⟩,
        ⟨310, -1, 0, 0, 0⟩] : List (Greeks ℚ)) mixed_positions = some (115 / 2) ∧
    total_portfolio_delta
      (calculate_all_greeks_single sample_libm mixed_positions (1 / 100)) mixed_positions
      = some 60 := by
  have hl : ([⟨150, 1, 0, 0, 0⟩, ⟨300, 1 / 2, 0, 0, 0⟩, ⟨150, 1 / 4, 0, 0, 0⟩,
      ⟨120, 0, 0, 0, 0⟩, ⟨310, -1, 0, 0, 0⟩] : List (Greeks ℚ)).length
      = mixed_positions.length := rfl
  obtain ⟨h1, h2⟩ := total_portfolio_delta_sum sample_libm _ mixed_positions (1 / 100) hl
  have hs : ∀ pos ∈ mixed_positions, pos.type = PositionType.STOCK := by
    intro pos hpos
    simp only [mixed_positions, List.mem_cons, List.mem_singleton, List.not_mem_nil,
      or_false] at hpos
    rcases hpos with h | h | h | h | h <;> rw [h] <;> rfl
  have hg2 := h2 hs
  refine ⟨hl, ?_, ?_⟩
  · rw [h1]
    norm_num [mixed_positions, stock_position]
  · rw [hg2]
    norm_num [mixed_positions, stock_position]

/-- C24. For every `T ≥ 1`, `run_monte_carlo_multi` is `calculate_var` applied once to the
concatenation, in worker order `t = 0 .. T-1`, of
`simulate_portfolio_pnl(positions, n_t, horizon, (seed + 12345 * t) mod 2^32)` with
`n_t = n / T + (1 if t < n mod T else 0)`. -/
theorem run_monte_carlo_multi_concatenation (m : Libm α) (g : Rng α)
    (positions : List (Position α)) (n : Nat) (time_horizon : α) (T : Nat) (seed : Nat)
    (hT : 1 ≤ T) :
    run_monte_carlo_multi m g positions n time_horizon T seed
      = calculate_var m
          ((List.range T).map (fun t =>
            simulate_portfolio_pnl m g positions (n / T + (if t < n % T then 1 else 0))
              time_horizon ((seed + 12345 * t) % 2 ^ 32))).flatten := by
  unfold run_monte_carlo_multi monte_carlo_all_pnl monte_carlo_thread_results
  rw [if_neg (by omega)]
  congr 3
  funext t
  unfold sims_for_thread thread_seed
  rw [Nat.mul_comm t 12345]

/-- C24 at five positions, ten trials, four workers and seed 42. -/
theorem run_monte_carlo_multi_concatenation_witness :
    1 ≤ 4 ∧
    run_monte_carlo_multi sample_libm sample_rng mixed_positions 10 (1 / 252) 4 42
      = calculate_var sample_libm
          ((List.range 4).map (fun t =>
            simulate_portfolio_pnl sample_libm sample_rng mixed_positions
              (10 / 4 + (if t < 10 % 4 then 1 else 0)) (1 / 252)
              ((42 + 12345 * t) % 2 ^ 32))).flatten :=
  ⟨by decide,
    run_monte_carlo_multi_concatenation sample_libm sample_rng mixed_positions 10 (1 / 252)
      4 42 (by decide)⟩

/-- C27. For every position list and every `T ≥ 1`, the single- and the multi-threaded
result both satisfy `total_long_exposure ≥ 0`, `total_short_exposure ≥ 0`,
`total_long_exposure - total_short_exposure = net_exposure`, and the `position_count`
values of all symbols add up to `total_positions`. -/
theorem aggregation_invariants (positions : List (Position α)) (T : Nat) (hT : 1 ≤ T) :
    ∃ rs rm, aggregate_positions_single positions = some rs ∧
      aggregate_positions_multi positions T = some rm ∧
      (0 ≤ rs.total_long_exposure ∧ 0 ≤ rs.total_short_exposure ∧
        rs.total_long_exposure - rs.total_short_exposure = rs.net_exposure ∧
        (rs.by_symbol.map (fun se => se.2.position_count)).sum = rs.total_positions) ∧
      (0 ≤ rm.total_long_exposure ∧ 0 ≤ rm.total_short_exposure ∧
        rm.total_long_exposure - rm.total_short_exposure = rm.net_exposure ∧
        (rm.by_symbol.map (fun se => se.2.position_count)).sum = rm.total_positions) := by
  obtain ⟨h1, h2, h3⟩ := exposure_sums_invariant positions
  refine ⟨single_total positions, multi_total positions T,
    aggregate_positions_single_eq positions, aggregate_positions_multi_eq positions T hT,
    ?_, ?_⟩
  · obtain ⟨_, _, _, _, hn, t1, t2, t3, t4, _⟩ := single_total_facts positions ""
    rw [t1, t2, t3, t4]
    refine ⟨h1, h2, h3, position_count_sum positions _ hn ?_ ?_⟩
    · intro s
      exact (single_total_facts positions s).2.2.2.1
    · intro s
      exact (single_total_facts positions s).2.2.1
  · obtain ⟨_, _, _, _, hn, t1, t2, t3, t4, _⟩ := multi_total_facts positions T hT ""
    rw [t1, t2, t3, t4]
    refine ⟨h1, h2, h3, position_count_sum positions _ hn ?_ ?_⟩
    · intro s
      exact (multi_total_facts positions T hT s).2.2.2.1
    · intro s
      exact (multi_total_facts positions T hT s).2.2.1

/-- C27 at five positions of three symbols and two workers. -/
theorem aggregation_invariants_witness :
    1 ≤ 2 ∧
    ∃ rs rm, aggregate_positions_single mixed_positions = some rs ∧
      aggregate_positions_multi mixed_positions 2 = some rm ∧
      (0 ≤ rs.total_long_exposure ∧ 0 ≤ rs.total_short_exposure ∧
        rs.total_long_exposure - rs.total_short_exposure = rs.net_exposure ∧
        (rs.by_symbol.map (fun se => se.2.position_count)).sum = rs.total_positions) ∧
      (0 ≤ rm.total_long_exposure ∧ 0 ≤ rm.total_short_exposure ∧
        rm.total_long_exposure - rm.total_short_exposure = rm.net_exposure ∧
        (rm.by_symbol.map (fun se => se.2.position_count)).sum = rm.total_positions) :=
  ⟨by decide, aggregation_invariants mixed_positions 2 (by decide)⟩

/-- C28. `calculate_var` is invariant under reordering of its input: a permutation of the
samples gives the same result in all five fields, so the order in which the per-worker
sample sequences are concatenated does not affect the summary. -/
theorem calculate_var_reorder_invariant (m : Libm α) (l1 l2 : List α) (h : l1.Perm l2) :
    calculate_var m l1 = calculate_var m l2 ∧
    (∀ r1 r2, calculate_var m l1 = some r1 → calculate_var m l2 = some r2 →
      r1.var_95 = r2.var_95 ∧ r1.var_99 = r2.var_99 ∧
      r1.expected_shortfall = r2.expected_shortfall ∧ r1.mean_pnl = r2.mean_pnl ∧
      r1.std_pnl = r2.std_pnl) ∧
    (∀ parts1 parts2 : List (List α), parts1.flatten = l1 → parts1.Perm parts2 →
      calculate_var m parts2.flatten = calculate_var m l1) := by
  have h0 := calculate_var_perm m l1 l2 h
  refine ⟨h0, ?_, ?_⟩
  · intro r1 r2 e1 e2
    rw [h0, e2] at e1
    cases e1
    exact ⟨rfl, rfl, rfl, rfl, rfl⟩
  · intro parts1 parts2 hf hp
    rw [← hf]
    exact calculate_var_perm m _ _ hp.flatten.symm

/-- C28 at the samples 3, -1, 2 and their reordering -1, 2, 3. -/
theorem calculate_var_reorder_invariant_witness :
    ([3, -1, 2] : List ℚ).Perm [-1, 2, 3] ∧
    (calculate_var sample_libm [3, -1, 2] = calculate_var sample_libm [-1, 2, 3] ∧
    (∀ r1 r2, calculate_var sample_libm [3, -1, 2] = some r1 →
      calculate_var sample_libm [-1, 2, 3] = some r2 →
      r1.var_95 = r2.var_95 ∧ r1.var_99 = r2.var_99 ∧
      r1.expected_shortfall = r2.expected_shortfall ∧ r1.mean_pnl = r2.mean_pnl ∧
      r1.std_pnl = r2.std_pnl) ∧
    (∀ parts1 parts2 : List (List ℚ), parts1.flatten = [3, -1, 2] → parts1.Perm parts2 →
      calculate_var sample_libm parts2.flatten = calculate_var sample_libm [3, -1, 2])) := by
  have hp : ([3, -1, 2] : List ℚ).Perm [-1, 2, 3] :=
    (List.perm_append_comm : ([3] ++ [-1, 2] : List ℚ).Perm ([-1, 2] ++ [3]))
  exact ⟨hp, calculate_var_reorder_invariant sample_libm _ _ hp⟩

/-- C29. With a single worker the parallel run coincides with the baseline: for every
seed that is an `unsigned int`, `run_monte_carlo_multi(positions, n, horizon, 1, seed)`
equals `run_monte_carlo_single(positions, n, horizon, seed)`; worker 0 gets all `n` trials
and the unmodified seed. -/
theorem run_monte_carlo_multi_one_worker (m : Libm α) (g : Rng α)
    (positions : List (Position α)) (n : Nat) (time_horizon : α) (seed : Nat)
    (hseed : seed < 2 ^ 32) :
    run_monte_carlo_multi m g positions n time_horizon 1 seed
      = run_monte_carlo_single m g positions n time_horizon seed ∧
    sims_for_thread n 1 0 = n ∧ thread_seed seed 0 = seed := by
  have h1 : sims_for_thread n 1 0 = n := by
    unfold sims_for_thread
    rw [Nat.div_one, Nat.mod_one, if_neg (Nat.lt_irrefl 0), Nat.add_zero]
  have h2 : thread_seed seed 0 = seed := by
    unfold thread_seed
    rw [Nat.zero_mul, Nat.add_zero, Nat.mod_eq_of_lt hseed]
  refine ⟨?_, h1, h2⟩
  unfold run_monte_carlo_multi run_monte_carlo_single monte_carlo_all_pnl
    monte_carlo_thread_results
  have hr : List.range 1 = [0] := rfl
  rw [if_neg (by decide), hr]
  simp only [List.map_cons, List.map_nil, List.flatten_cons, List.flatten_nil,
    List.append_nil, h1, h2]

/-- C29 at five positions, 100 trials and the default seed 42. -/
theorem run_monte_carlo_multi_one_worker_witness :
    42 < 2 ^ 32 ∧
    (run_monte_carlo_multi sample_libm sample_rng mixed_positions 100 (1 / 252) 1 42
      = run_monte_carlo_single sample_libm sample_rng mixed_positions 100 (1 / 252) 42 ∧
    sims_for_thread 100 1 0 = 100 ∧ thread_seed 42 0 = 42) :=
  ⟨by decide,
    run_monte_carlo_multi_one_worker sample_libm sample_rng mixed_positions 100 (1 / 252) 42
      (by decide)⟩

/-- C30. For every non-empty sample vector of length `n`,
`floor(0.01 n) ≤ floor(0.05 n) ≤ n - 1`; the two look-ups and every read `sorted[i]` with
`i ≤ floor(0.01 n)` of the expected-shortfall loop are within the sorted vector, the
divisors `floor(0.01 n) + 1` and `n` are not zero, and `calculate_var` returns a result. -/
theorem calculate_var_in_bounds (m : Libm α) (pnl_values : List α) (h : pnl_values ≠ []) :
    idx_99 pnl_values.length ≤ idx_95 pnl_values.length ∧
    idx_95 pnl_values.length ≤ pnl_values.length - 1 ∧
    (std_sort (fun a b : α => a < b) pnl_values).length = pnl_values.length ∧
    (∃ v, (std_sort (fun a b : α => a < b) pnl_values)[idx_95 pnl_values.length]? = some v) ∧
    (∃ v, (std_sort (fun a b : α => a < b) pnl_values)[idx_99 pnl_values.length]? = some v) ∧
    (∀ i, i ≤ idx_99 pnl_values.length →
      ∃ v, (std_sort (fun a b : α => a < b) pnl_values)[i]? = some v) ∧
    ((idx_99 pnl_values.length + 1 : Nat) : α) ≠ 0 ∧
    ((pnl_values.length : Nat) : α) ≠ 0 ∧
    ∃ r, calculate_var m pnl_values = some r := by
  have hpos : 0 < pnl_values.length := List.length_pos.2 h
  obtain ⟨b1, b2, b3⟩ := idx_bounds pnl_values.length hpos
  have hlen := std_sort_length (fun a b : α => a < b) pnl_values
  have hget : ∀ i, i < pnl_values.length →
      ∃ v, (std_sort (fun a b : α => a < b) pnl_values)[i]? = some v := by
    intro i hi
    exact ⟨_, List.getElem?_eq_getElem (by rw [hlen]; exact hi)⟩
  refine ⟨b1, by omega, hlen, hget _ b2, hget _ b3, fun i hi => hget i (by omega), ?_, ?_,
    _, calculate_var_eq_total m pnl_values h⟩
  · exact Nat.cast_ne_zero.2 (by omega)
  · exact Nat.cast_ne_zero.2 (by omega)

/-- C30 at the samples -500, ..., 499 of the test. -/
theorem calculate_var_in_bounds_witness :
    test_samples ≠ [] ∧
    (idx_99 test_samples.length ≤ idx_95 test_samples.length ∧
    idx_95 test_samples.length ≤ test_samples.length - 1 ∧
    (std_sort (fun a b : ℚ => a < b) test_samples).length = test_samples.length ∧
    (∃ v, (std_sort (fun a b : ℚ => a < b) test_samples)[idx_95 test_samples.length]?
      = some v) ∧
    (∃ v, (std_sort (fun a b : ℚ => a < b) test_samples)[idx_99 test_samples.length]?
      = some v) ∧
    (∀ i, i ≤ idx_99 test_samples.length →
      ∃ v, (std_sort (fun a b : ℚ => a < b) test_samples)[i]? = some v) ∧
    ((idx_99 test_samples.length + 1 : Nat) : ℚ) ≠ 0 ∧
    ((test_samples.length : Nat) : ℚ) ≠ 0 ∧
    ∃ r, calculate_var sample_libm test_samples = some r) :=
  ⟨test_samples_ne_nil, calculate_var_in_bounds sample_libm test_samples test_samples_ne_nil⟩

/-- C26. Given the outcome of each OS tuning call, `apply_system_config` makes exactly the
requested calls, in order and whatever the earlier outcomes were (affinity when the CPU list
is non-empty, NUMA binding when `numa_node ≥ 0`, memory lock, realtime priority, then the
two prefault calls); it returns true if and only if none of the requested affinity, NUMA,
lock and realtime calls failed; prefault and preallocation never change the returned
value; and a config requesting nothing returns true. -/
theorem apply_system_config_best_effort (os : OsCalls) (config : SystemConfig) :
    (apply_system_config os config).2 =
      (if config.cpu_affinity ≠ [] then [SystemOp.set_thread_affinity config.cpu_affinity]
        else []) ++
      (if config.numa_node ≥ 0 then [SystemOp.bind_numa_node config.numa_node] else []) ++
      (if config.lock_memory then [SystemOp.lock_memory] else []) ++
      (if config.realtime_priority then [SystemOp.set_realtime_priority 50] else []) ++
      (if config.prefault_memory then [SystemOp.prefault_stack 64] else []) ++
      (if config.preallocate_mb > 0 then [SystemOp.prefault_heap config.preallocate_mb]
        else []) ∧
    ((apply_system_config os config).1 = true ↔
      (config.cpu_affinity ≠ [] → os.sched_setaffinity config.cpu_affinity = true) ∧
      (config.numa_node ≥ 0 → os.bind_numa_node config.numa_node = true) ∧
      (config.lock_memory = true → os.lock_memory = true) ∧
      (config.realtime_priority = true → os.set_realtime_priority 50 = true)) ∧
    (∀ pf mb, (apply_system_config os
        { config with prefault_memory := pf, preallocate_mb := mb }).1
      = (apply_system_config os config).1) ∧
    (config.cpu_affinity = [] → config.numa_node < 0 → config.lock_memory = false →
      config.realtime_priority = false → (apply_system_config os config).1 = true) := by
  have hs := apply_system_config_eq os config
  have hc : (!config.cpu_affinity.isEmpty) = decide (config.cpu_affinity ≠ []) := by
    cases config.cpu_affinity <;> rfl
  have haff : config.cpu_affinity ≠ [] →
      set_thread_affinity os config.cpu_affinity = os.sched_setaffinity config.cpu_affinity := by
    intro h
    unfold set_thread_affinity
    cases hcpu : config.cpu_affinity with
    | nil => exact absurd hcpu h
    | cons a t => rfl
  refine ⟨?_, ?_, ?_, ?_⟩
  · rw [hs, hc]
    simp only [List.nil_append, decide_eq_true_eq]
  · rw [hs, hc]
    simp only [Bool.true_and, Bool.and_eq_true, Bool.or_eq_true, Bool.not_eq_true',
      decide_eq_false_iff_not, decide_eq_true_eq]
    by_cases h1 : config.cpu_affinity = []
    · simp only [h1, ne_eq, not_true_eq_false, not_false_eq_true, true_or, true_and,
        false_implies]
      constructor
      · rintro ⟨⟨h2, h3⟩, h4⟩
        refine ⟨?_, ?_, ?_⟩
        · intro h
          rcases h2 with h2 | h2
          · exact absurd h h2
          · exact h2
        · intro h
          rcases h3 with h3 | h3
          · rw [h] at h3; cases h3
          · exact h3
        · intro h
          rcases h4 with h4 | h4
          · rw [h] at h4; cases h4
          · exact h4
      · rintro ⟨h2, h3, h4⟩
        refine ⟨⟨?_, ?_⟩, ?_⟩
        · by_cases h : config.numa_node ≥ 0
          · exact Or.inr (h2 h)
          · exact Or.inl h
        · cases h : config.lock_memory
          · exact Or.inl rfl
          · exact Or.inr (h3 h)
        · cases h : config.realtime_priority
          · exact Or.inl rfl
          · exact Or.inr (h4 h)
    · rw [haff h1]
      simp only [h1, ne_eq, not_false_eq_true, not_true_eq_false, false_or, true_implies]
      constructor
      · rintro ⟨⟨⟨h0, h2⟩, h3⟩, h4⟩
        refine ⟨h0, ?_, ?_, ?_⟩
        · intro h
          rcases h2 with h2 | h2
          · exact absurd h h2
          · exact h2
        · intro h
          rcases h3 with h3 | h3
          · rw [h] at h3; cases h3
          · exact h3
        · intro h
          rcases h4 with h4 | h4
          · rw [h] at h4; cases h4
          · exact h4
      · rintro ⟨h0, h2, h3, h4⟩
        refine ⟨⟨⟨h0, ?_⟩, ?_⟩, ?_⟩
        · by_cases h : config.numa_node ≥ 0
          · exact Or.inr (h2 h)
          · exact Or.inl h
        · cases h : config.lock_memory
          · exact Or.inl rfl
          · exact Or.inr (h3 h)
        · cases h : config.realtime_priority
          · exact Or.inl rfl
          · exact Or.inr (h4 h)
  · intro pf mb
    rw [hs, apply_system_config_eq]
  · intro h1 h2 h3 h4
    rw [hs, h1, h3, h4]
    have h2' : decide (config.numa_node ≥ 0) = false := decide_eq_false (not_le.2 h2)
    rw [h2']
    rfl

/-- C21 (counterexample). The string `2147483648` is a well-formed CPU list (one token, a
non-negative decimal integer), yet `parse_cpu_list` returns no list for it: `std::stoi`
raises `std::out_of_range` because the number does not fit `int`. -/
theorem parse_cpu_list_out_of_range :
    (CpuToken.single "2147483648".data).well_formed ∧
      cpu_list_string [CpuToken.single "2147483648".data] = "2147483648" ∧
      parse_cpu_list "2147483648" = none := by
  refine ⟨⟨by decide, by decide⟩, by decide, by decide⟩

/-- C21. For every CPU-list string made of comma-separated well-formed tokens (each a
non-negative decimal integer, or a range `start-end` of two such integers) whose numbers
fit `int` and whose non-empty ranges end below `INT_MAX`, `parse_cpu_list` returns a
strictly increasing list whose elements are exactly the integers named by a single token
or lying in a range `start..end` inclusive; `0,2-4` gives `[0,2,3,4]` and `1,1,2` gives
`[1,2]`. -/
theorem parse_cpu_list_sorted_union (toks : List CpuToken)
    (h : ∀ t ∈ toks, t.well_formed ∧ t.fits_int) :
    (∃ cpus, parse_cpu_list (cpu_list_string toks) = some cpus ∧
      cpus.Sorted (fun a b => a < b) ∧ ∀ x, x ∈ cpus ↔ ∃ t ∈ toks, t.covers x) ∧
    parse_cpu_list "0,2-4" = some [0, 2, 3, 4] ∧
    parse_cpu_list "1,1,2" = some [1, 2] :=
  ⟨parse_cpu_list_tokens toks h, by decide, by decide⟩

/-- C21 at the tokens `0` and `2-4`, whose string is `0,2-4`. -/
theorem parse_cpu_list_sorted_union_witness :
    cpu_list_string [CpuToken.single ['0'], CpuToken.range ['2'] ['4']] = "0,2-4" ∧
    (∀ t ∈ [CpuToken.single ['0'], CpuToken.range ['2'] ['4']],
      t.well_formed ∧ t.fits_int) ∧
    ((∃ cpus, parse_cpu_list
        (cpu_list_string [CpuToken.single ['0'], CpuToken.range ['2'] ['4']]) = some cpus ∧
      cpus.Sorted (fun a b => a < b) ∧
      ∀ x, x ∈ cpus ↔ ∃ t ∈ [CpuToken.single ['0'], CpuToken.range ['2'] ['4']],
        t.covers x) ∧
    parse_cpu_list "0,2-4" = some [0, 2, 3, 4] ∧
    parse_cpu_list "1,1,2" = some [1, 2]) := by
  have hw : ∀ t ∈ [CpuToken.single ['0'], CpuToken.range ['2'] ['4']],
      t.well_formed ∧ t.fits_int := by
    intro t ht
    simp only [List.mem_cons, List.mem_singleton, List.not_mem_nil, or_false] at ht
    rcases ht with rfl | rfl
    · exact ⟨⟨by decide, by decide⟩,
        show (digits_value ['0'] : Int) ≤ INT_MAX by decide⟩
    · exact ⟨⟨⟨by decide, by decide⟩, ⟨by decide, by decide⟩⟩,
        show (digits_value ['2'] : Int) ≤ INT_MAX ∧ (digits_value ['4'] : Int) ≤ INT_MAX ∧
          (digits_value ['2'] ≤ digits_value ['4'] →
            (digits_value ['4'] : Int) < INT_MAX) from
          ⟨by decide, by decide, fun _ => by decide⟩⟩
  exact ⟨by decide, hw, parse_cpu_list_sorted_union _ hw⟩

/-- C25 fails at the range token `2147483648-1`: its end 1 lies below its start, but the
start does not fit `int`, so `std::stoi` raises `std::out_of_range` (system.cc line 294)
and no list is returned; the list `5,2147483648-1,7` fails likewise, while `5,7` parses. -/
theorem parse_cpu_list_reversed_range_out_of_range :
    is_number "2147483648".data ∧ is_number "1".data ∧
    digits_value "1".data < digits_value "2147483648".data ∧
    parse_cpu_list "2147483648-1" = none ∧
    parse_cpu_list "5,2147483648-1,7" = none ∧
    parse_cpu_list "5,7" = some [5, 7] := by
  refine ⟨⟨by decide, by decide⟩, ⟨by decide, by decide⟩, by decide, by decide, by decide,
    by decide⟩

/-- C25 as amended. For every range token `start-end` of two non-negative decimal integers
with `end < start` whose start fits `int` (is at most `INT_MAX`, hence so does the end), the
token yields no value and no error, and the parse of a CPU list containing it equals the
parse of the list without it; `parse_cpu_list("3-1")` returns the empty list. -/
theorem parse_cpu_list_reversed_range (pre post : List (List Char)) (a b : List Char)
    (hpre : ∀ t ∈ pre, ',' ∉ t ∧ t ≠ []) (hpost : ∀ t ∈ post, ',' ∉ t ∧ t ≠ [])
    (ha : is_number a) (hb : is_number b)
    (hfit : (digits_value a : Int) ≤ INT_MAX)
    (hlt : digits_value b < digits_value a) :
    parse_token (a ++ '-' :: b) = some [] ∧
    parse_cpu_list (String.mk (join_tokens (pre ++ (a ++ '-' :: b) :: post)))
      = parse_cpu_list (String.mk (join_tokens (pre ++ post))) ∧
    parse_cpu_list "3-1" = some [] := by
  obtain ⟨hca, hda, _⟩ := is_number_facts a ha
  obtain ⟨hcb, _, _⟩ := is_number_facts b hb
  have hdash : '-' ∈ a ++ '-' :: b := by simp
  have hcomma : ',' ∉ a ++ '-' :: b := by
    intro h0
    simp only [List.mem_append, List.mem_cons] at h0
    rcases h0 with h0 | h0 | h0
    · exact hca h0
    · exact absurd h0 (by decide)
    · exact hcb h0
  have hfb : (digits_value b : Int) ≤ INT_MAX := by
    have : (digits_value b : Int) < digits_value a := by exact_mod_cast hlt
    omega
  have hs : stoi ((a ++ '-' :: b).takeWhile (fun c => c ≠ '-'))
      = some (digits_value a : Int) := by
    rw [takeWhile_ne_dash a b hda]
    exact stoi_number a ha hfit
  have he : stoi (((a ++ '-' :: b).dropWhile (fun c => c ≠ '-')).drop 1)
      = some (digits_value b : Int) := by
    rw [dropWhile_ne_dash a b hda]
    exact stoi_number b hb hfb
  have ht := parse_token_reversed (a ++ '-' :: b) _ _ hdash hs he (by exact_mod_cast hlt)
  refine ⟨ht, ?_, by decide⟩
  have hall : ∀ t ∈ pre ++ (a ++ '-' :: b) :: post, ',' ∉ t ∧ t ≠ [] := by
    intro t h0
    rcases List.mem_append.1 h0 with h1 | h1
    · exact hpre t h1
    · rcases List.mem_cons.1 h1 with h2 | h2
      · subst h2
        exact ⟨hcomma, List.ne_nil_of_mem hdash⟩
      · exact hpost t h2
  have hall2 : ∀ t ∈ pre ++ post, ',' ∉ t ∧ t ≠ [] := by
    intro t h0
    rcases List.mem_append.1 h0 with h1 | h1
    · exact hpre t h1
    · exact hpost t h1
  rw [parse_cpu_list_join _ hall, parse_cpu_list_join _ hall2]
  have h := map_option_drop_empty pre post (a ++ '-' :: b) ht
  have hcomp : ∀ o : Option (List (List Int)),
      o.map (fun vss => std_unique (std_sort (fun a b : Int => a < b) vss.flatten))
        = (o.map List.flatten).map
            (fun l => std_unique (std_sort (fun a b : Int => a < b) l)) := by
    intro o
    cases o <;> rfl
  rw [hcomp, hcomp, h]

/-- C25 as amended, at the string `0,3-1,5`, which parses like `0,5`. -/
theorem parse_cpu_list_reversed_range_witness :
    String.mk (join_tokens ([['0']] ++ (['3'] ++ '-' :: ['1']) :: [['5']])) = "0,3-1,5" ∧
    parse_cpu_list "0,5" = some [0, 5] ∧
    is_number ['3'] ∧ is_number ['1'] ∧ (digits_value ['3'] : Int) ≤ INT_MAX ∧
    digits_value ['1'] < digits_value ['3'] ∧
    (parse_token (['3'] ++ '-' :: ['1']) = some [] ∧
    parse_cpu_list (String.mk (join_tokens ([['0']] ++ (['3'] ++ '-' :: ['1']) :: [['5']])))
      = parse_cpu_list (String.mk (join_tokens ([['0']] ++ [['5']]))) ∧
    parse_cpu_list "3-1" = some []) :=
  ⟨by decide, by decide, ⟨by decide, by decide⟩, ⟨by decide, by decide⟩, by decide, by decide,
    parse_cpu_list_reversed_range [['0']] [['5']] ['3'] ['1']
      (by decide) (by decide) ⟨by decide, by decide⟩ ⟨by decide, by decide⟩ (by decide)
      (by decide)⟩

/-- C23 fails at spot 100, strike 1000, vol 0.1, rate 0.05, time 0.01, all positive: with
a `<cmath>` whose `erfc` underflows to 0 from 28 on, as the `erfc` of binary64 does, `d1` is
below -99, both `normal_cdf` values are exactly 0 and the call price is exactly 0, not
strictly greater than 0. Such a `<cmath>` exists in the model. -/
theorem call_price_zero_when_erfc_underflows :
    (∃ m : Libm ℚ, m.erfc_underflows) ∧
    ((0 : ℚ) < 100 ∧ (0 : ℚ) < 1000 ∧ (0 : ℚ) < 1 / 10 ∧ (0 : ℚ) < 1 / 100) ∧
    ∀ m : Libm ℚ, m.erfc_underflows →
      black_scholes_price m 100 1000 (1 / 10) (1 / 20) (1 / 100) true = 0 ∧
      ¬ (0 < black_scholes_price m 100 1000 (1 / 10) (1 / 20) (1 / 100) true) := by
  refine ⟨?_, ⟨by norm_num, by norm_num, by norm_num, by norm_num⟩, ?_⟩
  · have hm : Libm.erfc_underflows
        { erfc := fun x => if 28 ≤ x then 0 else 1
          exp := fun _ => 1
          log := fun _ => -23 / 10
          sqrt := fun _ => 1 / 10
          M_SQRT1_2 := 7071 / 10000
          M_PI := 22 / 7
          div_zero := fun _ => 0 } := by
      refine ⟨?_, ?_, ?_, ?_, ?_⟩
      · intro x hx
        simp only [if_pos hx]
      · norm_num
      · norm_num
      · norm_num
      · norm_num
    exact ⟨_, hm⟩
  · intro m hm
    obtain ⟨herfc, hlog, hs0, hs1, hc⟩ := hm
    have hD : (0 : ℚ) < 1 / 10 * m.sqrt (1 / 100) := mul_pos (by norm_num) hs0
    have hprice := black_scholes_price_closed_form m 100 1000 (1 / 10) (1 / 20) (1 / 100)
      true (by norm_num) (by norm_num) (by norm_num) hD.ne'
    rw [if_pos rfl] at hprice
    have hratio : (100 : ℚ) / 1000 = 1 / 10 := by norm_num
    rw [hratio] at hprice
    have hd1 : (m.log (1 / 10) + (1 / 20 + 1 / 2 * (1 / 10) * (1 / 10)) * (1 / 100))
        / (1 / 10 * m.sqrt (1 / 100)) ≤ -99 := by
      rw [div_le_iff₀ hD]
      nlinarith
    have hN : ∀ d : ℚ, d ≤ -99 → normal_cdf m d = 0 := by
      intro d hd
      unfold normal_cdf
      rw [herfc _ (by nlinarith), mul_zero]
    have hzero : black_scholes_price m 100 1000 (1 / 10) (1 / 20) (1 / 100) true = 0 := by
      rw [hprice, hN _ hd1, hN _ (by linarith)]
      ring
    exact ⟨hzero, by rw [hzero]; exact lt_irrefl 0⟩

/-- C23 as amended. Over exact real arithmetic, with `double` read as the reals and the
`<cmath>` functions as the exact real functions (`m.exact_real`): for every spot > 0,
strike > 0, vol > 0, time > 0 and every rate, `black_scholes_price(spot, strike, vol, rate,
time, true)` is strictly greater than 0 and strictly less than spot; for
spot = strike = 100, vol = 0.2, rate = 0.05, time = 1 it is within 0.5 of 10.45. -/
theorem black_scholes_call_price_bounds (m : Libm ℝ) (hm : m.exact_real)
    (spot strike vol rate time : ℝ)
    (hS : 0 < spot) (hK : 0 < strike) (hv : 0 < vol) (ht : 0 < time) :
    (0 < black_scholes_price m spot strike vol rate time true ∧
      black_scholes_price m spot strike vol rate time true < spot) ∧
    |black_scholes_price m 100 100 (1 / 5) (1 / 20) 1 true - 1045 / 100| ≤ 1 / 2 :=
  ⟨black_scholes_call_bounds m hm spot strike vol rate time hS hK hv ht,
    black_scholes_call_test_value m hm⟩

/-- C23 as amended, at the exact real functions and the inputs of the test. -/
theorem black_scholes_call_price_bounds_witness :
    ∃ m : Libm ℝ, m.exact_real ∧ (0 : ℝ) < 100 ∧ (0 : ℝ) < 1 / 5 ∧ (0 : ℝ) < 1 ∧
      ((0 < black_scholes_price m 100 100 (1 / 5) (1 / 20) 1 true ∧
        black_scholes_price m 100 100 (1 / 5) (1 / 20) 1 true < 100) ∧
      |black_scholes_price m 100 100 (1 / 5) (1 / 20) 1 true - 1045 / 100| ≤ 1 / 2) := by
  have hm : Libm.exact_real
      { erfc := fun x => 2 / Real.sqrt Real.pi * ∫ t in Set.Ioi x, Real.exp (-t ^ 2)
        exp := Real.exp
        log := Real.log
        sqrt := Real.sqrt
        M_SQRT1_2 := 1 / Real.sqrt 2
        M_PI := Real.pi
        div_zero := fun _ => 0 } :=
    ⟨fun _ => rfl, fun _ => rfl, fun _ => rfl, fun _ => rfl, rfl, rfl⟩
  exact ⟨_, hm, by norm_num, by norm_num, by norm_num,
    black_scholes_call_price_bounds _ hm 100 100 (1 / 5) (1 / 20) 1
      (by norm_num) (by norm_num) (by norm_num) (by norm_num)⟩

/-- C31. Put-call parity with `double` read as the reals and the `<cmath>` functions as the
exact real functions (`m.exact_real`, so that `normal_cdf` is the standard normal
distribution function): for every spot > 0, strike > 0, vol > 0, time > 0 and every rate,
`black_scholes_price(..., true) - black_scholes_price(..., false)` equals
`spot - strike * exp(-rate * time)`. -/
theorem black_scholes_put_call_parity (m : Libm ℝ) (hm : m.exact_real)
    (spot strike vol rate time : ℝ)
    (_hS : 0 < spot) (hK : 0 < strike) (hv : 0 < vol) (ht : 0 < time) :
    black_scholes_price m spot strike vol rate time true
        - black_scholes_price m spot strike vol rate time false
      = spot - strike * Real.exp (-rate * time) :=
  black_scholes_parity m hm spot strike vol rate time hK hv ht

/-- C31 at the exact real functions and spot = strike = 100, vol = 0.2, rate = 0.05,
time = 1. -/
theorem black_scholes_put_call_parity_witness :
    ∃ m : Libm ℝ, m.exact_real ∧ (0 : ℝ) < 100 ∧ (0 : ℝ) < 1 / 5 ∧ (0 : ℝ) < 1 ∧
      black_scholes_price m 100 100 (1 / 5) (1 / 20) 1 true
          - black_scholes_price m 100 100 (1 / 5) (1 / 20) 1 false
        = 100 - 100 * Real.exp (-(1 / 20) * 1) := by
  have hm : Libm.exact_real
      { erfc := fun x => 2 / Real.sqrt Real.pi * ∫ t in Set.Ioi x, Real.exp (-t ^ 2)
        exp := Real.exp
        log := Real.log
        sqrt := Real.sqrt
        M_SQRT1_2 := 1 / Real.sqrt 2
        M_PI := Real.pi
        div_zero := fun _ => 0 } :=
    ⟨fun _ => rfl, fun _ => rfl, fun _ => rfl, fun _ => rfl, rfl, rfl⟩
  exact ⟨_, hm, by norm_num, by norm_num, by norm_num,
    black_scholes_put_call_parity _ hm 100 100 (1 / 5) (1 / 20) 1
      (by norm_num) (by norm_num) (by norm_num) (by norm_num)⟩

/-- C32. `get_top_exposures` selects a true top-k: for every result whose map has one entry
per symbol and every `k`, every returned entry is an entry of `result.by_symbol`, no symbol
is returned twice, and every entry of `result.by_symbol` whose symbol is not returned has
`|notional|` at most the `|notional|` of every returned entry; the same holds for the first
`k` entries of any vector holding the map entries in non-increasing `|notional|`, whatever
the iteration order of the map and the order `std::sort` gives to ties. -/
theorem get_top_exposures_top_k (result : AggregationResult α) (k : Nat)
    (hnd : (map_keys result.by_symbol).Nodup) :
    ((∀ e ∈ get_top_exposures result k, e ∈ result.by_symbol) ∧
      (map_keys (get_top_exposures result k)).Nodup ∧
      (∀ e ∈ result.by_symbol, e.1 ∉ map_keys (get_top_exposures result k) →
        ∀ r ∈ get_top_exposures result k, |e.2.notional| ≤ |r.2.notional|)) ∧
    (∀ S : List (String × NetExposure α), S.Perm result.by_symbol →
      S.Pairwise (fun a b => |a.2.notional| ≥ |b.2.notional|) →
      (∀ e ∈ S.take k, e ∈ result.by_symbol) ∧
      (map_keys (S.take k)).Nodup ∧
      (∀ e ∈ result.by_symbol, e.1 ∉ map_keys (S.take k) →
        ∀ r ∈ S.take k, |e.2.notional| ≤ |r.2.notional|)) := by
  refine ⟨?_, fun S hperm hsorted => take_sorted_top_k S result.by_symbol k hperm hsorted hnd⟩
  rw [get_top_exposures_eq_take]
  exact take_sorted_top_k _ result.by_symbol k (std_sort_perm _ _)
    (std_sort_exposure_sorted result.by_symbol) hnd

/-- C32 at three symbols with notionals 7500, -9000 and 1200 and `k = 2`: the entries of
MSFT and AAPL are returned, in this order. -/
theorem get_top_exposures_top_k_witness :
    (map_keys three_symbol_result.by_symbol).Nodup ∧
    get_top_exposures three_symbol_result 2
      = [("MSFT", ⟨-30, -9000, 300, 2⟩), ("AAPL", ⟨50, 7500, 150, 2⟩)] ∧
    (((∀ e ∈ get_top_exposures three_symbol_result 2, e ∈ three_symbol_result.by_symbol) ∧
      (map_keys (get_top_exposures three_symbol_result 2)).Nodup ∧
      (∀ e ∈ three_symbol_result.by_symbol,
        e.1 ∉ map_keys (get_top_exposures three_symbol_result 2) →
        ∀ r ∈ get_top_exposures three_symbol_result 2, |e.2.notional| ≤ |r.2.notional|)) ∧
    (∀ S : List (String × NetExposure ℚ), S.Perm three_symbol_result.by_symbol →
      S.Pairwise (fun a b => |a.2.notional| ≥ |b.2.notional|) →
      (∀ e ∈ S.take 2, e ∈ three_symbol_result.by_symbol) ∧
      (map_keys (S.take 2)).Nodup ∧
      (∀ e ∈ three_symbol_result.by_symbol, e.1 ∉ map_keys (S.take 2) →
        ∀ r ∈ S.take 2, |e.2.notional| ≤ |r.2.notional|))) := by
  have hnd : (map_keys three_symbol_result.by_symbol).Nodup := by decide
  refine ⟨hnd, ?_, get_top_exposures_top_k three_symbol_result 2 hnd⟩
  norm_num [get_top_exposures, three_symbol_result, std_sort, exposure_comp,
    List.insertionSort, List.orderedInsert, abs_of_nonneg, abs_of_neg]

end Claims

end trading
